import Mathlib

/-!
# mkfs.ocfs2 — `mkfs_utils.c`

A shallow embedding of the allocation and layout helpers of
`src/mkfs.ocfs2/mkfs_utils.c`, followed by the properties proved about them.

Conventions of the embedding.

* C unsigned integers are natural numbers; every operation that can wrap in C
  is written with an explicit reduction modulo `2^16`, `2^32` or `2^64`.
* A bitmap buffer is a function from bit numbers to bit values, bit `nr`
  being the one that `ocfs2_set_bit (nr, …)` / `ocfs2_test_bit (nr, …)` address.
* A byte buffer is its size together with the value of every byte address.
* `exit(1)` and failed allocations are the `none` of an `Option`; the sizing
  helpers return an `Except`, whose error tells `exit(1)` from an operation
  that C leaves undefined.
* What the code takes from headers that are not among the sources (constants,
  macros, field widths) and from the machine is a parameter of the embedding.
* A loop is a structurally recursive function over an explicit iteration
  budget; running out of budget is reported as a distinct outcome, so that
  every statement of the form "the call returns …" also proves termination.
-/

namespace Mkfs

/-! ## Machine integers -/

/-- Truncation to `uint16_t`. -/
@[reducible] def u16 (n : Nat) : Nat := n % 65536

/-- Truncation to `uint32_t`. -/
@[reducible] def u32 (n : Nat) : Nat := n % 4294967296

/-- Truncation to `uint64_t`. -/
@[reducible] def u64 (n : Nat) : Nat := n % 18446744073709551616

/-- Subtraction of two `uint32_t` values, wrapping as C does. -/
@[reducible] def u32_sub (a b : Nat) : Nat := (a + 4294967296 - b % 4294967296) % 4294967296

/-- Subtraction of two `uint16_t` values, wrapping as C does. -/
@[reducible] def u16_sub (a b : Nat) : Nat := (a + 65536 - b % 65536) % 65536

/-- The value `(uint32_t)-1`, which `find_clear_bits` uses for "not found". -/
@[reducible] def NOT_FOUND : Nat := 4294967295

/-! ## Records and bitmaps -/

/-- A bitmap buffer seen through the bit operations of libocfs2: the value of
every bit number.  The extent of the underlying allocation is not modelled. -/
abbrev BitBuf := Nat → Bool

/-- The `bi` member of a `SystemFileDiskRecord`: two 32-bit counters
(`format_file` emits them with `cpu_to_le32`). -/
structure BitInfo where
  used_bits : Nat
  total_bits : Nat
  deriving DecidableEq, Repr

/-- The group descriptor `ocfs2_group_desc` as far as `mkfs_utils.c` touches it.
`bg_bits`, `bg_free_bits_count`, `bg_chain` and `bg_size` are 16-bit fields
(`format_file` emits them with `cpu_to_le16`, `alloc_from_group` indexes the
bitmap with `uint16_t`); `bg_generation` is a 32-bit and `bg_parent_dinode`,
`bg_blkno` are 64-bit fields. -/
structure GroupDesc where
  bg_generation : Nat
  bg_size : Nat
  bg_bits : Nat
  bg_chain : Nat
  bg_parent_dinode : Nat
  bg_blkno : Nat
  bg_free_bits_count : Nat
  bg_bitmap : BitBuf

/-- The fields of `SystemFileDiskRecord` that `mkfs_utils.c` reads or writes.
`group` is the group descriptor reached through `rec->group->gd` (`none` for a
null `rec->group`). -/
structure SystemFileDiskRecord where
  fe_off : Nat
  extent_off : Nat
  extent_len : Nat
  file_size : Nat
  chain_off : Nat
  group : Option GroupDesc
  flags : Nat
  links : Nat
  dir : Bool
  suballoc_bit : Nat
  bi : BitInfo

/-- The structure `AllocBitmap`; the two record pointers are held by value. -/
structure AllocBitmap where
  buf : BitBuf
  valid_bits : Nat
  unit_bits : Nat
  unit : Nat
  bm_record : SystemFileDiskRecord
  alloc_record : SystemFileDiskRecord

/-- The structure `AllocGroup`: the descriptor block `gd` and the owning
record `alloc_inode`, held by value. -/
structure AllocGroup where
  gd : GroupDesc
  alloc_inode : SystemFileDiskRecord

/-- The fields of the global `State` that `mkfs_utils.c` reads or writes.  The
declaration is in `mkfs.h`, which is not among the sources; the widths are
those that `print_state` prints the fields with: `%u` for the block and
cluster sizes, their bit counts, `volume_size_in_clusters` and `initial_nodes`
(32 bits), `PRIu64` for `volume_size_in_blocks` and `unsigned long long` for
`volume_size_in_bytes` (64 bits).  Code that stores into a field reduces the
value to the width of the field. -/
structure State where
  blocksize : Nat
  blocksize_bits : Nat
  cluster_size : Nat
  cluster_size_bits : Nat
  pagesize_bits : Nat
  volume_size_in_bytes : Nat
  volume_size_in_clusters : Nat
  volume_size_in_blocks : Nat
  reserved_tail_size : Nat
  initial_nodes : Nat
  journal_size_in_bytes : Nat
  vol_generation : Nat
  format_time : Nat
  deriving DecidableEq, Repr

/-- A record as `memset (rec, 0, sizeof (SystemFileDiskRecord))` leaves it. -/
def zero_record : SystemFileDiskRecord :=
  { fe_off := 0, extent_off := 0, extent_len := 0, file_size := 0, chain_off := 0,
    group := none, flags := 0, links := 0, dir := false, suballoc_bit := 0,
    bi := { used_bits := 0, total_bits := 0 } }

/-! ## Bit operations of libocfs2 -/

/-- Modelled from the spec: `ocfs2_test_bit` of libocfs2 (`bitops.c` is not
among the sources): the value of bit `nr` of the buffer. -/
def ocfs2_test_bit (nr : Nat) (buf : BitBuf) : Bool := buf nr

/-- Modelled from the spec: `ocfs2_set_bit` of libocfs2 (`bitops.c` is not
among the sources): marks bit `nr` set and leaves all other bits as they were. -/
def ocfs2_set_bit (nr : Nat) (buf : BitBuf) : BitBuf :=
  fun i => if i = nr then true else buf i

/-- Scan of at most `n` bits upward from `off` for a bit equal to `want`; the
index of the first such bit, or `off + n` when there is none. -/
def scan_bits (buf : BitBuf) (want : Bool) : Nat → Nat → Nat
  | 0, off => off
  | n + 1, off => if ocfs2_test_bit off buf = want then off else scan_bits buf want n (off + 1)

/-- Modelled from the spec: `ocfs2_find_next_bit_clear (buf, size, off)` of
libocfs2 (`bitops.c` is not among the sources): the least index `>= off` and
`< size` whose bit is clear, or `size` if there is none. -/
def ocfs2_find_next_bit_clear (buf : BitBuf) (size off : Nat) : Nat :=
  if off < size then scan_bits buf false (size - off) off else size

/-- Modelled from the spec: `ocfs2_find_next_bit_set (buf, size, off)` of
libocfs2 (`bitops.c` is not among the sources): the least index `>= off` and
`< size` whose bit is set, or `size` if there is none. -/
def ocfs2_find_next_bit_set (buf : BitBuf) (size off : Nat) : Nat :=
  if off < size then scan_bits buf true (size - off) off else size

/-- Modelled from the spec: `ocfs2_find_first_bit_clear (buf, size)` of
libocfs2 (`bitops.c` is not among the sources): the least index `< size` whose
bit is clear, or `size` if there is none. -/
def ocfs2_find_first_bit_clear (buf : BitBuf) (size : Nat) : Nat :=
  ocfs2_find_next_bit_clear buf size 0

/-- The bits of a list, as a bitmap buffer (bits past the list are clear). -/
def bits_of (l : List Bool) : BitBuf := fun i => l.getD i false

/-! ## `find_clear_bits` -/

/-- The `while` loop of `find_clear_bits`, one iteration per unit of budget.
The state is the triple of locals `off`, `count`, `first_zero`; the result is
the value of `first_zero` on reaching the label `bail` (through `goto bail`, or
through the assignment `first_zero = -1` after the loop), and `none` if the
budget ran out before the loop ended. -/
def find_clear_bits_loop (bitmap : AllocBitmap) (num_bits : Nat) :
    Nat → Nat → Nat → Nat → Option Nat
  | 0, _, _, _ => none
  | fuel + 1, off, count, first_zero =>
    let size := bitmap.valid_bits
    if u32 (u32_sub size off + count) ≥ num_bits then
      let next_zero := ocfs2_find_next_bit_clear bitmap.buf size off
      if next_zero ≠ size then
        if next_zero ≥ bitmap.valid_bits then some NOT_FOUND
        else
          let off1 := if next_zero ≠ off then u32 (next_zero + 1) else u32 (off + 1)
          let count1 := if next_zero ≠ off then 0 else count
          let first_zero1 :=
            if next_zero ≠ off then next_zero
            else if count = 0 then next_zero else first_zero
          let count2 := u32 (count1 + 1)
          if count2 = num_bits then some first_zero1
          else find_clear_bits_loop bitmap num_bits fuel off1 count2 first_zero1
      else some NOT_FOUND
    else some NOT_FOUND

/-- The function `find_clear_bits (bitmap, num_bits, offset)`.  The result is
the 32-bit value of `first_zero` at the `return` (the C function hands it back
through an `int`, and its caller stores it in a `uint32_t` again, so
`(uint32_t)-1 = 4294967295` is the "not found" value).  `none` would mean
that the loop did not end within `valid_bits + 1` iterations. -/
def find_clear_bits (bitmap : AllocBitmap) (num_bits offset : Nat) : Option Nat :=
  match find_clear_bits_loop bitmap num_bits (bitmap.valid_bits + 1) offset 0 NOT_FOUND with
  | none => none
  | some first_zero =>
    if first_zero ≠ NOT_FOUND ∧ first_zero > bitmap.valid_bits then some NOT_FOUND
    else some first_zero

/-! ## `initialize_bitmap` and `alloc_from_bitmap` -/

/-- The function `initialize_bitmap (s, bits, unit_bits, name, bm_record,
alloc_record)`.  The buffer of `bm_record->extent_len` bytes is zero-filled.
`bits << unit_bits` is a shift of a `uint32_t`, so its value is reduced modulo
`2^32`; C leaves both shifts undefined for `unit_bits >= 32`, which is `none`
here. -/
def initialize_bitmap (bits unit_bits : Nat) (bm_record alloc_record : SystemFileDiskRecord) :
    Option AllocBitmap :=
  if unit_bits < 32 then
    let bitmap_len := bm_record.extent_len
    some
      { buf := fun _ => false
        valid_bits := bits
        unit_bits := unit_bits
        unit := u32 (1 * 2 ^ unit_bits)
        bm_record := { bm_record with
                        file_size := bitmap_len
                        fe_off := 0
                        bi := { used_bits := 0, total_bits := bits } }
        alloc_record := { alloc_record with
                            file_size := u32 (bits * 2 ^ unit_bits)
                            fe_off := 0 } }
  else none

/-- The loop `while (num_bits--) { ocfs2_set_bit (start_bit, buf); start_bit++; }`
of `alloc_from_bitmap`; `start_bit` is a `uint32_t`. -/
def set_bits_loop (buf : BitBuf) : Nat → Nat → BitBuf
  | 0, _ => buf
  | num_bits + 1, start_bit =>
    set_bits_loop (ocfs2_set_bit start_bit buf) num_bits (u32 (start_bit + 1))

/-- The function `alloc_from_bitmap (s, num_bits, bitmap, &start, &num)`,
returning the bitmap after the call together with `*start` and `*num`.
`num_bits` is a `uint64_t` and is truncated to 32 bits on the way into
`find_clear_bits`.  `none` is `exit(1)`: no run was found, or `do_malloc` /
`do_pwrite` failed, which the environment decides through `io_ok start num`
(can `num` zero bytes be allocated and written at byte offset `start`). -/
def alloc_from_bitmap (io_ok : Nat → Nat → Bool) (num_bits : Nat) (bitmap : AllocBitmap) :
    Option (AllocBitmap × Nat × Nat) :=
  match find_clear_bits bitmap (u32 num_bits) 0 with
  | none => none
  | some start_bit =>
    if start_bit = NOT_FOUND then none
    else
      let start := u64 (start_bit * 2 ^ bitmap.unit_bits)
      let num := u64 (num_bits * 2 ^ bitmap.unit_bits)
      if io_ok start num then
        some
          ({ bitmap with
              bm_record := { bitmap.bm_record with
                              bi := { bitmap.bm_record.bi with
                                      used_bits := u32 (bitmap.bm_record.bi.used_bits + num_bits) } }
              buf := set_bits_loop bitmap.buf num_bits start_bit },
            start, num)
      else none

/-- A sequence of `alloc_from_bitmap` calls, one per requested unit count, on
the same bitmap; the result is the final bitmap and the `(start, num)` pair of
every call in call order, or `none` as soon as one call exits. -/
def alloc_sequence (io_ok : Nat → Nat → Bool) :
    AllocBitmap → List Nat → Option (AllocBitmap × List (Nat × Nat))
  | bitmap, [] => some (bitmap, [])
  | bitmap, num_bits :: rest =>
    match alloc_from_bitmap io_ok num_bits bitmap with
    | none => none
    | some (bitmap1, start, num) =>
      match alloc_sequence io_ok bitmap1 rest with
      | none => none
      | some (bitmap2, ranges) => some (bitmap2, (start, num) :: ranges)

/-- Number of set bits among bits `0 .. n - 1`. -/
def popcount (buf : BitBuf) : Nat → Nat
  | 0 => 0
  | n + 1 => popcount buf n + (if ocfs2_test_bit n buf then 1 else 0)

/-! ## Allocation groups -/

/-- How a call that contains a possibly endless loop ends within a given
number of loop iterations. -/
inductive Outcome (α : Type) where
  /-- The call returned this value. -/
  | returned : α → Outcome α
  /-- The call ended the process with `exit(1)`. -/
  | fatal : Outcome α
  /-- The loop was still running when the iterations were used up. -/
  | running : Outcome α

/-- The function `initialize_alloc_group (s, name, alloc_inode, blkno, chain,
cpg, bpc)`.  `ocfs2_group_bitmap_size` is the inline function of `ocfs2_fs.h`,
which is not among the sources, and is taken as a parameter.  The descriptor
block is zero-filled before its fields are set; `cpg * bpc` is stored in the
16-bit field `bg_bits`, `bg_bits - 1` in the 16-bit field
`bg_free_bits_count`, and the difference `total_bits - bg_free_bits_count` in
the 32-bit counter `used_bits`. -/
def initialize_alloc_group (s : State) (ocfs2_group_bitmap_size : Nat → Nat)
    (alloc_inode : SystemFileDiskRecord) (blkno chain cpg bpc : Nat) : AllocGroup :=
  let bg_bits := u16 (cpg * bpc)
  let bg_free_bits_count := u16_sub bg_bits 1
  let total_bits := bg_bits
  { gd :=
      { bg_generation := s.vol_generation
        bg_size := u16 (u32 (ocfs2_group_bitmap_size s.blocksize))
        bg_bits := bg_bits
        bg_chain := chain
        bg_parent_dinode := alloc_inode.fe_off
        bg_blkno := blkno
        bg_free_bits_count := bg_free_bits_count
        bg_bitmap := ocfs2_set_bit 0 (fun _ => false) }
    alloc_inode := { alloc_inode with
                      bi := { total_bits := total_bits
                              used_bits := u32_sub total_bits bg_free_bits_count } } }

/-- The loop `for (*num_bits = 0; *num_bits < count; *num_bits += 1)
ocfs2_set_bit (start_bit + *num_bits, bg_bitmap)` of `alloc_from_group`, as a
function of the number of iterations made. -/
def set_group_bits (buf : BitBuf) (start_bit : Nat) : Nat → BitBuf
  | 0 => buf
  | n + 1 => ocfs2_set_bit (start_bit + n) (set_group_bits buf start_bit n)

/-- The `while (start_bit < bg_bits)` loop of `alloc_from_group`, one
iteration per unit of budget, with the `exit(1)` that follows it.  The
comparison `end_bit - start_bit >= count` is made in `int`. -/
def alloc_from_group_loop (group : AllocGroup) (count : Nat) :
    Nat → Nat → Outcome (AllocGroup × Nat × Nat)
  | 0, _ => Outcome.running
  | fuel + 1, start_bit =>
    if start_bit < group.gd.bg_bits then
      let end_bit := u16 (ocfs2_find_next_bit_set group.gd.bg_bitmap group.gd.bg_bits start_bit)
      if (end_bit : Int) - (start_bit : Int) ≥ (count : Int) then
        let num_bits := count
        Outcome.returned
          ({ gd := { group.gd with
                      bg_bitmap := set_group_bits group.gd.bg_bitmap start_bit count
                      bg_free_bits_count := u16_sub group.gd.bg_free_bits_count num_bits }
             alloc_inode := { group.alloc_inode with
                               bi := { group.alloc_inode.bi with
                                       used_bits := u32 (group.alloc_inode.bi.used_bits + num_bits) } } },
            u64 (group.gd.bg_blkno + start_bit), num_bits)
      else alloc_from_group_loop group count fuel end_bit
    else Outcome.fatal

/-- The function `alloc_from_group (s, count, group, &start_blkno, &num_bits)`
run for at most `fuel` iterations of its `while` loop: the group after the
call with `*start_blkno` and `*num_bits`, or `exit(1)`, or still looping. -/
def alloc_from_group (fuel : Nat) (count : Nat) (group : AllocGroup) :
    Outcome (AllocGroup × Nat × Nat) :=
  alloc_from_group_loop group count fuel
    (u16 (ocfs2_find_first_bit_clear group.gd.bg_bitmap group.gd.bg_bits))

/-- A group of `bg_bits` bits whose bitmap holds the given bits. -/
def group_of_bits (bits : List Bool) (free : Nat) : AllocGroup :=
  { gd := { bg_generation := 0, bg_size := 0, bg_bits := bits.length, bg_chain := 0,
            bg_parent_dinode := 0, bg_blkno := 100, bg_free_bits_count := free,
            bg_bitmap := bits_of bits }
    alloc_inode := { zero_record with
                      bi := { used_bits := bits.length - free, total_bits := bits.length } } }

/-! ## Byte buffers and little-endian fields -/

/-- A heap buffer: the number of bytes allocated and the value of every byte
address relative to its start. -/
structure ByteBuf where
  size : Nat
  data : Nat → Nat

/-- Store of consecutive bytes at offset `off` (`memcpy`, `strcpy`, or the
store of a multi-byte field). -/
def store_bytes (buf : ByteBuf) (off : Nat) (bytes : List Nat) : ByteBuf :=
  { buf with
    data := fun i => if off ≤ i ∧ i < off + bytes.length then bytes.getD (i - off) 0
                     else buf.data i }

/-- The two bytes that `cpu_to_le16 (v)` leaves in a 16-bit field. -/
def cpu_to_le16 (v : Nat) : List Nat := [v % 256, v / 256 % 256]

/-- The four bytes that `cpu_to_le32 (v)` leaves in a 32-bit field. -/
def cpu_to_le32 (v : Nat) : List Nat :=
  [v % 256, v / 256 % 256, v / 65536 % 256, v / 16777216 % 256]

/-- The eight bytes that `cpu_to_le64 (v)` leaves in a 64-bit field. -/
def cpu_to_le64 (v : Nat) : List Nat :=
  [v % 256, v / 256 % 256, v / 65536 % 256, v / 16777216 % 256, v / 4294967296 % 256,
    v / 1099511627776 % 256, v / 281474976710656 % 256, v / 72057594037927936 % 256]

/-- The value `le16_to_cpu` reads from the bytes of a 16-bit field. -/
def le16_to_cpu (bytes : List Nat) : Nat := bytes.getD 0 0 + 256 * bytes.getD 1 0

/-- The value `le32_to_cpu` reads from the bytes of a 32-bit field. -/
def le32_to_cpu (bytes : List Nat) : Nat :=
  bytes.getD 0 0 + 256 * bytes.getD 1 0 + 65536 * bytes.getD 2 0 + 16777216 * bytes.getD 3 0

/-- The value `le64_to_cpu` reads from the bytes of a 64-bit field. -/
def le64_to_cpu (bytes : List Nat) : Nat :=
  bytes.getD 0 0 + 256 * bytes.getD 1 0 + 65536 * bytes.getD 2 0 + 16777216 * bytes.getD 3 0 +
    4294967296 * bytes.getD 4 0 + 1099511627776 * bytes.getD 5 0 +
    281474976710656 * bytes.getD 6 0 + 72057594037927936 * bytes.getD 7 0

/-- The `n` bytes of the buffer from offset `off` on. -/
def load_bytes (buf : ByteBuf) (off n : Nat) : List Nat :=
  (List.range n).map (fun i => buf.data (off + i))

/-- Read of a 16-bit little-endian field at offset `off`. -/
def load_le16 (buf : ByteBuf) (off : Nat) : Nat := buf.data off + 256 * buf.data (off + 1)

/-- Read of a 64-bit little-endian field at offset `off`. -/
def load_le64 (buf : ByteBuf) (off : Nat) : Nat := le64_to_cpu (load_bytes buf off 8)

/-- Conversion of a 64-bit value to `int`: the low 32 bits, read as a signed
number. -/
def to_int32 (n : Nat) : Int :=
  if n % 4294967296 < 2147483648 then (n % 4294967296 : Nat) else (n % 4294967296 : Nat) - 4294967296

/-! ## Directories -/

/-- The structure `DirData`: the buffer (`none` for the null pointer), the
offset of the entry touched last, and the owning record, held by value. -/
structure DirData where
  buf : Option ByteBuf
  last_off : Nat
  record : SystemFileDiskRecord

/-- Modelled from the spec: offsets of the members of `struct ocfs2_dir_entry`
(`ocfs2_fs.h` is not among the sources); the on-disk directory entry is a
64-bit `inode`, a 16-bit `rec_len`, the bytes `name_len` and `file_type`, and
the name. -/
def DE_INODE : Nat := 0

/-- Modelled from the spec: offset of `rec_len` in `struct ocfs2_dir_entry`
(`ocfs2_fs.h` is not among the sources). -/
def DE_REC_LEN : Nat := 8

/-- Modelled from the spec: offset of `name_len` in `struct ocfs2_dir_entry`
(`ocfs2_fs.h` is not among the sources). -/
def DE_NAME_LEN : Nat := 10

/-- Modelled from the spec: offset of `file_type` in `struct ocfs2_dir_entry`
(`ocfs2_fs.h` is not among the sources). -/
def DE_FILE_TYPE : Nat := 11

/-- Modelled from the spec: offset of `name` in `struct ocfs2_dir_entry`
(`ocfs2_fs.h` is not among the sources), which is `OCFS2_DIR_MEMBER_LEN`. -/
def DE_NAME : Nat := 12

/-- Modelled from the spec: the macro `OCFS2_DIR_REC_LEN (name_len)` of
`ocfs2_fs.h` (not among the sources), "name length rounded to the fixed
record-length granularity of the on-disk directory-entry format":
`(name_len + 12 + 3) & ~3`. -/
def OCFS2_DIR_REC_LEN (name_len : Nat) : Nat := (name_len + 12 + 3) / 4 * 4

/-- Modelled from the spec: the constant `OCFS2_FT_DIR` of `ocfs2_fs.h` (not
among the sources), the entry type that "denotes a subdirectory". -/
def OCFS2_FT_DIR : Nat := 2

/-- The function `alloc_directory`: every member zero.  The record pointer is
set by the caller before the first entry is added; it is a parameter here. -/
def alloc_directory (record : SystemFileDiskRecord) : DirData :=
  { buf := none, last_off := 0, record := record }

/-- First part of `add_entry_to_directory`: when the directory has a buffer
and the entry at `last_off` is free and long enough, or has enough slack
behind its own name, the buffer (after the split, if one is made) and the
offset of the entry to fill; `none` when the directory has to grow. -/
def find_slack (dir : DirData) (new_rec_len : Nat) : Option (ByteBuf × Nat) :=
  match dir.buf with
  | none => none
  | some buf =>
    let de := dir.last_off
    let rec_len := load_le16 buf (de + DE_REC_LEN)
    let real_len := OCFS2_DIR_REC_LEN (buf.data (de + DE_NAME_LEN))
    if (load_le64 buf (de + DE_INODE) = 0 ∧ rec_len ≥ new_rec_len) ∨
        rec_len ≥ real_len + new_rec_len then
      if load_le64 buf (de + DE_INODE) ≠ 0 then
        let de1 := de + real_len
        let buf1 := store_bytes buf (de1 + DE_REC_LEN) (cpu_to_le16 (u16 (rec_len + 65536 - real_len)))
        let buf2 := store_bytes buf1 (de + DE_REC_LEN) (cpu_to_le16 (u16 real_len))
        some (buf2, de1)
      else some (buf, de)
    else none

/-- Second part of `add_entry_to_directory`: the directory grows by one
block.  `new_size` is an `int`; `memalign` fails (and the process exits,
`none`) when it is negative.  The result is the new buffer, with the old
content copied, the new block zero-filled and holding one free entry of
`rec_len = blocksize` (a 16-bit field), and the offset of that entry. -/
def grow_directory (s : State) (dir : DirData) : Option (ByteBuf × Nat) :=
  let new_size : Int :=
    match dir.buf with
    | some _ => to_int32 (u64 (dir.record.file_size + s.blocksize))
    | none => to_int32 s.blocksize
  if new_size < 0 then none
  else
    let p := match dir.buf with
      | some _ => dir.record.file_size
      | none => 0
    let new_buf : ByteBuf :=
      match dir.buf with
      | some old => { size := new_size.toNat, data := fun i => if i < p then old.data i else 0 }
      | none => { size := new_size.toNat, data := fun _ => 0 }
    let buf1 := store_bytes new_buf (p + DE_INODE) (cpu_to_le64 0)
    let buf2 := store_bytes buf1 (p + DE_REC_LEN) (cpu_to_le16 (u16 s.blocksize))
    some (buf2, p)

/-- Last part of `add_entry_to_directory` (label `got_it`): `name_len`,
`inode`, `file_type` and the name with its terminating zero byte are stored
in the entry at offset `de`, in this order.  `strcpy` stores the zero byte at
`de + 12 + strlen (name)`, which is the first byte behind the entry when the
name length is a multiple of 4 and the entry has no slack; the model stores it
at that address as well. -/
def fill_entry (s : State) (buf : ByteBuf) (de : Nat) (name : List Nat) (byte_off type : Nat) :
    ByteBuf :=
  let buf1 := store_bytes buf (de + DE_NAME_LEN) [name.length % 256]
  let buf2 := store_bytes buf1 (de + DE_INODE) (cpu_to_le64 (u64 byte_off / 2 ^ s.blocksize_bits))
  let buf3 := store_bytes buf2 (de + DE_FILE_TYPE) [type % 256]
  store_bytes buf3 (de + DE_NAME) (name ++ [0])

/-- The function `add_entry_to_directory (s, dir, name, byte_off, type)`; the
name is the list of the bytes of the C string, without the terminating zero.
`none` is the `exit(1)` after a failed `memalign`. -/
def add_entry_to_directory (s : State) (dir : DirData) (name : List Nat) (byte_off type : Nat) :
    Option DirData :=
  let new_rec_len := OCFS2_DIR_REC_LEN name.length
  match find_slack dir new_rec_len with
  | some (buf, de) =>
    some { buf := some (fill_entry s buf de name byte_off type)
           last_off := de
           record := { dir.record with
                        links := if type = OCFS2_FT_DIR then dir.record.links + 1
                                 else dir.record.links } }
  | none =>
    match grow_directory s dir with
    | none => none
    | some (buf, de) =>
      some { buf := some (fill_entry s buf de name byte_off type)
             last_off := de
             record := { dir.record with
                          file_size := buf.size
                          links := if type = OCFS2_FT_DIR then dir.record.links + 1
                                   else dir.record.links } }

/-- A sequence of `add_entry_to_directory` calls, each given by the name, the
byte offset and the type of the entry; `none` as soon as one call exits. -/
def add_entries (s : State) : DirData → List (List Nat × Nat × Nat) → Option DirData
  | dir, [] => some dir
  | dir, (name, byte_off, type) :: rest =>
    match add_entry_to_directory s dir name byte_off type with
    | none => none
    | some dir1 => add_entries s dir1 rest

/-- Walk of one directory block by `rec_len`, from the entry at `off` to the
end `stop` of the block, visiting at most `fuel` entries: the `rec_len` of
every entry met, provided that none is zero and that the last entry ends
exactly at `stop`. -/
def walk_block (buf : ByteBuf) (stop : Nat) : Nat → Nat → Option (List Nat)
  | 0, _ => none
  | fuel + 1, off =>
    let rec_len := load_le16 buf (off + DE_REC_LEN)
    if rec_len = 0 then none
    else if off + rec_len = stop then some [rec_len]
    else if off + rec_len < stop then
      match walk_block buf stop fuel (off + rec_len) with
      | none => none
      | some rest => some (rec_len :: rest)
    else none

/-- Walk of `n` consecutive blocks of `blocksize` bytes from offset `start`:
for every block the `rec_len` values of its entries, provided that every block
is tiled exactly. -/
def walk_blocks (buf : ByteBuf) (blocksize : Nat) : Nat → Nat → Option (List (List Nat))
  | 0, _ => some []
  | n + 1, start =>
    match walk_block buf (start + blocksize) blocksize start with
    | none => none
    | some lens =>
      match walk_blocks buf blocksize n (start + blocksize) with
      | none => none
      | some rest => some (lens :: rest)

/-- The `rec_len` values met on a walk of the whole directory buffer, block by
block. -/
def dir_rec_lens (buf : ByteBuf) (blocksize : Nat) : Option (List (List Nat)) :=
  walk_blocks buf blocksize (buf.size / blocksize) 0

/-- Entries with the `rec_len` values `lens` (each at least the 12 bytes of
the entry header) lie one behind the other from offset `a` to offset `b`. -/
def Tiles (buf : ByteBuf) : Nat → List Nat → Nat → Prop
  | a, [], b => a = b
  | a, r :: lens, b => load_le16 buf (a + DE_REC_LEN) = r ∧ 12 ≤ r ∧ Tiles buf (a + r) lens b

/-- Consecutive blocks of `blocksize` bytes from offset `a` on are tiled by
entries with the given `rec_len` values. -/
def BlocksTile (buf : ByteBuf) (blocksize : Nat) : Nat → List (List Nat) → Prop
  | _, [] => True
  | a, lens :: rest =>
    lens ≠ [] ∧ Tiles buf a lens (a + blocksize) ∧ BlocksTile buf blocksize (a + blocksize) rest

/-- Invariant of a directory that holds at least one entry: the buffer has the
size recorded in `file_size`, a multiple of the block size below `2^31`; all
blocks but the last are tiled by their entries; in the last block the entries
lead to the entry at `last_off`, whose `rec_len` reaches to the end of the
buffer. -/
def DirInv (blocksize : Nat) (dir : DirData) : Prop :=
  ∃ buf closed lens, dir.buf = some buf ∧ buf.size = dir.record.file_size ∧
    buf.size = closed.length * blocksize + blocksize ∧ buf.size < 2147483648 ∧
    BlocksTile buf blocksize 0 closed ∧
    Tiles buf (closed.length * blocksize) lens dir.last_off ∧
    load_le16 buf (dir.last_off + DE_REC_LEN) = buf.size - dir.last_off ∧
    12 ≤ buf.size - dir.last_off ∧ dir.last_off < buf.size

/-! ## `format_file` -/

/-- What `format_file` takes from `ocfs2_fs.h`, which is not among the
sources: the flag bits, the inode signature, and the three inline functions
that size the local allocator, the chain list and the extent list of an inode.
They are parameters of the model. -/
structure Ocfs2Fs where
  OCFS2_LOCAL_ALLOC_FL : Nat
  OCFS2_BITMAP_FL : Nat
  OCFS2_CHAIN_FL : Nat
  OCFS2_INODE_SIGNATURE : List Nat
  ocfs2_local_alloc_size : Nat → Nat
  ocfs2_chain_recs_per_inode : Nat → Nat
  ocfs2_extent_recs_per_inode : Nat → Nat

/-- The members of `ocfs2_dinode` that `format_file` sets.  Every member holds
the bytes stored in it, in address order; the position of the members in the
block is not modelled.  The members of the unions `id1` and `id2` are separate
fields: `format_file` writes one member of `id2` only, on every path. -/
structure ocfs2_dinode where
  i_signature : List Nat
  i_generation : List Nat
  i_suballoc_node : List Nat
  i_suballoc_bit : List Nat
  i_blkno : List Nat
  i_uid : List Nat
  i_gid : List Nat
  i_size : List Nat
  i_mode : List Nat
  i_links_count : List Nat
  i_flags : List Nat
  i_atime : List Nat
  i_ctime : List Nat
  i_mtime : List Nat
  i_dtime : List Nat
  i_clusters : List Nat
  id1_bitmap1_i_used : List Nat
  id1_bitmap1_i_total : List Nat
  id2_i_lab_la_size : List Nat
  id2_i_chain_cl_cpg : List Nat
  id2_i_chain_cl_bpc : List Nat
  id2_i_chain_cl_count : List Nat
  id2_i_chain_cl_next_free_rec : List Nat
  id2_i_chain_cl_recs_0_c_free : List Nat
  id2_i_chain_cl_recs_0_c_total : List Nat
  id2_i_chain_cl_recs_0_c_blkno : List Nat
  id2_i_list_l_count : List Nat
  id2_i_list_l_next_free_rec : List Nat
  id2_i_list_l_tree_depth : List Nat
  id2_i_list_l_recs_0_e_cpos : List Nat
  id2_i_list_l_recs_0_e_clusters : List Nat
  id2_i_list_l_recs_0_e_blkno : List Nat
  deriving DecidableEq, Repr

/-- The block after `memset (di, 0, s->blocksize)`. -/
def zero_dinode : ocfs2_dinode :=
  { i_signature := [0, 0, 0, 0, 0, 0, 0, 0], i_generation := cpu_to_le32 0,
    i_suballoc_node := cpu_to_le16 0, i_suballoc_bit := cpu_to_le16 0, i_blkno := cpu_to_le64 0,
    i_uid := cpu_to_le32 0, i_gid := cpu_to_le32 0, i_size := cpu_to_le64 0,
    i_mode := cpu_to_le16 0, i_links_count := cpu_to_le16 0, i_flags := cpu_to_le32 0,
    i_atime := cpu_to_le64 0, i_ctime := cpu_to_le64 0, i_mtime := cpu_to_le64 0,
    i_dtime := cpu_to_le64 0, i_clusters := cpu_to_le32 0,
    id1_bitmap1_i_used := cpu_to_le32 0, id1_bitmap1_i_total := cpu_to_le32 0,
    id2_i_lab_la_size := cpu_to_le16 0, id2_i_chain_cl_cpg := cpu_to_le16 0,
    id2_i_chain_cl_bpc := cpu_to_le16 0, id2_i_chain_cl_count := cpu_to_le16 0,
    id2_i_chain_cl_next_free_rec := cpu_to_le16 0,
    id2_i_chain_cl_recs_0_c_free := cpu_to_le16 0,
    id2_i_chain_cl_recs_0_c_total := cpu_to_le16 0,
    id2_i_chain_cl_recs_0_c_blkno := cpu_to_le64 0, id2_i_list_l_count := cpu_to_le16 0,
    id2_i_list_l_next_free_rec := cpu_to_le16 0, id2_i_list_l_tree_depth := cpu_to_le16 0,
    id2_i_list_l_recs_0_e_cpos := cpu_to_le32 0, id2_i_list_l_recs_0_e_clusters := cpu_to_le32 0,
    id2_i_list_l_recs_0_e_blkno := cpu_to_le64 0 }

/-- The constant `ONE_MEGA_BYTE` used by `ocfs2_clusters_per_group`; its
definition is not among the sources, the value is the one the name states. -/
def ONE_MEGA_BYTE : Nat := 1048576

/-- The function `ocfs2_clusters_per_group (block_size, cluster_size_bits)`. -/
def ocfs2_clusters_per_group (block_size cluster_size_bits : Nat) : Nat :=
  let bytes :=
    if block_size = 4096 ∨ block_size = 2048 then 4 * ONE_MEGA_BYTE
    else if block_size = 1024 then 2 * ONE_MEGA_BYTE
    else ONE_MEGA_BYTE
  bytes / 2 ^ cluster_size_bits

/-- The part of `format_file` that all records share: the members set before
the first test of `rec->flags`. -/
def format_file_common (c : Ocfs2Fs) (s : State) (rec : SystemFileDiskRecord) : ocfs2_dinode :=
  let mode := if rec.dir then 16877 else 33188
  let clusters := u32 (u64 (rec.extent_len + s.cluster_size + 18446744073709551616 - 1) /
    2 ^ s.cluster_size_bits)
  { zero_dinode with
    i_signature := c.OCFS2_INODE_SIGNATURE ++ [0]
    i_generation := cpu_to_le32 s.vol_generation
    i_suballoc_node := cpu_to_le16 65535
    i_suballoc_bit := cpu_to_le16 rec.suballoc_bit
    i_blkno := cpu_to_le64 (rec.fe_off / 2 ^ s.blocksize_bits)
    i_uid := cpu_to_le32 0
    i_gid := cpu_to_le32 0
    i_size := cpu_to_le64 rec.file_size
    i_mode := cpu_to_le16 mode
    i_links_count := cpu_to_le16 rec.links
    i_flags := cpu_to_le32 rec.flags
    i_atime := cpu_to_le64 s.format_time
    i_ctime := cpu_to_le64 s.format_time
    i_mtime := cpu_to_le64 s.format_time
    i_dtime := cpu_to_le64 0
    i_clusters := cpu_to_le32 clusters }

/-- The chain-list branch of `format_file` (`rec->flags & OCFS2_CHAIN_FL`).
`none` is the end of the process on a division by zero (`s->blocksize` or
`cl_bpc` zero) or on the null `rec->group` of a record with a chain offset.
The members that the code reads back without a conversion (`cl_cpg` into
`i_clusters`, `i_clusters` into `i_size`) are read as on a little-endian
host. -/
def format_file_chain (c : Ocfs2Fs) (s : State) (rec : SystemFileDiskRecord)
    (di : ocfs2_dinode) : Option ocfs2_dinode :=
  if s.blocksize = 0 then none
  else
    let di1 := { di with
      id2_i_chain_cl_count := cpu_to_le16 (c.ocfs2_chain_recs_per_inode s.blocksize)
      id2_i_chain_cl_cpg :=
        cpu_to_le16 (ocfs2_clusters_per_group s.blocksize s.cluster_size_bits)
      id2_i_chain_cl_bpc := cpu_to_le16 (s.cluster_size / s.blocksize)
      id2_i_chain_cl_next_free_rec := cpu_to_le16 0 }
    if rec.chain_off ≠ 0 then
      match rec.group with
      | none => none
      | some gd =>
        if le16_to_cpu di1.id2_i_chain_cl_bpc = 0 then none
        else
          let cl_cpg := cpu_to_le16 (gd.bg_bits / le16_to_cpu di1.id2_i_chain_cl_bpc)
          let i_clusters := cpu_to_le32 (le16_to_cpu cl_cpg)
          some { di1 with
            id2_i_chain_cl_next_free_rec := cpu_to_le16 1
            id2_i_chain_cl_recs_0_c_free := cpu_to_le16 gd.bg_free_bits_count
            id2_i_chain_cl_recs_0_c_total := cpu_to_le16 gd.bg_bits
            id2_i_chain_cl_recs_0_c_blkno := cpu_to_le64 (rec.chain_off / 2 ^ s.blocksize_bits)
            id2_i_chain_cl_cpg := cl_cpg
            i_clusters := i_clusters
            i_size := cpu_to_le64 (u32 (le32_to_cpu i_clusters * 2 ^ s.cluster_size_bits)) }
    else some di1

/-- The function `format_file (s, rec)`: the block handed to `do_pwrite` for
the byte offset `rec->fe_off`, or `none` when the process ends before. -/
def format_file (c : Ocfs2Fs) (s : State) (rec : SystemFileDiskRecord) : Option ocfs2_dinode :=
  let clusters := u32 (u64 (rec.extent_len + s.cluster_size + 18446744073709551616 - 1) /
    2 ^ s.cluster_size_bits)
  let di := format_file_common c s rec
  if rec.flags &&& c.OCFS2_LOCAL_ALLOC_FL ≠ 0 then
    some { di with id2_i_lab_la_size := cpu_to_le16 (c.ocfs2_local_alloc_size s.blocksize) }
  else
    let di1 :=
      if rec.flags &&& c.OCFS2_BITMAP_FL ≠ 0 then
        { di with
          id1_bitmap1_i_used := cpu_to_le32 rec.bi.used_bits
          id1_bitmap1_i_total := cpu_to_le32 rec.bi.total_bits }
      else di
    if rec.flags &&& c.OCFS2_CHAIN_FL ≠ 0 then format_file_chain c s rec di1
    else
      let di2 := { di1 with
        id2_i_list_l_count := cpu_to_le16 (c.ocfs2_extent_recs_per_inode s.blocksize)
        id2_i_list_l_next_free_rec := cpu_to_le16 0
        id2_i_list_l_tree_depth := cpu_to_le16 0 }
      if rec.extent_len ≠ 0 then
        some { di2 with
          id2_i_list_l_next_free_rec := cpu_to_le16 1
          id2_i_list_l_recs_0_e_cpos := cpu_to_le32 0
          id2_i_list_l_recs_0_e_clusters := cpu_to_le32 clusters
          id2_i_list_l_recs_0_e_blkno := cpu_to_le64 (rec.extent_off / 2 ^ s.blocksize_bits) }
      else some di2

/-- The flag bits and sizes of a format with 4096-byte blocks, for the
examples. -/
def scenario_fs : Ocfs2Fs :=
  { OCFS2_LOCAL_ALLOC_FL := 64, OCFS2_BITMAP_FL := 128, OCFS2_CHAIN_FL := 1024,
    OCFS2_INODE_SIGNATURE := [73, 78, 79, 68, 69, 48, 49],
    ocfs2_local_alloc_size := fun b => b - 256,
    ocfs2_chain_recs_per_inode := fun b => (b - 256) / 16,
    ocfs2_extent_recs_per_inode := fun b => (b - 256) / 16 }

/-- A chain-owner record (flags `VALID | SYSTEM | BITMAP | CHAIN` of the
example format) whose group of 1024 bits, 1000 of them free, sits at byte
offset 8192. -/
def scenario_chain_record : SystemFileDiskRecord :=
  { zero_record with
    fe_off := 12288, chain_off := 8192, flags := 1169, links := 1,
    bi := { used_bits := 24, total_bits := 1024 },
    group := some { bg_generation := 7, bg_size := 4032, bg_bits := 1024, bg_chain := 0,
                    bg_parent_dinode := 12288, bg_blkno := 2, bg_free_bits_count := 1000,
                    bg_bitmap := fun i => decide (i < 24) } }

/-! ## `get_number` -/

/-- The bytes of a C string given as a string literal (without the
terminating zero). -/
def cstr (text : String) : List Nat := text.toList.map Char.toNat

/-- The C library's `isspace` in the "C" locale: space, and the control
characters 9 to 13. -/
def is_space (c : Nat) : Bool := c = 32 ∨ (9 ≤ c ∧ c ≤ 13)

/-- The value of a character as a digit, as `strtoull` reads it: `0`..`9`,
and the letters of either case for 10 to 35. -/
def digit_value (c : Nat) : Option Nat :=
  if 48 ≤ c ∧ c ≤ 57 then some (c - 48)
  else if 97 ≤ c ∧ c ≤ 122 then some (c - 87)
  else if 65 ≤ c ∧ c ≤ 90 then some (c - 55)
  else none

/-- The leading white space of `strtoull`'s subject is skipped. -/
def skip_space : List Nat → List Nat
  | [] => []
  | c :: cs => if is_space c then skip_space cs else c :: cs

/-- The longest run of digits of the base at the head of the text: the value
accumulated, the number of digits read, and the rest of the text. -/
def scan_digits (base : Nat) : List Nat → Nat → Nat → Nat × Nat × List Nat
  | [], acc, n => (acc, n, [])
  | c :: cs, acc, n =>
    match digit_value c with
    | some d => if d < base then scan_digits base cs (acc * base + d) (n + 1) else (acc, n, c :: cs)
    | none => (acc, n, c :: cs)

/-- The value `ULLONG_MAX = UINT64_MAX`. -/
@[reducible] def UINT64_MAX : Nat := 18446744073709551615

/-- Whether the text starts with the prefix `0x` or `0X` of a hexadecimal
number. -/
def starts_hex (s : List Nat) : Bool :=
  match s with
  | c :: x :: _ => c = 48 ∧ (x = 120 ∨ x = 88)
  | _ => false

/-- The base that `strtoull` with base 0 settles on: 16 after `0x`/`0X`, 8
after a leading `0`, 10 otherwise. -/
def strtoull_base (s : List Nat) : Nat :=
  if starts_hex s then 16
  else
    match s with
    | c :: _ => if c = 48 then 8 else 10
    | [] => 10

/-- The part of `strtoull` behind white space and sign: the digits are read in
the base found.  A value out of range is returned as `ULLONG_MAX`, a value
after `-` is negated in 64 bits; `0x` without a hex digit converts the `0` and
leaves `ptr` at the `x`; without any digit there is no conversion (`none`). -/
def strtoull_digits (negative : Bool) (s : List Nat) : Option (Nat × List Nat) :=
  match scan_digits (strtoull_base s) (if starts_hex s then s.drop 2 else s) 0 0 with
  | (acc, n, rest) =>
    if n = 0 then
      if starts_hex s then some (0, s.drop 1) else none
    else if acc > UINT64_MAX then some (UINT64_MAX, rest)
    else if negative then some (u64 (18446744073709551616 - acc), rest)
    else some (acc, rest)

/-- The C library function `strtoull (arg, &ptr, 0)` on the bytes of a C
string: white space, an optional sign, then the digits in the base that base 0
selects.  The result is the number and the text `ptr` points to; `none` is "no
conversion", which leaves `ptr == arg`. -/
def strtoull (arg : List Nat) : Option (Nat × List Nat) :=
  match skip_space arg with
  | [] => strtoull_digits false []
  | c :: r =>
    if c = 45 then strtoull_digits true r
    else if c = 43 then strtoull_digits false r
    else strtoull_digits false (c :: r)

/-- The function `get_number (arg, res)`: `some n` when it returns 0 with
`*res = n`, `none` when it returns `-EINVAL` and leaves `*res` alone.  The
multiplications by 1024 are made in `uint64_t`. -/
def get_number (arg : List Nat) : Option Nat :=
  match strtoull arg with
  | none => none
  | some (num, ptr) =>
    if num = UINT64_MAX then none
    else
      match ptr with
      | [] => some num
      | c :: _ =>
        if c = 103 ∨ c = 71 then some (u64 (u64 (u64 (num * 1024) * 1024) * 1024))
        else if c = 109 ∨ c = 77 then some (u64 (u64 (num * 1024) * 1024))
        else if c = 107 ∨ c = 75 then some (u64 (num * 1024))
        else if c = 98 ∨ c = 66 then some num
        else none

/-- The number a run of decimal digits denotes. -/
def dec_digits_value (digits : List Nat) : Nat :=
  digits.foldl (fun acc c => acc * 10 + (c - 48)) 0

/-- The number a run of hexadecimal digits denotes. -/
def hex_digits_value (digits : List Nat) : Nat :=
  digits.foldl (fun acc c => acc * 16 + (digit_value c).getD 0) 0

/-- A decimal numeral as `strtoull` reads one in base 10: a non-empty run of
the digits `0`..`9` that does not start with `0`, or the numeral `0`. -/
def IsDecNumeral (digits : List Nat) : Prop :=
  digits ≠ [] ∧ (∀ c ∈ digits, 48 ≤ c ∧ c ≤ 57) ∧ (digits.head? ≠ some 48 ∨ digits = [48])

/-- A non-empty run of hexadecimal digits, of either case. -/
def IsHexDigits (digits : List Nat) : Prop :=
  digits ≠ [] ∧ ∀ c ∈ digits, (48 ≤ c ∧ c ≤ 57) ∨ (97 ≤ c ∧ c ≤ 102) ∨ (65 ≤ c ∧ c ≤ 70)

/-- The factor that a size suffix stands for: nothing or `b`/`B` for 1,
`k`/`K` for 1024, `m`/`M` for `1024^2`, `g`/`G` for `1024^3`. -/
def suffix_factor (suffix : List Nat) : Option Nat :=
  match suffix with
  | [] => some 1
  | [c] =>
    if c = 98 ∨ c = 66 then some 1
    else if c = 107 ∨ c = 75 then some 1024
    else if c = 109 ∨ c = 77 then some 1048576
    else if c = 103 ∨ c = 71 then some 1073741824
    else none
  | _ => none

/-- The characters that the `switch (*ptr)` of `get_number` accepts behind the
number, the terminating zero apart: `b`, `k`, `m`, `g` of either case. -/
def IsSuffixChar (c : Nat) : Prop :=
  c = 98 ∨ c = 66 ∨ c = 107 ∨ c = 75 ∨ c = 109 ∨ c = 77 ∨ c = 103 ∨ c = 71

/-- The text behind an optional sign `-` or `+`. -/
def skip_sign : List Nat → List Nat
  | [] => []
  | c :: r => if c = 45 ∨ c = 43 then r else c :: r

/-- The text holds no numeral at its start: behind white space and an optional
sign it does not go on with one of the digits `0`..`9` (every numeral of the
bases 8, 10 and 16 starts with one). -/
def NoNumeral (arg : List Nat) : Prop :=
  ∀ c r, skip_sign (skip_space arg) = c :: r → ¬ (48 ≤ c ∧ c ≤ 57)

/-- A volume of 100 MiB with blocks and clusters of 4096 bytes. -/
def scenario_state : State :=
  { blocksize := 4096, blocksize_bits := 12, cluster_size := 4096, cluster_size_bits := 12,
    pagesize_bits := 12, volume_size_in_bytes := 104857600, volume_size_in_clusters := 25600,
    volume_size_in_blocks := 25600, reserved_tail_size := 0, initial_nodes := 2,
    journal_size_in_bytes := 4194304, vol_generation := 7, format_time := 1100000000 }

/-- The same volume with blocks and clusters of 65536 bytes, a power of two
that does not fit a 16-bit `rec_len`. -/
def big_block_state : State :=
  { scenario_state with
    blocksize := 65536, blocksize_bits := 16, cluster_size := 65536, cluster_size_bits := 16,
    volume_size_in_clusters := 1600, volume_size_in_blocks := 1600 }

/-- A bitmap size for the group descriptor block: the block less a header of
64 bytes. -/
def scenario_group_bitmap_size (blocksize : Nat) : Nat := blocksize - 64

/-! ## Specification predicates for the bitmap allocator -/

/-- Bits `r .. r + num_bits - 1` of the bitmap start at or after `offset`, end
within `valid_bits`, and are all clear. -/
def ClearRun (bitmap : AllocBitmap) (num_bits offset r : Nat) : Prop :=
  offset ≤ r ∧ r + num_bits ≤ bitmap.valid_bits ∧
    ∀ i, i < num_bits → ocfs2_test_bit (r + i) bitmap.buf = false

/-- What `find_clear_bits` is to return: the lowest clear run, or `NOT_FOUND`
when the bitmap has no clear run of the requested length. -/
def FirstFit (bitmap : AllocBitmap) (num_bits offset x : Nat) : Prop :=
  (x < bitmap.valid_bits ∧ ClearRun bitmap num_bits offset x ∧
      ∀ r, ClearRun bitmap num_bits offset r → x ≤ r) ∨
    (x = NOT_FOUND ∧ ∀ r, ¬ ClearRun bitmap num_bits offset r)

/-- The set bits of the bitmap are exactly the bits below `p`, among the valid
bits: the shape of a bitmap that has only served first-fit allocations. -/
def PrefixSet (bitmap : AllocBitmap) (p : Nat) : Prop :=
  p ≤ bitmap.valid_bits ∧ (∀ i, i < p → bitmap.buf i = true) ∧
    ∀ i, p ≤ i → i < bitmap.valid_bits → bitmap.buf i = false

/-- The byte ranges `[a.1, a.1 + a.2)` and `[b.1, b.1 + b.2)` have no byte in
common. -/
def RangesDisjoint (a b : Nat × Nat) : Prop :=
  ∀ x, ¬ (a.1 ≤ x ∧ x < a.1 + a.2 ∧ b.1 ≤ x ∧ x < b.1 + b.2)

/-- The bitmap of the scenario `01100110`: eight valid bits, bits 1, 2, 5 and 6
set. -/
def scenario_bitmap : AllocBitmap :=
  { buf := bits_of [false, true, true, false, false, true, true, false]
    valid_bits := 8
    unit_bits := 0
    unit := 1
    bm_record := { zero_record with extent_len := 1, file_size := 1,
                                    bi := { used_bits := 4, total_bits := 8 } }
    alloc_record := { zero_record with file_size := 8 } }

/-! ## Sizing helpers -/

/-- How a call ends when it does not return a value. -/
inductive Fault where
  /-- The process was ended with `exit(1)`. -/
  | exit : Fault
  /-- An operation that C leaves undefined was reached: a shift by a count
  that is not below the width of the shifted operand, or a division by zero. -/
  | undefined : Fault
  /-- The iteration budget that the embedding gives a loop was used up. -/
  | budget : Fault
  deriving DecidableEq, Repr

deriving instance DecidableEq for Except

/-- What `mkfs_utils.c` takes from the machine and from the device.
`pagesize` is the value of `getpagesize ()`.  `shl_1u_32` is the value that the
machine gives the expression `1U << 32`, which `get_bits` evaluates in its
first iteration: the shift count equals the width of `unsigned int`, C leaves
the result undefined, and machines differ (1 where the count is taken modulo
32, 0 elsewhere).  `device_blocks blocksize` is the number that
`ocfs2_get_device_size (device_name, blocksize, &ret)` leaves in `ret`. -/
structure Machine where
  pagesize : Nat
  shl_1u_32 : Nat
  device_blocks : Nat → Nat

/-- The constants and function-like macros of `mkfs.h` that `mkfs_utils.c`
uses.  The header is not among the sources, so all of them are parameters. -/
structure MkfsH where
  MIN_CLUSTER_SIZE : Nat
  AUTO_CLUSTER_SIZE : Nat
  BITMAP_AUTO_MAX : Nat
  LEADING_SPACE_BLOCKS : Nat
  SUPERBLOCK_BLOCKS : Nat
  FILE_ENTRY_BLOCKS : Nat
  AUTOCONF_BLOCKS : Nat → Nat → Nat
  PUBLISH_BLOCKS : Nat → Nat → Nat
  VOTE_BLOCKS : Nat → Nat → Nat
  NUM_LOCAL_SYSTEM_FILES : Nat
  SLOP_BLOCKS : Nat
  SYSTEM_FILE_NAME_MAX : Nat
  MIN_RESERVED_TAIL_BLOCKS : Nat

/-- The value of `1U << i` in `get_bits`, for `i` up to 32. -/
def one_shl (m : Machine) (i : Nat) : Nat := if i < 32 then 2 ^ i else u32 m.shl_1u_32

/-- The loop `for (i = 32; i >= 0; i--) if (num == (1U << i)) bits = i;` of
`get_bits`, with `n` iterations left to make (so `i = n - 1` is next) and
`unum` the value of `num` converted to `unsigned int` for the comparison. -/
def get_bits_loop (m : Machine) (unum : Nat) : Nat → Nat → Nat
  | 0, bits => bits
  | i + 1, bits => get_bits_loop m unum i (if unum = one_shl m i then i else bits)

/-- The function `get_bits (s, num)`, `num` being an `int`: the loop makes its
33 iterations, and a final `bits == 0` ends the process. -/
def get_bits (m : Machine) (num : Int) : Except Fault Nat :=
  let bits := get_bits_loop m (Int.toNat (num % 4294967296)) 33 0
  if bits = 0 then Except.error Fault.exit else Except.ok bits

/-- Modelled from the spec: the constant `ONE_GB_SHIFT` of `mkfs.h`, which is
not among the sources: the binary logarithm of one gigabyte, 30. -/
def ONE_GB_SHIFT : Nat := 30

/-- The loop of `initial_nodes_for_volume`, with `n` iterations left to make:
`size >>= shift` changes `size` itself, and the result is the value of `i`
after the loop. -/
def initial_nodes_loop : Nat → Nat → Nat → Nat → Nat
  | 0, i, _, _ => i
  | n + 1, i, shift, size =>
    let size1 := size / 2 ^ shift
    if size1 = 0 then i else initial_nodes_loop n (i + 1) (shift + 3) size1

/-- The function `initial_nodes_for_volume (size)`, `size` being a
`uint64_t`. -/
def initial_nodes_for_volume (size : Nat) : Nat :=
  let i := initial_nodes_loop 4 0 ONE_GB_SHIFT size
  if i < 4 then [2, 4, 8, 16].getD i 0 else 32

/-- The function `figure_journal_size (size, s)`.  `j_blocks` is an
`unsigned int`, and so is `s->initial_nodes`: the number of blocks of the
requested size is truncated to 32 bits and `j_blocks * s->initial_nodes + 1024`
is computed in 32 bits, before the comparison with the 64-bit
`volume_size_in_blocks`.  The default `j_blocks << s->blocksize_bits` is a
32-bit shift. -/
def figure_journal_size (size : Nat) (s : State) : Except Fault Nat :=
  if s.volume_size_in_blocks < 2048 then Except.error Fault.exit
  else if size > 0 then
    if s.blocksize_bits < 64 then
      let j_blocks := u32 (size / 2 ^ s.blocksize_bits)
      if u32 (u32 (j_blocks * s.initial_nodes) + 1024) > s.volume_size_in_blocks then
        Except.error Fault.exit
      else Except.ok size
    else Except.error Fault.undefined
  else
    let j_blocks :=
      if s.volume_size_in_blocks < 32768 then 1024
      else if s.volume_size_in_blocks < 262144 then 4096
      else 8192
    if s.blocksize_bits < 32 then Except.ok (u32 (j_blocks * 2 ^ s.blocksize_bits))
    else Except.error Fault.undefined

/-- The loop `while (s->blocksize > 1024)` of `fill_defaults`, with `n`
iterations left to make: the block size is halved and `shift` lowered as long
as the volume is smaller than `1U << shift`.  A 32-bit block size is at most
1024 after 22 halvings, so `shift`, which starts at 30, stays a valid shift
count. -/
def shrink_blocksize (volume_size_in_bytes : Nat) : Nat → Nat → Nat → Nat
  | 0, blocksize, _ => blocksize
  | n + 1, blocksize, shift =>
    if blocksize > 1024 then
      if volume_size_in_bytes ≥ 2 ^ shift then blocksize
      else shrink_blocksize volume_size_in_bytes n (blocksize / 2) (shift - 1)
    else blocksize

/-- The first part of `fill_defaults (s)`, up to `s->blocksize_bits =
get_bits (s, s->blocksize)`: page size, block size, and the volume size in
blocks and in bytes.  The statements are taken in the order of the source: the
block size 4096 is stored into an unset `s->blocksize` before the second test
`if (!s->blocksize)` is made. -/
def fill_defaults_blocksize (m : Machine) (s : State) : Except Fault State :=
  match get_bits m m.pagesize with
  | Except.error e => Except.error e
  | Except.ok pagesize_bits =>
    let s1 := { s with pagesize_bits := pagesize_bits }
    let s2 := if s1.blocksize = 0 then { s1 with blocksize := 4096 } else s1
    let s3 :=
      if s2.volume_size_in_blocks = 0 then
        { s2 with volume_size_in_blocks := u32 (m.device_blocks s2.blocksize) }
      else s2
    let s4 := { s3 with volume_size_in_bytes := u64 (s3.volume_size_in_blocks * s3.blocksize) }
    let s5 :=
      if s4.blocksize = 0 then
        let blocksize :=
          if s4.volume_size_in_bytes ≤ 1024 * 1024 * 3 then 512
          else shrink_blocksize s4.volume_size_in_bytes 32 s4.blocksize 30
        let volume_size_in_blocks := u32 (m.device_blocks blocksize)
        { s4 with
          blocksize := blocksize
          volume_size_in_blocks := volume_size_in_blocks
          volume_size_in_bytes := u64 (volume_size_in_blocks * blocksize) }
      else s4
    match get_bits m s5.blocksize with
    | Except.error e => Except.error e
    | Except.ok blocksize_bits => Except.ok { s5 with blocksize_bits := blocksize_bits }

/-- The `for` loop of `fill_defaults` that looks for a cluster size, with `n`
iterations left to make; the result is the value of the local `cluster_size`
after the loop.  `volume_size`, `need` and `cluster_size` are `uint32_t`, so
the volume size in clusters is truncated to 32 bits and the sums are made in
32 bits.  A bit count of 32, which `get_bits` returns only on a machine whose
`1U << 32` equals the cluster size, leaves the 32-bit shifts of `need`
undefined. -/
def auto_cluster_size (m : Machine) (c : MkfsH) (volume_size_in_bytes : Nat) :
    Nat → Nat → Except Fault Nat
  | 0, _ => Except.error Fault.budget
  | n + 1, cluster_size =>
    if cluster_size < c.AUTO_CLUSTER_SIZE then
      match get_bits m cluster_size with
      | Except.error e => Except.error e
      | Except.ok cluster_size_bits =>
        if cluster_size_bits < 32 then
          let volume_size := u32 (volume_size_in_bytes / 2 ^ cluster_size_bits)
          let need := u32 (volume_size + 7) / 2 ^ 3
          let need1 :=
            u32 (u32 (need + cluster_size + 4294967295) / 2 ^ cluster_size_bits *
              2 ^ cluster_size_bits)
          if need1 ≤ c.BITMAP_AUTO_MAX then Except.ok cluster_size
          else auto_cluster_size m c volume_size_in_bytes n (u32 (cluster_size * 2))
        else Except.error Fault.undefined
    else Except.ok cluster_size

/-- The part `if (!s->cluster_size) { ... s->cluster_size = cluster_size; }`
of `fill_defaults`.  The loop doubles a 32-bit number, which is 0 after 32
doublings at the latest, and `get_bits` does not take 0: 34 iterations are
never used up. -/
def fill_defaults_cluster_size (m : Machine) (c : MkfsH) (s : State) : Except Fault State :=
  if s.cluster_size = 0 then
    match auto_cluster_size m c s.volume_size_in_bytes 34 (u32 c.MIN_CLUSTER_SIZE) with
    | Except.error e => Except.error e
    | Except.ok cluster_size => Except.ok { s with cluster_size := cluster_size }
  else Except.ok s

/-- The last part of `fill_defaults (s)`, from `s->cluster_size_bits =
get_bits (s, s->cluster_size)` on.  `volume_size_in_clusters` is a `uint32_t`,
so `volume_size_in_clusters << cluster_size_bits` is a 32-bit shift. -/
def fill_defaults_sizes (m : Machine) (s : State) : Except Fault State :=
  match get_bits m s.cluster_size with
  | Except.error e => Except.error e
  | Except.ok cluster_size_bits =>
    if cluster_size_bits < 32 ∧ s.blocksize_bits < 32 then
      let volume_size_in_clusters := u32 (s.volume_size_in_bytes / 2 ^ cluster_size_bits)
      let s1 : State :=
        { s with
          cluster_size_bits := cluster_size_bits
          volume_size_in_clusters := volume_size_in_clusters
          volume_size_in_blocks :=
            u32 (volume_size_in_clusters * 2 ^ cluster_size_bits) / 2 ^ s.blocksize_bits
          reserved_tail_size := 0
          initial_nodes :=
            if s.initial_nodes = 0 then initial_nodes_for_volume s.volume_size_in_bytes
            else s.initial_nodes }
      match figure_journal_size s1.journal_size_in_bytes s1 with
      | Except.error e => Except.error e
      | Except.ok journal_size => Except.ok { s1 with journal_size_in_bytes := journal_size }
    else Except.error Fault.undefined

/-- The function `fill_defaults (s)` up to and including the assignment
`s->cluster_size = cluster_size`: the first two parts in sequence. -/
def fill_defaults_geometry (m : Machine) (c : MkfsH) (s : State) : Except Fault State :=
  match fill_defaults_blocksize m s with
  | Except.error e => Except.error e
  | Except.ok s1 => fill_defaults_cluster_size m c s1

/-- The function `fill_defaults (s)`: its three parts in sequence.  The volume
label is not modelled. -/
def fill_defaults (m : Machine) (c : MkfsH) (s : State) : Except Fault State :=
  match fill_defaults_geometry m c s with
  | Except.error e => Except.error e
  | Except.ok s2 => fill_defaults_sizes m s2

/-- The size in bytes of the cluster bitmap of a volume with clusters of
`cluster_size` bytes, in the words of the specification: one bit per cluster,
in bytes rounded up, rounded up to a multiple of the cluster size. -/
def bitmap_need (volume_size_in_bytes cluster_size : Nat) : Nat :=
  ((volume_size_in_bytes / cluster_size + 7) / 8 + cluster_size - 1) / cluster_size *
    cluster_size

/-- The function `blocks_needed (s)`; the sum is kept in a `uint32_t`. -/
def blocks_needed (c : MkfsH) (s : State) : Nat :=
  u32 (c.LEADING_SPACE_BLOCKS + c.SUPERBLOCK_BLOCKS + c.FILE_ENTRY_BLOCKS +
    c.AUTOCONF_BLOCKS s.initial_nodes 32 + c.PUBLISH_BLOCKS s.initial_nodes 32 +
    c.VOTE_BLOCKS s.initial_nodes 32 + s.initial_nodes * c.NUM_LOCAL_SYSTEM_FILES +
    c.SLOP_BLOCKS)

/-- The function `system_dir_blocks_needed (s)`.  In
`blocks_needed (s) + entries_per_block - 1 / entries_per_block` the division
binds tighter than the subtraction, so the quotient `1 / entries_per_block` is
what is subtracted; the operands are made `unsigned int` by the `uint32_t`
among them, and the shifts are 32-bit shifts. -/
def system_dir_blocks_needed (c : MkfsH) (s : State) : Except Fault Nat :=
  let each := OCFS2_DIR_REC_LEN c.SYSTEM_FILE_NAME_MAX
  let entries_per_block := s.blocksize / each
  if entries_per_block = 0 ∨ 32 ≤ s.blocksize_bits ∨ 32 ≤ s.cluster_size_bits then
    Except.error Fault.undefined
  else
    let bytes_needed :=
      u32 (u32 (blocks_needed c s + entries_per_block + 4294967296 - 1 / entries_per_block) *
        2 ^ s.blocksize_bits)
    Except.ok (u32 (bytes_needed + s.cluster_size + 4294967295) / 2 ^ s.cluster_size_bits)

/-- A machine with pages of 4096 bytes on which `1U << 32` gives 1, and a
device of 100 MiB. -/
def scenario_machine : Machine :=
  { pagesize := 4096, shl_1u_32 := 1, device_blocks := fun blocksize => 104857600 / blocksize }

/-- The same machine with a device of 3 MiB. -/
def small_device_machine : Machine :=
  { scenario_machine with device_blocks := fun blocksize => 3145728 / blocksize }

/-- Values for the constants of `mkfs.h`, for the examples: clusters of 4096
to 65536 bytes, a bitmap of at most 786432 bytes, system file names of up to
40 characters. -/
def scenario_mkfs_h : MkfsH :=
  { MIN_CLUSTER_SIZE := 4096, AUTO_CLUSTER_SIZE := 65536, BITMAP_AUTO_MAX := 786432,
    LEADING_SPACE_BLOCKS := 2, SUPERBLOCK_BLOCKS := 1, FILE_ENTRY_BLOCKS := 8,
    AUTOCONF_BLOCKS := fun i min => 6 + (if i < min then min else i),
    PUBLISH_BLOCKS := fun i min => if i < min then min else i,
    VOTE_BLOCKS := fun i min => if i < min then min else i,
    NUM_LOCAL_SYSTEM_FILES := 6, SLOP_BLOCKS := 0, SYSTEM_FILE_NAME_MAX := 40,
    MIN_RESERVED_TAIL_BLOCKS := 8 }

/-- A state as the command line leaves it when no size is given: every size
is unset. -/
def unset_state : State :=
  { blocksize := 0, blocksize_bits := 0, cluster_size := 0, cluster_size_bits := 0,
    pagesize_bits := 0, volume_size_in_bytes := 0, volume_size_in_clusters := 0,
    volume_size_in_blocks := 0, reserved_tail_size := 0, initial_nodes := 0,
    journal_size_in_bytes := 0, vol_generation := 7, format_time := 1100000000 }

/-! ## Specification predicates for allocation groups -/

/-- The invariant of an allocation group: bit 0 of the bitmap is set, the free
count is the number of bits less the number of set bits, and the counters of
the owning record add up. -/
def GroupInv (group : AllocGroup) : Prop :=
  ocfs2_test_bit 0 group.gd.bg_bitmap = true ∧
    group.gd.bg_free_bits_count =
      group.gd.bg_bits - popcount group.gd.bg_bitmap group.gd.bg_bits ∧
    group.alloc_inode.bi.used_bits + group.gd.bg_free_bits_count =
      group.alloc_inode.bi.total_bits

/-- The groups that a sequence of `alloc_from_group` calls, each of which
returns, makes of the group `first`; `count` is a `uint16_t`. -/
inductive GroupReachable (first : AllocGroup) : AllocGroup → Prop where
  /-- No call has been made. -/
  | start : GroupReachable first first
  /-- One more call has returned. -/
  | call (group group1 : AllocGroup) (fuel count start_blkno num_bits : Nat) :
      GroupReachable first group → count < 65536 →
      alloc_from_group fuel count group = Outcome.returned (group1, start_blkno, num_bits) →
      GroupReachable first group1

/-! ## `adjust_volume_size` -/

/-- The function `adjust_volume_size (s)`.  `MIN_RESERVED_TAIL_BLOCKS` is
taken to be a plain `int` constant, so `MIN_RESERVED_TAIL_BLOCKS <<
s->blocksize_bits` is a shift of an `int`, undefined when the result does not
fit; `MAX` is the larger of its two arguments; `vsize` is a `uint64_t`, whose
shifts are undefined from 64 bits on; the cluster count is stored in the
32-bit field `volume_size_in_clusters`. -/
def adjust_volume_size (c : MkfsH) (s : State) : Except Fault State :=
  if 32 ≤ s.blocksize_bits ∨ 2147483648 ≤ c.MIN_RESERVED_TAIL_BLOCKS * 2 ^ s.blocksize_bits then
    Except.error Fault.undefined
  else
    let vsize0 :=
      u64 (s.volume_size_in_bytes + 18446744073709551616 -
        c.MIN_RESERVED_TAIL_BLOCKS * 2 ^ s.blocksize_bits)
    let max0 := if s.pagesize_bits > s.blocksize_bits then s.pagesize_bits else s.blocksize_bits
    let max1 := if max0 > s.cluster_size_bits then max0 else s.cluster_size_bits
    if 64 ≤ max1 then Except.error Fault.undefined
    else
      let vsize := u64 (vsize0 / 2 ^ max1 * 2 ^ max1)
      Except.ok
        { s with
          volume_size_in_blocks := vsize / 2 ^ s.blocksize_bits
          volume_size_in_clusters := u32 (vsize / 2 ^ s.cluster_size_bits)
          reserved_tail_size := u64 (s.volume_size_in_bytes + 18446744073709551616 - vsize)
          volume_size_in_bytes := vsize }

/-! ## Reading a directory -/

/-- The members of a directory entry other than `rec_len`, as they are read
from the buffer. -/
structure DirEntry where
  inode : Nat
  name_len : Nat
  file_type : Nat
  name : List Nat
  deriving DecidableEq, Repr

/-- The entry at offset `off` of the buffer: `inode`, `name_len`, `file_type`,
and the `name_len` bytes of the name. -/
def read_entry (buf : ByteBuf) (off : Nat) : DirEntry :=
  { inode := load_le64 buf (off + DE_INODE)
    name_len := buf.data (off + DE_NAME_LEN)
    file_type := buf.data (off + DE_FILE_TYPE)
    name := load_bytes buf (off + DE_NAME) (buf.data (off + DE_NAME_LEN)) }

/-- Walk of one directory block by `rec_len`, from the entry at `off` to the
end `stop` of the block, visiting at most `fuel` entries: the entries met,
provided that no `rec_len` is zero and that the last entry ends exactly at
`stop`. -/
def walk_entries (buf : ByteBuf) (stop : Nat) : Nat → Nat → Option (List DirEntry)
  | 0, _ => none
  | fuel + 1, off =>
    let rec_len := load_le16 buf (off + DE_REC_LEN)
    if rec_len = 0 then none
    else if off + rec_len = stop then some [read_entry buf off]
    else if off + rec_len < stop then
      match walk_entries buf stop fuel (off + rec_len) with
      | none => none
      | some rest => some (read_entry buf off :: rest)
    else none

/-- Walk of `n` consecutive blocks of `blocksize` bytes from offset `start`:
the entries of all blocks in the order of the walk. -/
def walk_dir_entries (buf : ByteBuf) (blocksize : Nat) : Nat → Nat → Option (List DirEntry)
  | 0, _ => some []
  | n + 1, start =>
    match walk_entries buf (start + blocksize) blocksize start with
    | none => none
    | some entries =>
      match walk_dir_entries buf blocksize n (start + blocksize) with
      | none => none
      | some rest => some (entries ++ rest)

/-- The entries met on a walk of the whole directory buffer by `rec_len`. -/
def dir_entries (buf : ByteBuf) (blocksize : Nat) : Option (List DirEntry) :=
  walk_dir_entries buf blocksize (buf.size / blocksize) 0

/-- The entry that a call `add_entry_to_directory (s, dir, name, byte_off,
type)` is to leave in the directory: the name and its length, the inode
`byte_off >> blocksize_bits`, and the type. -/
def entry_of_call (s : State) (call : List Nat × Nat × Nat) : DirEntry :=
  { inode := call.2.1 / 2 ^ s.blocksize_bits
    name_len := call.1.length
    file_type := call.2.2
    name := call.1 }

/-- Entries with the given `rec_len` values and members lie one behind the
other from offset `a` to offset `b`, each with room for its header and name. -/
def TilesE (buf : ByteBuf) : Nat → List (Nat × DirEntry) → Nat → Prop
  | a, [], b => a = b
  | a, re :: rest, b =>
    load_le16 buf (a + DE_REC_LEN) = re.1 ∧ 12 + re.2.name_len ≤ re.1 ∧
      read_entry buf a = re.2 ∧ TilesE buf (a + re.1) rest b

/-- Consecutive blocks of `blocksize` bytes from offset `a` on are tiled by
the given entries. -/
def BlocksTileE (buf : ByteBuf) (blocksize : Nat) : Nat → List (List (Nat × DirEntry)) → Prop
  | _, [] => True
  | a, block :: rest =>
    block ≠ [] ∧ TilesE buf a block (a + blocksize) ∧
      BlocksTileE buf blocksize (a + blocksize) rest

/-- Invariant of a directory that holds at least one entry, with its content:
the blocks `closed` are full, the last block holds the entries `open_entries`
and behind them, at `last_off`, the entry `last`, whose `rec_len` reaches to
the end of the buffer and whose inode is not 0. -/
def DirHolds (blocksize : Nat) (dir : DirData) (closed : List (List (Nat × DirEntry)))
    (open_entries : List (Nat × DirEntry)) (last : DirEntry) : Prop :=
  ∃ buf, dir.buf = some buf ∧ buf.size = dir.record.file_size ∧
    buf.size = closed.length * blocksize + blocksize ∧ buf.size < 2147483648 ∧
    BlocksTileE buf blocksize 0 closed ∧
    TilesE buf (closed.length * blocksize) open_entries dir.last_off ∧
    load_le16 buf (dir.last_off + DE_REC_LEN) = buf.size - dir.last_off ∧
    read_entry buf dir.last_off = last ∧ last.inode ≠ 0 ∧
    OCFS2_DIR_REC_LEN last.name_len ≤ buf.size - dir.last_off ∧ dir.last_off < buf.size

/-! # Theorems -/

/-! ## Bit scans -/

theorem scan_bits_spec (buf : BitBuf) (want : Bool) :
    ∀ n off, off ≤ scan_bits buf want n off ∧ scan_bits buf want n off ≤ off + n ∧
      (∀ i, off ≤ i → i < scan_bits buf want n off → ocfs2_test_bit i buf = !want) ∧
      (scan_bits buf want n off < off + n →
        ocfs2_test_bit (scan_bits buf want n off) buf = want) := by
  intro n
  induction n with
  | zero => intro off; simp [scan_bits]; intro i h1 h2; omega
  | succ n ih =>
    intro off
    by_cases h : ocfs2_test_bit off buf = want
    · simp [scan_bits, h]; intro i h1 h2; omega
    · obtain ⟨a, b, c, d⟩ := ih (off + 1)
      simp only [scan_bits, if_neg h]
      refine ⟨by omega, by omega, ?_, fun hlt => d (by omega)⟩
      intro i h1 h2
      by_cases hi : i = off
      · subst hi; cases want <;> simp_all
      · exact c i (by omega) h2

theorem ocfs2_find_next_bit_clear_spec (buf : BitBuf) (size off : Nat) (h : off ≤ size) :
    off ≤ ocfs2_find_next_bit_clear buf size off ∧
      ocfs2_find_next_bit_clear buf size off ≤ size ∧
      (∀ i, off ≤ i → i < ocfs2_find_next_bit_clear buf size off →
        ocfs2_test_bit i buf = true) ∧
      (ocfs2_find_next_bit_clear buf size off < size →
        ocfs2_test_bit (ocfs2_find_next_bit_clear buf size off) buf = false) := by
  unfold ocfs2_find_next_bit_clear
  by_cases hlt : off < size
  · rw [if_pos hlt]
    obtain ⟨a, b, c, d⟩ := scan_bits_spec buf false (size - off) off
    refine ⟨a, by omega, ?_, fun h2 => d (by omega)⟩
    intro i h1 h2
    simpa using c i h1 h2
  · rw [if_neg hlt]
    refine ⟨h, le_refl _, ?_, fun h2 => absurd h2 (lt_irrefl _)⟩
    intro i h1 h2; omega

theorem ocfs2_find_next_bit_set_spec (buf : BitBuf) (size off : Nat) (h : off ≤ size) :
    off ≤ ocfs2_find_next_bit_set buf size off ∧
      ocfs2_find_next_bit_set buf size off ≤ size ∧
      (∀ i, off ≤ i → i < ocfs2_find_next_bit_set buf size off →
        ocfs2_test_bit i buf = false) ∧
      (ocfs2_find_next_bit_set buf size off < size →
        ocfs2_test_bit (ocfs2_find_next_bit_set buf size off) buf = true) := by
  unfold ocfs2_find_next_bit_set
  by_cases hlt : off < size
  · rw [if_pos hlt]
    obtain ⟨a, b, c, d⟩ := scan_bits_spec buf true (size - off) off
    refine ⟨a, by omega, ?_, fun h2 => d (by omega)⟩
    intro i h1 h2
    simpa using c i h1 h2
  · rw [if_neg hlt]
    refine ⟨h, le_refl _, ?_, fun h2 => absurd h2 (lt_irrefl _)⟩
    intro i h1 h2; omega

/-! ## `find_clear_bits` -/

/-- A clear run of length `n` starting at `r` excludes every set bit in
`[r, r + n)`. -/
theorem clear_run_not_set {bm : AllocBitmap} {n offset r : Nat} (h : ClearRun bm n offset r)
    (j : Nat) (h1 : r ≤ j) (h2 : j < r + n) : ocfs2_test_bit j bm.buf ≠ true := by
  have := h.2.2 (j - r) (by omega)
  have e : r + (j - r) = j := by omega
  rw [e] at this
  simp [this]

/-- Loop invariant of `find_clear_bits`: `count` clear bits end at `off`,
`first_zero` is where they start, and no clear run starts before them. -/
theorem find_clear_bits_loop_spec (bm : AllocBitmap) (n offset : Nat)
    (hV : bm.valid_bits < 4294967296) (hn1 : 1 ≤ n) :
    ∀ fuel off count fz,
      bm.valid_bits < off + fuel → count ≤ off → offset ≤ off - count →
      off ≤ bm.valid_bits → count < n →
      (∀ i, off - count ≤ i → i < off → ocfs2_test_bit i bm.buf = false) →
      (0 < count → fz = off - count) →
      (∀ r, r < off - count → ¬ ClearRun bm n offset r) →
      ∃ x, find_clear_bits_loop bm n fuel off count fz = some x ∧ FirstFit bm n offset x := by
  intro fuel
  induction fuel with
  | zero => intro off count fz hf hc ho hoV; omega
  | succ fuel ih =>
    intro off count fz hf hc ho hoV hcn hclr hfz hno
    have hsub : u32 (u32_sub bm.valid_bits off + count) = bm.valid_bits - off + count := by
      simp only [u32, u32_sub]; omega
    simp only [find_clear_bits_loop, hsub]
    by_cases hcond : bm.valid_bits - off + count ≥ n
    · rw [if_pos hcond]
      obtain ⟨h1, h2, h3, h4⟩ := ocfs2_find_next_bit_clear_spec bm.buf bm.valid_bits off hoV
      generalize ocfs2_find_next_bit_clear bm.buf bm.valid_bits off = nz at h1 h2 h3 h4 ⊢
      by_cases hnz : nz = bm.valid_bits
      · -- every bit from `off` on is set
        simp only [hnz, ne_eq, not_true_eq_false, if_false]
        refine ⟨_, rfl, Or.inr ⟨rfl, ?_⟩⟩
        intro r hr
        by_cases hlt : r < off - count
        · exact hno r hlt hr
        · have hfit := hr.2.1
          by_cases hro : off ≤ r
          · exact clear_run_not_set hr r (le_refl _) (by omega) (h3 r hro (by omega))
          · exact clear_run_not_set hr off (by omega) (by omega) (h3 off (le_refl _) (by omega))
      · have hlt : nz < bm.valid_bits := by omega
        have hbit := h4 hlt
        simp only [ne_eq, hnz, not_false_eq_true, if_true, ge_iff_le, Nat.not_le.mpr hlt, if_false]
        by_cases hne : nz = off
        · -- the run under construction grows by one bit
          subst hne
          simp only [not_true_eq_false, if_false]
          have hc2 : u32 (count + 1) = count + 1 := by simp only [u32]; omega
          rw [hc2]
          have hfz1 : (if count = 0 then nz else fz) = nz - count := by
            by_cases h0 : count = 0
            · simp [h0]
            · rw [if_neg h0]; exact hfz (by omega)
          rw [hfz1]
          have hclr1 : ∀ i, nz - count ≤ i → i < nz + 1 → ocfs2_test_bit i bm.buf = false := by
            intro i a b
            by_cases hi : i = nz
            · rw [hi]; exact hbit
            · exact hclr i a (by omega)
          by_cases hdone : count + 1 = n
          · rw [if_pos hdone]
            refine ⟨_, rfl, Or.inl ⟨by omega, ⟨by omega, by omega, ?_⟩, ?_⟩⟩
            · intro i hi; exact hclr1 _ (by omega) (by omega)
            · intro r hr
              by_contra hcon
              exact hno r (by omega) hr
          · rw [if_neg hdone]
            have hu : u32 (nz + 1) = nz + 1 := by simp only [u32]; omega
            rw [hu]
            apply ih (nz + 1) (count + 1) (nz - count) (by omega) (by omega) (by omega)
              (by omega) (by omega)
            · intro i a b; exact hclr1 i (by omega) b
            · intro _; omega
            · intro r hr; exact hno r (by omega)
        · -- a set bit interrupted the run: restart at `nz`
          simp only [hne, not_false_eq_true, if_true]
          have hu : u32 (nz + 1) = nz + 1 := by simp only [u32]; omega
          have hone : u32 (0 + 1) = 1 := by simp [u32]
          rw [hu, hone]
          have hno1 : ∀ r, r < nz → ¬ ClearRun bm n offset r := by
            intro r hr hrun
            by_cases hlt2 : r < off - count
            · exact hno r hlt2 hrun
            · by_cases hro : off ≤ r
              · exact clear_run_not_set hrun r (le_refl _) (by omega) (h3 r hro hr)
              · exact clear_run_not_set hrun off (by omega) (by omega) (h3 off (le_refl _) (by omega))
          by_cases hdone : 1 = n
          · rw [if_pos hdone]
            refine ⟨_, rfl, Or.inl ⟨hlt, ⟨by omega, by omega, ?_⟩, ?_⟩⟩
            · intro i hi
              have : i = 0 := by omega
              subst this; simpa using hbit
            · intro r hr
              by_contra hcon
              exact hno1 r (by omega) hr
          · rw [if_neg hdone]
            apply ih (nz + 1) 1 nz (by omega) (by omega) (by omega) (by omega) (by omega)
            · intro i a b
              have : i = nz := by omega
              rw [this]; exact hbit
            · intro _; omega
            · intro r hr; exact hno1 r (by omega)
    · rw [if_neg hcond]
      refine ⟨_, rfl, Or.inr ⟨rfl, ?_⟩⟩
      intro r hr
      by_cases hlt : r < off - count
      · exact hno r hlt hr
      · have := hr.2.1; omega

/-- The value `find_clear_bits` returns satisfies the first-fit specification,
and the call returns (the loop ends within its budget). -/
theorem find_clear_bits_spec (bm : AllocBitmap) (n offset : Nat)
    (hV : bm.valid_bits < 4294967296) (hn1 : 1 ≤ n) (hoff : offset ≤ bm.valid_bits) :
    ∃ x, find_clear_bits bm n offset = some x ∧ FirstFit bm n offset x := by
  obtain ⟨x, hx, hspec⟩ := find_clear_bits_loop_spec bm n offset hV hn1
    (bm.valid_bits + 1) offset 0 NOT_FOUND (by omega) (by omega) (by omega) hoff (by omega)
    (by intro i a b; omega) (by intro h; omega)
    (by intro r hr hrun; have := hrun.1; omega)
  refine ⟨x, ?_, hspec⟩
  unfold find_clear_bits
  rw [hx]
  rcases hspec with ⟨hlt, _, _⟩ | ⟨hnf, _⟩
  · have : ¬ (x ≠ NOT_FOUND ∧ x > bm.valid_bits) := by
      intro h; omega
    simp only [this, if_false]
  · subst hnf; simp

/-- C1: for a bitmap of `V = valid_bits < 2^32` bits, `num_bits >= 1` and
`offset <= V`, `find_clear_bits` returns the lowest index `r >= offset` with
`r + num_bits <= V` whose bits `r .. r + num_bits - 1` are all clear, when there
is such an index, and returns the not-found value `(uint32_t)-1` when there is
none (`ocfs2_find_next_bit_clear` being the least clear index at or after the
offset, or `size`). -/
theorem find_clear_bits_first_fit (bitmap : AllocBitmap) (num_bits offset : Nat)
    (hV : bitmap.valid_bits < 4294967296) (hn : 1 ≤ num_bits)
    (hoff : offset ≤ bitmap.valid_bits) :
    ((∃ r, ClearRun bitmap num_bits offset r) →
      ∃ r, find_clear_bits bitmap num_bits offset = some r ∧
        ClearRun bitmap num_bits offset r ∧
        ∀ r', ClearRun bitmap num_bits offset r' → r ≤ r') ∧
    ((¬ ∃ r, ClearRun bitmap num_bits offset r) →
      find_clear_bits bitmap num_bits offset = some NOT_FOUND) := by
  obtain ⟨x, hx, hspec⟩ := find_clear_bits_spec bitmap num_bits offset hV hn hoff
  constructor
  · rintro ⟨r, hr⟩
    rcases hspec with ⟨_, hrun, hleast⟩ | ⟨_, hnone⟩
    · exact ⟨x, hx, hrun, hleast⟩
    · exact absurd hr (hnone r)
  · intro hnone
    rcases hspec with ⟨_, hrun, _⟩ | ⟨hnf, _⟩
    · exact absurd ⟨x, hrun⟩ hnone
    · rw [hx, hnf]

/-- The scenario of C1: in the 8-bit bitmap `01100110` there is no clear run of
5 bits, and `find_clear_bits` returns not-found; asked for 2 bits it returns
bit 3, the lowest clear pair. -/
theorem find_clear_bits_first_fit_witness :
    (¬ ∃ r, ClearRun scenario_bitmap 5 0 r) ∧
      find_clear_bits scenario_bitmap 5 0 = some NOT_FOUND ∧
      find_clear_bits scenario_bitmap 2 0 = some 3 := by
  have hnone : ¬ ∃ r, ClearRun scenario_bitmap 5 0 r := by
    rintro ⟨r, _, h1, h2⟩
    have hr : r ≤ 3 := by simp [scenario_bitmap] at h1; omega
    interval_cases r
    · have := h2 1 (by omega); simp [scenario_bitmap, bits_of, ocfs2_test_bit] at this
    · have := h2 0 (by omega); simp [scenario_bitmap, bits_of, ocfs2_test_bit] at this
    · have := h2 0 (by omega); simp [scenario_bitmap, bits_of, ocfs2_test_bit] at this
    · have := h2 2 (by omega); simp [scenario_bitmap, bits_of, ocfs2_test_bit] at this
  refine ⟨hnone, ?_, by decide⟩
  exact (find_clear_bits_first_fit scenario_bitmap 5 0 (by decide) (by decide)
    (by decide)).2 hnone

/-- C2: for a bitmap of `V = valid_bits < 2^32` bits, `num_bits >= 1` and
`offset <= V`, an index `i` returned by `find_clear_bits` (a value other than
not-found) satisfies `i + num_bits <= V`, and none of the bits
`i .. i + num_bits - 1` is set. -/
theorem find_clear_bits_in_range_and_clear (bitmap : AllocBitmap) (num_bits offset i : Nat)
    (hV : bitmap.valid_bits < 4294967296) (hn : 1 ≤ num_bits)
    (hoff : offset ≤ bitmap.valid_bits)
    (hret : find_clear_bits bitmap num_bits offset = some i) (hfound : i ≠ NOT_FOUND) :
    i + num_bits ≤ bitmap.valid_bits ∧
      ∀ j, i ≤ j → j < i + num_bits → ocfs2_test_bit j bitmap.buf = false := by
  obtain ⟨x, hx, hspec⟩ := find_clear_bits_spec bitmap num_bits offset hV hn hoff
  rw [hret] at hx
  cases hx
  rcases hspec with ⟨_, hrun, _⟩ | ⟨hnf, _⟩
  · refine ⟨hrun.2.1, ?_⟩
    intro j h1 h2
    have := hrun.2.2 (j - i) (by omega)
    have e : i + (j - i) = j := by omega
    rwa [e] at this
  · exact absurd hnf hfound

/-- On the scenario bitmap `01100110`, one bit asked for from offset 4 is found
at bit 4, which lies within the bitmap and is clear. -/
theorem find_clear_bits_in_range_and_clear_witness :
    find_clear_bits scenario_bitmap 1 4 = some 4 ∧
      (4 + 1 ≤ scenario_bitmap.valid_bits ∧
        ∀ j, 4 ≤ j → j < 4 + 1 → ocfs2_test_bit j scenario_bitmap.buf = false) :=
  ⟨by decide,
    find_clear_bits_in_range_and_clear scenario_bitmap 1 4 4 (by decide) (by decide)
      (by decide) (by decide) (by decide)⟩

/-! ## `alloc_from_bitmap` -/

/-- The bits set by the claiming loop of `alloc_from_bitmap`: those reached
from `start_bit` in `num_bits` steps of 32-bit increments. -/
theorem set_bits_loop_spec : ∀ (num_bits : Nat) (buf : BitBuf) (start_bit i : Nat),
    start_bit < 4294967296 →
    (set_bits_loop buf num_bits start_bit i = true ↔
      buf i = true ∨ ∃ j, j < num_bits ∧ i = (start_bit + j) % 4294967296) := by
  intro num_bits
  induction num_bits with
  | zero => intro buf start_bit i _; simp [set_bits_loop]
  | succ k ih =>
    intro buf start_bit i hs
    simp only [set_bits_loop]
    rw [ih (ocfs2_set_bit start_bit buf) (u32 (start_bit + 1)) i (by simp only [u32]; omega)]
    simp only [ocfs2_set_bit]
    constructor
    · rintro (h | ⟨j, hj, hi⟩)
      · by_cases his : i = start_bit
        · exact Or.inr ⟨0, by omega, by omega⟩
        · simp only [his, if_false] at h; exact Or.inl h
      · exact Or.inr ⟨j + 1, by omega, by simp only [u32] at hi; omega⟩
    · rintro (h | ⟨j, hj, hi⟩)
      · by_cases his : i = start_bit
        · simp [his]
        · simp only [his, if_false]; exact Or.inl h
      · rcases j with _ | j
        · left
          have : i = start_bit := by omega
          simp [this]
        · exact Or.inr ⟨j, by omega, by simp only [u32]; omega⟩

/-- Setting a block of clear bits below `n` raises the population count of the
first `n` bits by the length of the block. -/
theorem popcount_add_run (buf buf1 : BitBuf) (r k : Nat)
    (hclear : ∀ i, r ≤ i → i < r + k → buf i = false)
    (hnew : ∀ i, buf1 i = true ↔ buf i = true ∨ (r ≤ i ∧ i < r + k)) :
    ∀ n, popcount buf1 n =
      popcount buf n + (if n ≤ r then 0 else if n ≤ r + k then n - r else k) := by
  intro n
  induction n with
  | zero => simp [popcount]
  | succ n ih =>
    simp only [popcount, ocfs2_test_bit]
    by_cases hin : r ≤ n ∧ n < r + k
    · have h1 : buf1 n = true := (hnew n).2 (Or.inr hin)
      have h0 : buf n = false := hclear n hin.1 hin.2
      simp only [h1, h0, if_true, Bool.false_eq_true, if_false]
      split_ifs at ih ⊢ <;> omega
    · have h1 : buf1 n = buf n := by
        cases hb : buf n
        · cases hb1 : buf1 n
          · rfl
          · rcases (hnew n).1 hb1 with h | h
            · rw [hb] at h; cases h
            · exact absurd h hin
        · exact (hnew n).2 (Or.inl hb)
      simp only [h1]
      split_ifs at ih ⊢ <;> omega

theorem popcount_le (buf : BitBuf) : ∀ n, popcount buf n ≤ n := by
  intro n
  induction n with
  | zero => simp [popcount]
  | succ n ih =>
    simp only [popcount]
    split_ifs <;> omega

/-- What a successful `alloc_from_bitmap` call did, for a unit count
`1 <= k < 2^32`: a first-fit run `r` was claimed. -/
theorem alloc_from_bitmap_spec (io_ok : Nat → Nat → Bool) (bitmap bitmap1 : AllocBitmap)
    (k start num : Nat) (hV : bitmap.valid_bits < 4294967296) (hk1 : 1 ≤ k)
    (hk : k < 4294967296)
    (hret : alloc_from_bitmap io_ok k bitmap = some (bitmap1, start, num)) :
    ∃ r, ClearRun bitmap k 0 r ∧ (∀ r', ClearRun bitmap k 0 r' → r ≤ r') ∧
      start = u64 (r * 2 ^ bitmap.unit_bits) ∧ num = u64 (k * 2 ^ bitmap.unit_bits) ∧
      bitmap1.buf = set_bits_loop bitmap.buf k r ∧
      bitmap1.valid_bits = bitmap.valid_bits ∧ bitmap1.unit_bits = bitmap.unit_bits ∧
      bitmap1.bm_record.bi.used_bits = u32 (bitmap.bm_record.bi.used_bits + k) := by
  have hku : u32 k = k := by simp only [u32]; omega
  obtain ⟨x, hx, hspec⟩ := find_clear_bits_spec bitmap k 0 hV hk1 (Nat.zero_le _)
  unfold alloc_from_bitmap at hret
  rw [hku, hx] at hret
  simp only at hret
  rcases hspec with ⟨hlt, hrun, hleast⟩ | ⟨hnf, _⟩
  · have hne : x ≠ NOT_FOUND := by simp only [NOT_FOUND]; omega
    rw [if_neg hne] at hret
    split at hret
    · simp only [Option.some.injEq, Prod.mk.injEq] at hret
      obtain ⟨h1, h2, h3⟩ := hret
      subst h1 h2 h3
      exact ⟨x, hrun, hleast, rfl, rfl, rfl, rfl, rfl, rfl⟩
    · cases hret
  · rw [if_pos hnf] at hret
    cases hret

/-- A call of `alloc_from_bitmap` that succeeds leaves the counter with room
when the counter did not exceed the number of set bits before: the claimed
bits were clear, so the set bits and the claimed ones together are at most
`valid_bits`, which is below `2^32`. -/
theorem alloc_from_bitmap_counter_room (io_ok : Nat → Nat → Bool)
    (bitmap bitmap1 : AllocBitmap) (k start num : Nat)
    (hV : bitmap.valid_bits < 4294967296) (hk1 : 1 ≤ k) (hk : k < 4294967296)
    (hcount : bitmap.bm_record.bi.used_bits ≤ popcount bitmap.buf bitmap.valid_bits)
    (hret : alloc_from_bitmap io_ok k bitmap = some (bitmap1, start, num)) :
    bitmap.bm_record.bi.used_bits + k < 4294967296 := by
  obtain ⟨r, hrun, _, _, _, hbuf, _, _, _⟩ :=
    alloc_from_bitmap_spec io_ok bitmap bitmap1 k start num hV hk1 hk hret
  have hfit := hrun.2.1
  have hclear : ∀ i, r ≤ i → i < r + k → bitmap.buf i = false := by
    intro i h1 h2
    have := hrun.2.2 (i - r) (by omega)
    have e : r + (i - r) = i := by omega
    rwa [e] at this
  have hnew : ∀ i, bitmap1.buf i = true ↔ bitmap.buf i = true ∨ (r ≤ i ∧ i < r + k) := by
    intro i
    rw [hbuf, set_bits_loop_spec k bitmap.buf r i (by omega)]
    constructor
    · rintro (h | ⟨j, hj, hi⟩)
      · exact Or.inl h
      · exact Or.inr (by omega)
    · rintro (h | ⟨h1, h2⟩)
      · exact Or.inl h
      · exact Or.inr ⟨i - r, by omega, by omega⟩
  have hpop := popcount_add_run bitmap.buf bitmap1.buf r k hclear hnew bitmap.valid_bits
  have hle := popcount_le bitmap1.buf bitmap.valid_bits
  split_ifs at hpop <;> omega

/-- C3 (as amended): when `alloc_from_bitmap (s, k, bitmap, ...)` succeeds for
a unit count `1 <= k < 2^32` on a bitmap whose 32-bit counter
`bm_record->bi.used_bits` has room for `k` more (`used_bits + k < 2^32`), there
is a block of `k` bits `r .. r + k - 1` inside the bitmap that were all clear
before the call and are all set after it, every other bit has the value it
had, the number of set bits among the valid bits has grown by exactly `k`, and
`bm_record->bi.used_bits` has grown by exactly `k`. -/
theorem alloc_from_bitmap_claims_k_bits (io_ok : Nat → Nat → Bool)
    (bitmap bitmap1 : AllocBitmap) (k start num : Nat)
    (hV : bitmap.valid_bits < 4294967296) (hk1 : 1 ≤ k) (hk : k < 4294967296)
    (hroom : bitmap.bm_record.bi.used_bits + k < 4294967296)
    (hret : alloc_from_bitmap io_ok k bitmap = some (bitmap1, start, num)) :
    ∃ r, r + k ≤ bitmap.valid_bits ∧
      (∀ i, r ≤ i → i < r + k →
        ocfs2_test_bit i bitmap.buf = false ∧ ocfs2_test_bit i bitmap1.buf = true) ∧
      (∀ i, ¬ (r ≤ i ∧ i < r + k) →
        ocfs2_test_bit i bitmap1.buf = ocfs2_test_bit i bitmap.buf) ∧
      popcount bitmap1.buf bitmap.valid_bits = popcount bitmap.buf bitmap.valid_bits + k ∧
      bitmap1.bm_record.bi.used_bits = bitmap.bm_record.bi.used_bits + k := by
  obtain ⟨r, hrun, _, _, _, hbuf, _, _, hused⟩ :=
    alloc_from_bitmap_spec io_ok bitmap bitmap1 k start num hV hk1 hk hret
  have hfit := hrun.2.1
  have hclear : ∀ i, r ≤ i → i < r + k → bitmap.buf i = false := by
    intro i h1 h2
    have := hrun.2.2 (i - r) (by omega)
    have e : r + (i - r) = i := by omega
    rwa [e] at this
  have hnew : ∀ i, bitmap1.buf i = true ↔ bitmap.buf i = true ∨ (r ≤ i ∧ i < r + k) := by
    intro i
    rw [hbuf, set_bits_loop_spec k bitmap.buf r i (by omega)]
    constructor
    · rintro (h | ⟨j, hj, hi⟩)
      · exact Or.inl h
      · exact Or.inr (by omega)
    · rintro (h | ⟨h1, h2⟩)
      · exact Or.inl h
      · exact Or.inr ⟨i - r, by omega, by omega⟩
  have hpop : popcount bitmap1.buf bitmap.valid_bits
      = popcount bitmap.buf bitmap.valid_bits + k := by
    have := popcount_add_run bitmap.buf bitmap1.buf r k hclear hnew bitmap.valid_bits
    split_ifs at this <;> omega
  refine ⟨r, hfit, ?_, ?_, hpop, ?_⟩
  · intro i h1 h2
    exact ⟨hclear i h1 h2, (hnew i).2 (Or.inr ⟨h1, h2⟩)⟩
  · intro i hi
    simp only [ocfs2_test_bit]
    cases hb : bitmap.buf i
    · cases hb1 : bitmap1.buf i
      · rfl
      · rcases (hnew i).1 hb1 with h | h
        · rw [hb] at h; cases h
        · exact absurd h hi
    · exact (hnew i).2 (Or.inl hb)
  · rw [hused]
    exact Nat.mod_eq_of_lt hroom

/-- An allocation of two units on the scenario bitmap `01100110` (four bits
used): the call succeeds at bit 3, and afterwards two more bits are set and
the counter stands at 6. -/
theorem alloc_from_bitmap_claims_k_bits_witness :
    ∃ bitmap1, alloc_from_bitmap (fun _ _ => true) 2 scenario_bitmap = some (bitmap1, 3, 2) ∧
      popcount bitmap1.buf scenario_bitmap.valid_bits =
        popcount scenario_bitmap.buf scenario_bitmap.valid_bits + 2 ∧
      bitmap1.bm_record.bi.used_bits = 6 := by
  refine ⟨_, rfl, ?_⟩
  obtain ⟨r, _, _, _, hpop, hused⟩ :=
    alloc_from_bitmap_claims_k_bits (fun _ _ => true) scenario_bitmap _ 2 3 2
      (by decide) (by decide) (by decide) (by decide) rfl
  exact ⟨hpop, hused⟩

/-- C3 (counterexample): on the bitmap `01100110` with the counter at
`2^32 - 1`, a call for one unit succeeds and claims bit 0, which was clear; the
32-bit counter wraps and stands at 0, not at `2^32`. -/
theorem alloc_from_bitmap_claims_k_bits_counterexample :
    ∃ bitmap1,
      alloc_from_bitmap (fun _ _ => true) 1
          { scenario_bitmap with
            bm_record := { scenario_bitmap.bm_record with
                            bi := { used_bits := 4294967295, total_bits := 8 } } } =
        some (bitmap1, 0, 1) ∧
      ocfs2_test_bit 0 scenario_bitmap.buf = false ∧ ocfs2_test_bit 0 bitmap1.buf = true ∧
      bitmap1.bm_record.bi.used_bits = 0 ∧
      bitmap1.bm_record.bi.used_bits ≠ 4294967295 + 1 := by
  refine ⟨_, rfl, rfl, rfl, rfl, ?_⟩
  decide

/-- With `num_bits = 0` the loop of `find_clear_bits` never reaches
`count == num_bits` and ends with not-found. -/
theorem find_clear_bits_loop_zero (bm : AllocBitmap) (n : Nat) (hn : n = 0)
    (hV : bm.valid_bits < 4294967296) :
    ∀ fuel off count fz, bm.valid_bits < off + fuel → off ≤ bm.valid_bits → count ≤ off →
      find_clear_bits_loop bm n fuel off count fz = some NOT_FOUND := by
  intro fuel
  induction fuel with
  | zero => intro off count fz h1 h2; omega
  | succ fuel ih =>
    intro off count fz h1 h2 h3
    simp only [find_clear_bits_loop]
    have hge : u32 (u32_sub bm.valid_bits off + count) ≥ n := by omega
    rw [if_pos hge]
    obtain ⟨a, b, _, _⟩ := ocfs2_find_next_bit_clear_spec bm.buf bm.valid_bits off h2
    generalize ocfs2_find_next_bit_clear bm.buf bm.valid_bits off = nz at a b ⊢
    by_cases hnz : nz = bm.valid_bits
    · simp only [hnz, ne_eq, not_true_eq_false, if_false]
    · have hlt : nz < bm.valid_bits := by omega
      simp only [ne_eq, hnz, not_false_eq_true, if_true, ge_iff_le, Nat.not_le.mpr hlt, if_false]
      by_cases hne : nz = off
      · subst hne
        simp only [not_true_eq_false, if_false]
        have hc : u32 (count + 1) = count + 1 := by simp only [u32]; omega
        have hu : u32 (nz + 1) = nz + 1 := by simp only [u32]; omega
        have hz : ¬ (count + 1 = n) := by omega
        rw [hc, hu, if_neg hz]
        exact ih (nz + 1) (count + 1) _ (by omega) (by omega) (by omega)
      · simp only [hne, not_false_eq_true, if_true]
        have hc : u32 (0 + 1) = 1 := by simp only [u32]
        have hu : u32 (nz + 1) = nz + 1 := by simp only [u32]; omega
        have hz : ¬ (1 = n) := by omega
        rw [hc, hu, if_neg hz]
        exact ih (nz + 1) 1 _ (by omega) (by omega) (by omega)

/-- A request for zero bits is never satisfied by `find_clear_bits`. -/
theorem find_clear_bits_zero (bm : AllocBitmap) (n : Nat) (hn : n = 0)
    (hV : bm.valid_bits < 4294967296) :
    find_clear_bits bm n 0 = some NOT_FOUND := by
  unfold find_clear_bits
  rw [find_clear_bits_loop_zero bm n hn hV (bm.valid_bits + 1) 0 0 NOT_FOUND (by omega)
    (by omega) (by omega)]
  simp only [ne_eq, not_true_eq_false, false_and, if_false]

/-- A byte offset of a unit below `2^32` with a unit size below `2^32` fits in
64 bits. -/
theorem unit_offset_lt (p ub : Nat) (hp : p < 4294967296) (hub : ub < 32) :
    p * 2 ^ ub < 18446744073709551616 := by
  have h1 : 2 ^ ub ≤ 2 ^ 31 := Nat.pow_le_pow_right (by norm_num) (by omega)
  calc p * 2 ^ ub ≤ 4294967295 * 2 ^ 31 := Nat.mul_le_mul (by omega) h1
    _ < 18446744073709551616 := by norm_num

/-- On a bitmap whose valid bits are all set, `alloc_from_bitmap` exits. -/
theorem alloc_from_bitmap_full (io_ok : Nat → Nat → Bool) (bm : AllocBitmap) (k : Nat)
    (hV : bm.valid_bits < 4294967296) (hfull : PrefixSet bm bm.valid_bits) :
    alloc_from_bitmap io_ok k bm = none := by
  unfold alloc_from_bitmap
  generalize u32 k = n
  by_cases hn : n = 0
  · rw [find_clear_bits_zero bm n hn hV]
    simp
  · obtain ⟨x, hx, hspec⟩ := find_clear_bits_spec bm n 0 hV (by omega) (Nat.zero_le _)
    rw [hx]
    rcases hspec with ⟨hlt, hrun, _⟩ | ⟨hnf, _⟩
    · have h0 := hrun.2.2 0 (by omega)
      have h1 := hfull.2.1 x hlt
      simp only [ocfs2_test_bit, Nat.add_zero] at h0
      rw [h0] at h1
      cases h1
    · simp [hnf]

/-- One successful `alloc_from_bitmap` call on a bitmap whose set bits are the
prefix `[0, p)`: the run starts at unit `p`, and the set bits are a longer
prefix afterwards. -/
theorem alloc_from_bitmap_keeps_shape (io_ok : Nat → Nat → Bool) (bm bm1 : AllocBitmap)
    (k start num p : Nat) (hV : bm.valid_bits < 4294967296) (hub : bm.unit_bits < 32)
    (hp : PrefixSet bm p) (hret : alloc_from_bitmap io_ok k bm = some (bm1, start, num)) :
    ∃ p1, PrefixSet bm1 p1 ∧ bm1.valid_bits = bm.valid_bits ∧
      bm1.unit_bits = bm.unit_bits ∧ p ≤ p1 ∧ start = p * 2 ^ bm.unit_bits ∧
      (start + num = p1 * 2 ^ bm.unit_bits ∨ p1 = bm.valid_bits) := by
  unfold alloc_from_bitmap at hret
  generalize hn : u32 k = n at hret
  by_cases hn0 : n = 0
  · rw [find_clear_bits_zero bm n hn0 hV] at hret
    simp at hret
  obtain ⟨x, hx, hspec⟩ := find_clear_bits_spec bm n 0 hV (by omega) (Nat.zero_le _)
  rw [hx] at hret
  simp only at hret
  rcases hspec with ⟨hlt, hrun, hleast⟩ | ⟨hnf, _⟩
  · -- the run found is the one that starts at `p`
    have hxp : x = p := by
      have hge : p ≤ x := by
        by_contra hcon
        have h0 := hrun.2.2 0 (by omega)
        have h1 := hp.2.1 x (by omega)
        simp only [ocfs2_test_bit, Nat.add_zero] at h0
        rw [h0] at h1
        cases h1
      have hfit := hrun.2.1
      have hrunp : ClearRun bm n 0 p :=
        ⟨Nat.zero_le _, by omega, fun i hi => hp.2.2 (p + i) (by omega) (by omega)⟩
      have := hleast p hrunp
      omega
    subst hxp
    have hfit := hrun.2.1
    have hne : x ≠ NOT_FOUND := by simp only [NOT_FOUND]; omega
    rw [if_neg hne] at hret
    split at hret
    · simp only [Option.some.injEq, Prod.mk.injEq] at hret
      obtain ⟨h1, h2, h3⟩ := hret
      have hstart : start = x * 2 ^ bm.unit_bits := by
        rw [← h2]
        exact Nat.mod_eq_of_lt (unit_offset_lt x bm.unit_bits (by omega) hub)
      have hbuf : ∀ i, bm1.buf i = true ↔
          bm.buf i = true ∨ ∃ j, j < k ∧ i = (x + j) % 4294967296 := by
        intro i
        rw [← h1]
        exact set_bits_loop_spec k bm.buf x i (by omega)
      have hvb : bm1.valid_bits = bm.valid_bits := by rw [← h1]
      have hubs : bm1.unit_bits = bm.unit_bits := by rw [← h1]
      by_cases hk : k < 4294967296
      · have hkn : n = k := by rw [← hn]; simp only [u32]; omega
        subst hkn
        refine ⟨x + n, ⟨by omega, ?_, ?_⟩, hvb, hubs, by omega, hstart, Or.inl ?_⟩
        · intro i hi
          by_cases hix : i < x
          · exact (hbuf i).2 (Or.inl (hp.2.1 i hix))
          · exact (hbuf i).2 (Or.inr ⟨i - x, by omega, by omega⟩)
        · intro i hi1 hi2
          cases hb : bm1.buf i
          · rfl
          · rcases (hbuf i).1 hb with h | ⟨j, hj, hij⟩
            · have := hp.2.2 i (by omega) (by omega)
              rw [this] at h; cases h
            · omega
        · have hnum : num = n * 2 ^ bm.unit_bits := by
            rw [← h3]
            exact Nat.mod_eq_of_lt (unit_offset_lt n bm.unit_bits hk hub)
          rw [hstart, hnum, Nat.add_mul]
      · refine ⟨bm.valid_bits, ⟨by omega, ?_, ?_⟩, hvb, hubs, by omega, hstart, Or.inr rfl⟩
        · intro i hi
          exact (hbuf i).2 (Or.inr ⟨(i + 4294967296 - x) % 4294967296, by omega, by omega⟩)
        · intro i hi1 hi2
          omega
    · cases hret
  · rw [if_pos hnf] at hret
    cases hret

/-- The ranges handed out by a sequence of successful `alloc_from_bitmap`
calls on a prefix-shaped bitmap lie one after the other. -/
theorem alloc_sequence_ordered (io_ok : Nat → Nat → Bool) :
    ∀ (counts : List Nat) (bm bm1 : AllocBitmap) (ranges : List (Nat × Nat)) (p : Nat),
      bm.valid_bits < 4294967296 → bm.unit_bits < 32 → PrefixSet bm p →
      alloc_sequence io_ok bm counts = some (bm1, ranges) →
      (∀ a ∈ ranges, p * 2 ^ bm.unit_bits ≤ a.1) ∧
        ranges.Pairwise (fun a b => a.1 + a.2 ≤ b.1) := by
  intro counts
  induction counts with
  | nil =>
    intro bm bm1 ranges p _ _ _ hseq
    simp only [alloc_sequence, Option.some.injEq, Prod.mk.injEq] at hseq
    rw [← hseq.2]
    simp
  | cons k ks ih =>
    intro bm bm1 ranges p hV hub hp hseq
    simp only [alloc_sequence] at hseq
    cases hcall : alloc_from_bitmap io_ok k bm with
    | none => rw [hcall] at hseq; cases hseq
    | some res =>
      obtain ⟨bm2, start, num⟩ := res
      rw [hcall] at hseq
      simp only at hseq
      cases hrest : alloc_sequence io_ok bm2 ks with
      | none => rw [hrest] at hseq; cases hseq
      | some res2 =>
        obtain ⟨bm3, rs⟩ := res2
        rw [hrest] at hseq
        simp only [Option.some.injEq, Prod.mk.injEq] at hseq
        obtain ⟨p1, hp1, hvb, hubs, hpp, hstart, hend⟩ :=
          alloc_from_bitmap_keeps_shape io_ok bm bm2 k start num p hV hub hp hcall
        obtain ⟨hlow, hpair⟩ := ih bm2 bm3 rs p1 (by omega) (by omega) hp1 hrest
        rw [hubs] at hlow
        have hmono : p * 2 ^ bm.unit_bits ≤ p1 * 2 ^ bm.unit_bits :=
          Nat.mul_le_mul_right _ hpp
        have hafter : ∀ b ∈ rs, start + num ≤ b.1 := by
          rcases hend with he | he
          · intro b hb
            have := hlow b hb
            omega
          · -- the bitmap is full: no later call succeeded
            cases ks with
            | nil =>
              simp only [alloc_sequence, Option.some.injEq, Prod.mk.injEq] at hrest
              intro b hb
              rw [← hrest.2] at hb
              cases hb
            | cons k2 ks2 =>
              have hfull : PrefixSet bm2 bm2.valid_bits := by rw [hvb, ← he]; exact hp1
              have := alloc_from_bitmap_full io_ok bm2 k2 (by omega) hfull
              simp only [alloc_sequence, this] at hrest
              cases hrest
        rw [← hseq.2]
        refine ⟨?_, List.pairwise_cons.2 ⟨fun b hb => hafter b hb, hpair⟩⟩
        intro a ha
        rcases List.mem_cons.1 ha with h | h
        · rw [h]; exact le_of_eq hstart.symm
        · have := hlow a h
          omega

/-- C4: on a bitmap created by `initialize_bitmap` (for `bits < 2^32`), the
byte ranges `[start, start + num)` returned by the calls of any sequence of
successful `alloc_from_bitmap` calls are pairwise disjoint: no unit is
allocated twice.  The unit counts are arbitrary: those of the claim are the
counts `>= 1`, and a call asking for zero units never succeeds. -/
theorem alloc_from_bitmap_ranges_disjoint (io_ok : Nat → Nat → Bool) (bits unit_bits : Nat)
    (bm_record alloc_record : SystemFileDiskRecord) (bitmap bitmap1 : AllocBitmap)
    (counts : List Nat) (ranges : List (Nat × Nat)) (hbits : bits < 4294967296)
    (hinit : initialize_bitmap bits unit_bits bm_record alloc_record = some bitmap)
    (hseq : alloc_sequence io_ok bitmap counts = some (bitmap1, ranges)) :
    ranges.Pairwise RangesDisjoint := by
  unfold initialize_bitmap at hinit
  split at hinit
  · rename_i hub
    simp only [Option.some.injEq] at hinit
    have hvb : bitmap.valid_bits = bits := by rw [← hinit]
    have hubs : bitmap.unit_bits = unit_bits := by rw [← hinit]
    have hprefix : PrefixSet bitmap 0 := by
      refine ⟨Nat.zero_le _, fun i hi => absurd hi (Nat.not_lt_zero _), fun i _ _ => ?_⟩
      rw [← hinit]
    obtain ⟨_, hpair⟩ := alloc_sequence_ordered io_ok counts bitmap bitmap1 ranges 0
      (by omega) (by omega) hprefix hseq
    refine hpair.imp ?_
    intro a b hab x hx
    omega
  · cases hinit

/-- Three allocations of 2, 3 and 1 units of 512 bytes on a fresh bitmap of 8
units: they succeed at bytes 0, 1024 and 2560, and the ranges are disjoint. -/
theorem alloc_from_bitmap_ranges_disjoint_witness :
    ∃ bitmap bitmap1,
      initialize_bitmap 8 9 zero_record zero_record = some bitmap ∧
      alloc_sequence (fun _ _ => true) bitmap [2, 3, 1] =
        some (bitmap1, [(0, 1024), (1024, 1536), (2560, 512)]) ∧
      [((0 : Nat), (1024 : Nat)), (1024, 1536), (2560, 512)].Pairwise RangesDisjoint := by
  refine ⟨_, _, rfl, rfl, ?_⟩
  exact alloc_from_bitmap_ranges_disjoint (fun _ _ => true) 8 9 zero_record zero_record _ _
    [2, 3, 1] _ (by decide) rfl rfl

/-! ## Allocation groups -/

/-- Once `start_bit` is a set bit below `bg_bits`, the loop of
`alloc_from_group` makes no progress: `ocfs2_find_next_bit_set` returns
`start_bit` itself, the run has length 0, and `start_bit = end_bit` leaves the
state as it was. -/
theorem alloc_from_group_loop_stuck (group : AllocGroup) (count start_bit : Nat)
    (hcount : 1 ≤ count) (hlt : start_bit < group.gd.bg_bits)
    (h16 : group.gd.bg_bits < 65536)
    (hset : ocfs2_test_bit start_bit group.gd.bg_bitmap = true) :
    ∀ fuel, alloc_from_group_loop group count fuel start_bit = Outcome.running := by
  have hend : ocfs2_find_next_bit_set group.gd.bg_bitmap group.gd.bg_bits start_bit
      = start_bit := by
    obtain ⟨a, b, c, d⟩ :=
      ocfs2_find_next_bit_set_spec group.gd.bg_bitmap group.gd.bg_bits start_bit (by omega)
    by_contra hne
    have := c start_bit (le_refl _) (by omega)
    rw [hset] at this
    cases this
  intro fuel
  induction fuel with
  | zero => rfl
  | succ fuel ih =>
    simp only [alloc_from_group_loop, hlt, if_true, hend]
    have hu : u16 start_bit = start_bit := by simp only [u16]; omega
    rw [hu, if_neg (by omega), ih]

/-- C5 (failing input): in the group with bitmap `10100` (`bg_bits = 5`) the
bits 3 and 4 form a clear run of length 2, yet `alloc_from_group` with
`count = 2` never returns: after the too short run at bit 1 the loop stays at
the set bit 2 for ever. -/
theorem alloc_from_group_skips_no_set_bit :
    (3 + 2 ≤ (group_of_bits [true, false, true, false, false] 3).gd.bg_bits ∧
      ∀ i, 3 ≤ i → i < 3 + 2 →
        ocfs2_test_bit i (group_of_bits [true, false, true, false, false] 3).gd.bg_bitmap
          = false) ∧
    ∀ fuel, alloc_from_group fuel 2 (group_of_bits [true, false, true, false, false] 3)
      = Outcome.running := by
  refine ⟨⟨by decide, ?_⟩, ?_⟩
  · intro i h1 h2
    have : i = 3 ∨ i = 4 := by omega
    rcases this with h | h <;> subst h <;> rfl
  · intro fuel
    cases fuel with
    | zero => rfl
    | succ fuel =>
      have hstep : alloc_from_group (fuel + 1) 2 (group_of_bits [true, false, true, false, false] 3)
          = alloc_from_group_loop (group_of_bits [true, false, true, false, false] 3) 2 fuel 2 :=
        rfl
      rw [hstep]
      exact alloc_from_group_loop_stuck (group_of_bits [true, false, true, false, false] 3) 2 2
        (by decide) (by decide) (by decide) rfl fuel

/-- C6 (failing input): the group with bitmap `101` (`bg_bits = 3`) has no
clear run of length 2, yet `alloc_from_group` with `count = 2` does not reach
its `exit(1)`: after the run of length 1 at bit 1 the loop stays at the set
bit 2 for ever. -/
theorem alloc_from_group_no_exit :
    (¬ ∃ r, r + 2 ≤ (group_of_bits [true, false, true] 1).gd.bg_bits ∧
      ∀ i, r ≤ i → i < r + 2 →
        ocfs2_test_bit i (group_of_bits [true, false, true] 1).gd.bg_bitmap = false) ∧
    ∀ fuel, alloc_from_group fuel 2 (group_of_bits [true, false, true] 1)
      = Outcome.running := by
  refine ⟨?_, ?_⟩
  · rintro ⟨r, h1, h2⟩
    have hr : r ≤ 1 := by
      have : (group_of_bits [true, false, true] 1).gd.bg_bits = 3 := rfl
      omega
    interval_cases r
    · have := h2 0 (by omega) (by omega); cases this
    · have := h2 2 (by omega) (by omega); cases this
  · intro fuel
    cases fuel with
    | zero => rfl
    | succ fuel =>
      have hstep : alloc_from_group (fuel + 1) 2 (group_of_bits [true, false, true] 1)
          = alloc_from_group_loop (group_of_bits [true, false, true] 1) 2 fuel 2 := rfl
      rw [hstep]
      exact alloc_from_group_loop_stuck (group_of_bits [true, false, true] 1) 2 2
        (by decide) (by decide) (by decide) rfl fuel

/-- C7 (as amended): for `1 <= cpg * bpc < 2^16`, `initialize_alloc_group`
returns a group with `bg_bits = cpg * bpc`, bit 0 of `bg_bitmap` set and every
other bit clear, `bg_free_bits_count = bg_bits - 1`, and leaves the owning
record with `bi.total_bits = bg_bits` and `bi.used_bits = 1`. -/
theorem initialize_alloc_group_counts (s : State) (ocfs2_group_bitmap_size : Nat → Nat)
    (alloc_inode : SystemFileDiskRecord) (blkno chain cpg bpc : Nat)
    (hpos : 1 ≤ cpg * bpc) (hfit : cpg * bpc < 65536) :
    (initialize_alloc_group s ocfs2_group_bitmap_size alloc_inode blkno chain cpg bpc).gd.bg_bits
        = cpg * bpc ∧
      ocfs2_test_bit 0
        (initialize_alloc_group s ocfs2_group_bitmap_size alloc_inode blkno chain cpg
          bpc).gd.bg_bitmap = true ∧
      (∀ i, i ≠ 0 → ocfs2_test_bit i
        (initialize_alloc_group s ocfs2_group_bitmap_size alloc_inode blkno chain cpg
          bpc).gd.bg_bitmap = false) ∧
      (initialize_alloc_group s ocfs2_group_bitmap_size alloc_inode blkno chain cpg
          bpc).gd.bg_free_bits_count = cpg * bpc - 1 ∧
      (initialize_alloc_group s ocfs2_group_bitmap_size alloc_inode blkno chain cpg
          bpc).alloc_inode.bi.total_bits = cpg * bpc ∧
      (initialize_alloc_group s ocfs2_group_bitmap_size alloc_inode blkno chain cpg
          bpc).alloc_inode.bi.used_bits = 1 := by
  simp only [initialize_alloc_group, ocfs2_test_bit, ocfs2_set_bit, u16, u16_sub, u32_sub]
  generalize cpg * bpc = n at hpos hfit
  refine ⟨by omega, by simp, ?_, by omega, by omega, by omega⟩
  intro i hi
  simp [hi]

/-- A group of 1024 clusters of one block each: 1024 bits, of which bit 0 is
used. -/
theorem initialize_alloc_group_counts_witness :
    (initialize_alloc_group scenario_state scenario_group_bitmap_size zero_record 3 0 1024
        1).gd.bg_bits = 1024 ∧
      (initialize_alloc_group scenario_state scenario_group_bitmap_size zero_record 3 0 1024
        1).gd.bg_free_bits_count = 1023 ∧
      (initialize_alloc_group scenario_state scenario_group_bitmap_size zero_record 3 0 1024
        1).alloc_inode.bi.used_bits = 1 := by
  obtain ⟨h1, _, _, h4, _, h6⟩ :=
    initialize_alloc_group_counts scenario_state scenario_group_bitmap_size zero_record 3 0
      1024 1 (by decide) (by decide)
  exact ⟨h1, h4, h6⟩

/-- C7 (counterexample): with `cpg = bpc = 256` the product 65536 does not fit
the 16-bit field, so `bg_bits` is 0 and not `cpg * bpc`, `bg_free_bits_count`
wraps to 65535 and `used_bits` to `2^32 - 65535`; with `cpg = 0` likewise
`used_bits` is not 1. -/
theorem initialize_alloc_group_counts_counterexample :
    (initialize_alloc_group scenario_state scenario_group_bitmap_size zero_record 3 0 256
        256).gd.bg_bits = 0 ∧
      (initialize_alloc_group scenario_state scenario_group_bitmap_size zero_record 3 0 256
        256).gd.bg_bits ≠ 256 * 256 ∧
      (initialize_alloc_group scenario_state scenario_group_bitmap_size zero_record 3 0 256
        256).gd.bg_free_bits_count = 65535 ∧
      (initialize_alloc_group scenario_state scenario_group_bitmap_size zero_record 3 0 256
        256).alloc_inode.bi.used_bits = 4294901761 ∧
      (initialize_alloc_group scenario_state scenario_group_bitmap_size zero_record 3 0 0
        8).gd.bg_free_bits_count = 65535 ∧
      (initialize_alloc_group scenario_state scenario_group_bitmap_size zero_record 3 0 0
        8).alloc_inode.bi.used_bits ≠ 1 := by
  decide

/-! ## Directories -/

theorem store_bytes_data_of_lt (buf : ByteBuf) (off : Nat) (bytes : List Nat) (i : Nat)
    (h : i < off) : (store_bytes buf off bytes).data i = buf.data i := by
  simp only [store_bytes]
  rw [if_neg (by omega)]

theorem load_le16_store_bytes (buf : ByteBuf) (off : Nat) (bytes : List Nat) (o : Nat)
    (h : o + 2 ≤ off ∨ off + bytes.length ≤ o) :
    load_le16 (store_bytes buf off bytes) o = load_le16 buf o := by
  simp only [load_le16, store_bytes]
  rw [if_neg (by omega), if_neg (by omega)]

theorem load_le16_store_le16 (buf : ByteBuf) (o v : Nat) (hv : v < 65536) :
    load_le16 (store_bytes buf o (cpu_to_le16 v)) o = v := by
  simp only [load_le16, store_bytes, cpu_to_le16, List.length_cons, List.length_nil]
  rw [if_pos (by omega), if_pos (by omega)]
  have e0 : o - o = 0 := by omega
  have e1 : o + 1 - o = 1 := by omega
  rw [e0, e1]
  simp only [List.getD_cons_zero, List.getD_cons_succ]
  omega

theorem load_le16_congr (buf buf1 : ByteBuf) (o : Nat)
    (h : ∀ i, i < o + 2 → buf1.data i = buf.data i) : load_le16 buf1 o = load_le16 buf o := by
  simp only [load_le16]
  rw [h o (by omega), h (o + 1) (by omega)]

theorem OCFS2_DIR_REC_LEN_ge (n : Nat) : 12 ≤ OCFS2_DIR_REC_LEN n := by
  simp only [OCFS2_DIR_REC_LEN]
  omega

theorem fill_entry_size (s : State) (buf : ByteBuf) (de : Nat) (name : List Nat)
    (byte_off type : Nat) : (fill_entry s buf de name byte_off type).size = buf.size := rfl

theorem fill_entry_data_of_lt (s : State) (buf : ByteBuf) (de : Nat) (name : List Nat)
    (byte_off type i : Nat) (h : i < de) :
    (fill_entry s buf de name byte_off type).data i = buf.data i := by
  simp only [fill_entry, DE_NAME_LEN, DE_INODE, DE_FILE_TYPE, DE_NAME]
  rw [store_bytes_data_of_lt _ _ _ _ (by omega), store_bytes_data_of_lt _ _ _ _ (by omega),
    store_bytes_data_of_lt _ _ _ _ (by omega), store_bytes_data_of_lt _ _ _ _ (by omega)]

/-- Filling an entry leaves its `rec_len` as it was. -/
theorem fill_entry_rec_len (s : State) (buf : ByteBuf) (de : Nat) (name : List Nat)
    (byte_off type : Nat) :
    load_le16 (fill_entry s buf de name byte_off type) (de + DE_REC_LEN)
      = load_le16 buf (de + DE_REC_LEN) := by
  simp only [fill_entry, DE_NAME_LEN, DE_INODE, DE_FILE_TYPE, DE_NAME, DE_REC_LEN]
  have h8 : ∀ v, (cpu_to_le64 v).length = 8 := fun _ => rfl
  rw [load_le16_store_bytes _ _ _ _ (by omega), load_le16_store_bytes _ _ _ _ (by omega),
    load_le16_store_bytes _ _ _ _ (by rw [h8]; omega),
    load_le16_store_bytes _ _ _ _ (by simp only [List.length_cons, List.length_nil]; omega)]

theorem tiles_le {buf : ByteBuf} : ∀ {lens : List Nat} {a b : Nat}, Tiles buf a lens b →
    a + 12 * lens.length ≤ b ∧ a + lens.sum = b := by
  intro lens
  induction lens with
  | nil => intro a b h; simp only [Tiles] at h; simp [h]
  | cons r lens ih =>
    intro a b h
    simp only [Tiles] at h
    obtain ⟨h1, h2⟩ := ih h.2.2
    simp only [List.length_cons, List.sum_cons]
    constructor <;> omega

/-- A buffer that agrees below `b` with a buffer tiled up to `b` is tiled in
the same way. -/
theorem tiles_frame {buf buf1 : ByteBuf} : ∀ {lens : List Nat} {a b : Nat},
    (∀ i, i < b → buf1.data i = buf.data i) → Tiles buf a lens b → Tiles buf1 a lens b := by
  intro lens
  induction lens with
  | nil => intro a b _ h; exact h
  | cons r lens ih =>
    intro a b hsame h
    simp only [Tiles] at h ⊢
    have hle := (tiles_le h.2.2).1
    refine ⟨?_, h.2.1, ih hsame h.2.2⟩
    rw [← h.1]
    apply load_le16_congr
    intro i hi
    simp only [DE_REC_LEN] at hi
    exact hsame i (by omega)

theorem tiles_append {buf : ByteBuf} : ∀ {l1 l2 : List Nat} {a b c : Nat},
    Tiles buf a l1 b → Tiles buf b l2 c → Tiles buf a (l1 ++ l2) c := by
  intro l1
  induction l1 with
  | nil => intro l2 a b c h1 h2; simp only [Tiles] at h1; subst h1; exact h2
  | cons r l1 ih =>
    intro l2 a b c h1 h2
    simp only [Tiles, List.cons_append] at h1 ⊢
    exact ⟨h1.1, h1.2.1, ih h1.2.2 h2⟩

theorem blocks_tile_frame {buf buf1 : ByteBuf} {bs : Nat} : ∀ {blocks : List (List Nat)} {a : Nat},
    (∀ i, i < a + blocks.length * bs → buf1.data i = buf.data i) →
    BlocksTile buf bs a blocks → BlocksTile buf1 bs a blocks := by
  intro blocks
  induction blocks with
  | nil => intro a _ _; trivial
  | cons l blocks ih =>
    intro a hsame h
    simp only [BlocksTile] at h ⊢
    simp only [List.length_cons, Nat.succ_mul] at hsame
    refine ⟨h.1, tiles_frame (fun i hi => hsame i (by omega)) h.2.1, ih ?_ h.2.2⟩
    intro i hi
    exact hsame i (by omega)

theorem blocks_tile_snoc {buf : ByteBuf} {bs : Nat} : ∀ {blocks : List (List Nat)} {a : Nat}
    {l : List Nat}, BlocksTile buf bs a blocks → l ≠ [] →
    Tiles buf (a + blocks.length * bs) l (a + blocks.length * bs + bs) →
    BlocksTile buf bs a (blocks ++ [l]) := by
  intro blocks
  induction blocks with
  | nil =>
    intro a l _ hl h
    simp only [List.length_nil, Nat.zero_mul, Nat.add_zero] at h
    simp only [List.nil_append, BlocksTile]
    exact ⟨hl, h, trivial⟩
  | cons l0 blocks ih =>
    intro a l h hl ht
    simp only [BlocksTile, List.cons_append] at h ⊢
    refine ⟨h.1, h.2.1, ih h.2.2 hl ?_⟩
    simp only [List.length_cons, Nat.succ_mul] at ht
    have e : a + bs + blocks.length * bs = a + (blocks.length * bs + bs) := by omega
    rw [e]
    exact ht

/-- A tiled stretch is what the walk by `rec_len` finds. -/
theorem walk_block_of_Tiles {buf : ByteBuf} : ∀ {lens : List Nat} {a b : Nat} (fuel : Nat),
    Tiles buf a lens b → lens ≠ [] → lens.length ≤ fuel →
    walk_block buf b fuel a = some lens := by
  intro lens
  induction lens with
  | nil => intro a b fuel _ h; exact absurd rfl h
  | cons r lens ih =>
    intro a b fuel h _ hfuel
    simp only [Tiles] at h
    obtain ⟨hr, h12, hrest⟩ := h
    cases fuel with
    | zero => simp at hfuel
    | succ fuel =>
      simp only [walk_block, hr]
      rw [if_neg (by omega)]
      cases lens with
      | nil =>
        simp only [Tiles] at hrest
        rw [if_pos hrest]
      | cons r2 lens2 =>
        have hle := (tiles_le hrest).1
        simp only [List.length_cons] at hle hfuel
        simp only [Tiles] at hrest
        rw [if_neg (by omega), if_pos (by omega)]
        rw [ih fuel (by simp only [Tiles]; exact hrest) (by simp) (by
          simp only [List.length_cons]; omega)]

theorem walk_blocks_of_BlocksTile {buf : ByteBuf} {bs : Nat} :
    ∀ {blocks : List (List Nat)} {a : Nat}, BlocksTile buf bs a blocks →
    walk_blocks buf bs blocks.length a = some blocks := by
  intro blocks
  induction blocks with
  | nil => intro a _; rfl
  | cons l blocks ih =>
    intro a h
    simp only [BlocksTile] at h
    have hlen := (tiles_le h.2.1).1
    simp only [List.length_cons, walk_blocks]
    rw [walk_block_of_Tiles bs h.2.1 h.1 (by omega), ih h.2.2]

theorem blocks_tile_sums {buf : ByteBuf} {bs : Nat} : ∀ {blocks : List (List Nat)} {a : Nat},
    BlocksTile buf bs a blocks → ∀ l ∈ blocks, l.sum = bs := by
  intro blocks
  induction blocks with
  | nil => intro a _ l hl; cases hl
  | cons l0 blocks ih =>
    intro a h l hl
    simp only [BlocksTile] at h
    rcases List.mem_cons.1 hl with e | e
    · have := (tiles_le h.2.1).2
      rw [e]; omega
    · exact ih h.2.2 l e

theorem to_int32_of_lt (n : Nat) (h : n < 2147483648) : to_int32 n = (n : Int) := by
  unfold to_int32
  have e : n % 4294967296 = n := Nat.mod_eq_of_lt (by omega)
  rw [e, if_pos h]

theorem to_int32_neg (n : Nat) (h1 : 2147483648 ≤ n) (h2 : n < 4294967296) : to_int32 n < 0 := by
  unfold to_int32
  have e : n % 4294967296 = n := Nat.mod_eq_of_lt h2
  rw [e, if_neg (by omega)]
  omega

/-- What `grow_directory` returns for a directory that has a buffer. -/
theorem grow_directory_spec (s : State) (dir : DirData) (buf b : ByteBuf) (p : Nat)
    (hbuf : dir.buf = some buf) (hfs : dir.record.file_size < 2147483648)
    (h16 : s.blocksize < 65536) (hret : grow_directory s dir = some (b, p)) :
    p = dir.record.file_size ∧ b.size = dir.record.file_size + s.blocksize ∧
      dir.record.file_size + s.blocksize < 2147483648 ∧
      (∀ i, i < p → b.data i = buf.data i) ∧ load_le16 b (p + DE_REC_LEN) = s.blocksize := by
  unfold grow_directory at hret
  rw [hbuf] at hret
  simp only at hret
  have hu : u64 (dir.record.file_size + s.blocksize) = dir.record.file_size + s.blocksize := by
    simp only [u64]; omega
  rw [hu] at hret
  by_cases hbig : dir.record.file_size + s.blocksize < 2147483648
  · rw [to_int32_of_lt _ hbig, if_neg (by omega)] at hret
    simp only [Option.some.injEq, Prod.mk.injEq, Int.toNat_ofNat] at hret
    obtain ⟨hb, hp⟩ := hret
    subst hp
    refine ⟨rfl, by rw [← hb]; rfl, hbig, ?_, ?_⟩
    · intro i hi
      rw [← hb]
      simp only [DE_REC_LEN, DE_INODE]
      rw [store_bytes_data_of_lt _ _ _ _ (by omega), store_bytes_data_of_lt _ _ _ _ (by omega)]
      simp only [hi, if_true]
    · rw [← hb]
      have e : u16 s.blocksize = s.blocksize := by simp only [u16]; omega
      rw [e]
      exact load_le16_store_le16 _ _ _ h16
  · rw [if_pos (to_int32_neg _ (by omega) (by omega))] at hret
    cases hret

/-- What `grow_directory` returns for a directory without a buffer. -/
theorem grow_directory_first (s : State) (dir : DirData) (hbuf : dir.buf = none)
    (h16 : s.blocksize < 65536) :
    ∃ b, grow_directory s dir = some (b, 0) ∧ b.size = s.blocksize ∧
      load_le16 b (0 + DE_REC_LEN) = s.blocksize := by
  unfold grow_directory
  rw [hbuf]
  simp only
  rw [to_int32_of_lt _ (by omega), if_neg (by omega)]
  refine ⟨_, rfl, by simp only [store_bytes, Int.toNat_ofNat], ?_⟩
  have e : u16 s.blocksize = s.blocksize := by simp only [u16]; omega
  rw [e]
  exact load_le16_store_le16 _ _ _ h16

theorem find_slack_eq (dir : DirData) (buf : ByteBuf) (new_rec_len : Nat)
    (hbuf : dir.buf = some buf) :
    find_slack dir new_rec_len =
      if (load_le64 buf (dir.last_off + DE_INODE) = 0 ∧
            load_le16 buf (dir.last_off + DE_REC_LEN) ≥ new_rec_len) ∨
          load_le16 buf (dir.last_off + DE_REC_LEN) ≥
            OCFS2_DIR_REC_LEN (buf.data (dir.last_off + DE_NAME_LEN)) + new_rec_len then
        if load_le64 buf (dir.last_off + DE_INODE) ≠ 0 then
          some (store_bytes
            (store_bytes buf
              (dir.last_off + OCFS2_DIR_REC_LEN (buf.data (dir.last_off + DE_NAME_LEN))
                + DE_REC_LEN)
              (cpu_to_le16 (u16 (load_le16 buf (dir.last_off + DE_REC_LEN) + 65536 -
                OCFS2_DIR_REC_LEN (buf.data (dir.last_off + DE_NAME_LEN))))))
            (dir.last_off + DE_REC_LEN)
            (cpu_to_le16 (u16 (OCFS2_DIR_REC_LEN (buf.data (dir.last_off + DE_NAME_LEN))))),
            dir.last_off + OCFS2_DIR_REC_LEN (buf.data (dir.last_off + DE_NAME_LEN)))
        else some (buf, dir.last_off)
      else none := by
  unfold find_slack
  rw [hbuf]

/-- The first entry of a directory: one block is allocated, and the entry
spans it. -/
theorem add_entry_to_directory_first (s : State) (dir : DirData) (name : List Nat)
    (byte_off type : Nat) (hbuf : dir.buf = none) (h12 : 12 ≤ s.blocksize)
    (h16 : s.blocksize < 65536) :
    ∃ dir1, add_entry_to_directory s dir name byte_off type = some dir1 ∧
      DirInv s.blocksize dir1 ∧ dir1.record.file_size = s.blocksize := by
  obtain ⟨b, hgrow, hbsize, hbrec⟩ := grow_directory_first s dir hbuf h16
  have hfs : find_slack dir (OCFS2_DIR_REC_LEN name.length) = none := by
    unfold find_slack; rw [hbuf]
  unfold add_entry_to_directory
  simp only [hfs, hgrow]
  refine ⟨_, rfl, ⟨fill_entry s b 0 name byte_off type, [], [], rfl, ?_, ?_, ?_, trivial, ?_, ?_,
    ?_, ?_⟩, hbsize⟩
  · rfl
  · simp only [fill_entry_size, hbsize, List.length_nil, Nat.zero_mul, Nat.zero_add]
  · simp only [fill_entry_size, hbsize]; omega
  · simp only [List.length_nil, Nat.zero_mul, Tiles]
  · rw [fill_entry_rec_len, hbrec, fill_entry_size, hbsize]; rfl
  · simp only [fill_entry_size, hbsize]; omega
  · simp only [fill_entry_size, hbsize]; omega

/-- A call of `add_entry_to_directory` that returns keeps the invariant of the
directory. -/
theorem add_entry_to_directory_preserves (s : State) (dir dir1 : DirData) (name : List Nat)
    (byte_off type : Nat) (h12 : 12 ≤ s.blocksize) (h16 : s.blocksize < 65536)
    (hinv : DirInv s.blocksize dir)
    (hret : add_entry_to_directory s dir name byte_off type = some dir1) :
    DirInv s.blocksize dir1 := by
  obtain ⟨buf, closed, lens, hbuf, hsize, hsz, hlt31, hblocks, htiles, hrec, hrem, hlast⟩ := hinv
  obtain ⟨hle, _⟩ := tiles_le htiles
  have hnew12 := OCFS2_DIR_REC_LEN_ge name.length
  have hreal12 := OCFS2_DIR_REC_LEN_ge (buf.data (dir.last_off + DE_NAME_LEN))
  unfold add_entry_to_directory at hret
  dsimp only at hret
  rw [find_slack_eq dir buf _ hbuf] at hret
  generalize hreal : OCFS2_DIR_REC_LEN (buf.data (dir.last_off + DE_NAME_LEN)) = real
    at hret hreal12
  generalize hnrl : OCFS2_DIR_REC_LEN name.length = nrl at hret hnew12
  by_cases hcond : (load_le64 buf (dir.last_off + DE_INODE) = 0 ∧
      load_le16 buf (dir.last_off + DE_REC_LEN) ≥ nrl) ∨
      load_le16 buf (dir.last_off + DE_REC_LEN) ≥ real + nrl
  · rw [if_pos hcond] at hret
    by_cases hino : load_le64 buf (dir.last_off + DE_INODE) = 0
    · -- the free entry at `last_off` is taken over
      rw [if_neg (by simpa using hino)] at hret
      simp only [Option.some.injEq] at hret
      subst hret
      refine ⟨fill_entry s buf dir.last_off name byte_off type, closed, lens, rfl, ?_, ?_, ?_,
        ?_, ?_, ?_, ?_, ?_⟩
      all_goals try dsimp only
      · simpa only [fill_entry_size] using hsize
      · simpa only [fill_entry_size] using hsz
      · simpa only [fill_entry_size] using hlt31
      · refine blocks_tile_frame (fun i hi => ?_) hblocks
        exact fill_entry_data_of_lt s buf _ name byte_off type i (by omega)
      · exact tiles_frame (fun i hi => fill_entry_data_of_lt s buf _ name byte_off type i hi)
          htiles
      · rw [fill_entry_rec_len, fill_entry_size]; exact hrec
      · simpa only [fill_entry_size] using hrem
      · simpa only [fill_entry_size] using hlast
    · -- the entry at `last_off` is cut down to its own length; the rest is the new entry
      have hfit : load_le16 buf (dir.last_off + DE_REC_LEN) ≥ real + nrl := by
        rcases hcond with h | h
        · exact absurd h.1 hino
        · exact h
      rw [if_pos (by simpa using hino)] at hret
      simp only [Option.some.injEq] at hret
      subst hret
      rw [hrec] at hfit
      have hu1 : u16 (load_le16 buf (dir.last_off + DE_REC_LEN) + 65536 - real)
          = buf.size - dir.last_off - real := by
        rw [hrec]; simp only [u16]; omega
      have hu2 : u16 real = real := by simp only [u16]; omega
      rw [hu1, hu2]
      generalize hb2 : store_bytes
        (store_bytes buf (dir.last_off + real + DE_REC_LEN)
          (cpu_to_le16 (buf.size - dir.last_off - real)))
        (dir.last_off + DE_REC_LEN) (cpu_to_le16 real) = buf2
      have hb2size : buf2.size = buf.size := by rw [← hb2]; rfl
      have hb2lt : ∀ i, i < dir.last_off → buf2.data i = buf.data i := by
        intro i hi
        rw [← hb2]
        simp only [DE_REC_LEN]
        rw [store_bytes_data_of_lt _ _ _ _ (by omega), store_bytes_data_of_lt _ _ _ _ (by omega)]
      have hb2rec : load_le16 buf2 (dir.last_off + DE_REC_LEN) = real := by
        rw [← hb2]
        exact load_le16_store_le16 _ _ _ (by omega)
      have hb2rec1 : load_le16 buf2 (dir.last_off + real + DE_REC_LEN)
          = buf.size - dir.last_off - real := by
        rw [← hb2]
        rw [load_le16_store_bytes _ _ _ _ (by
          simp only [DE_REC_LEN, cpu_to_le16, List.length_cons, List.length_nil]; omega)]
        exact load_le16_store_le16 _ _ _ (by omega)
      refine ⟨fill_entry s buf2 (dir.last_off + real) name byte_off type, closed,
        lens ++ [real], rfl, ?_, ?_, ?_, ?_, ?_, ?_, ?_, ?_⟩
      all_goals try dsimp only
      · simpa only [fill_entry_size, hb2size] using hsize
      · simpa only [fill_entry_size, hb2size] using hsz
      · simpa only [fill_entry_size, hb2size] using hlt31
      · refine blocks_tile_frame (fun i hi => ?_) hblocks
        rw [fill_entry_data_of_lt s buf2 _ name byte_off type i (by omega)]
        exact hb2lt i (by omega)
      · refine tiles_append (b := dir.last_off) ?_ ?_
        · refine tiles_frame (fun i hi => ?_) htiles
          rw [fill_entry_data_of_lt s buf2 _ name byte_off type i (by omega)]
          exact hb2lt i hi
        · simp only [Tiles, and_true]
          refine ⟨?_, hreal12⟩
          rw [← hb2rec]
          apply load_le16_congr
          intro i hi
          simp only [DE_REC_LEN] at hi
          exact fill_entry_data_of_lt s buf2 _ name byte_off type i (by omega)
      · rw [fill_entry_rec_len, fill_entry_size, hb2rec1, hb2size]; omega
      · simp only [fill_entry_size, hb2size]; omega
      · simp only [fill_entry_size, hb2size]; omega
  · -- no room behind the last entry: the directory grows by one block
    rw [if_neg hcond] at hret
    simp only at hret
    cases hgrow : grow_directory s dir with
    | none => rw [hgrow] at hret; cases hret
    | some res =>
      obtain ⟨b, p⟩ := res
      rw [hgrow] at hret
      simp only [Option.some.injEq] at hret
      subst hret
      obtain ⟨hp, hbsize, hfit, hsame, hbrec⟩ :=
        grow_directory_spec s dir buf b p hbuf (by omega) h16 hgrow
      rw [← hsize] at hp hbsize hfit
      subst hp
      have hsameF : ∀ i, i < buf.size →
          (fill_entry s b buf.size name byte_off type).data i = buf.data i := by
        intro i hi
        rw [fill_entry_data_of_lt s b _ name byte_off type i hi]
        exact hsame i hi
      have hlastblock : Tiles buf (closed.length * s.blocksize)
          (lens ++ [buf.size - dir.last_off]) (closed.length * s.blocksize + s.blocksize) := by
        refine tiles_append htiles ?_
        simp only [Tiles]
        exact ⟨hrec, hrem, by omega⟩
      refine ⟨fill_entry s b buf.size name byte_off type,
        closed ++ [lens ++ [buf.size - dir.last_off]], [], rfl, ?_, ?_, ?_, ?_, ?_, ?_, ?_, ?_⟩
      all_goals try dsimp only
      · simp only [fill_entry_size]
      · simp only [fill_entry_size, hbsize, List.length_append, List.length_cons,
          List.length_nil, Nat.add_mul, Nat.one_mul, Nat.zero_add]
        omega
      · simp only [fill_entry_size, hbsize]; omega
      · refine blocks_tile_snoc (blocks_tile_frame (fun i hi => hsameF i (by omega)) hblocks)
          (by simp) ?_
        refine tiles_frame (fun i hi => hsameF i (by omega)) ?_
        simpa only [Nat.zero_add] using hlastblock
      · simp only [List.length_append, List.length_cons, List.length_nil, Nat.add_mul,
          Nat.one_mul, Nat.zero_add, Tiles]
        omega
      · rw [fill_entry_rec_len, hbrec, fill_entry_size, hbsize]; omega
      · simp only [fill_entry_size, hbsize]; omega
      · simp only [fill_entry_size, hbsize]; omega

/-- A call of `add_entry_to_directory` returns as long as the buffer stays
below `2^31` bytes. -/
theorem add_entry_to_directory_returns (s : State) (dir : DirData) (name : List Nat)
    (byte_off type : Nat) (h16 : s.blocksize < 65536) (hinv : DirInv s.blocksize dir)
    (hroom : dir.record.file_size + s.blocksize < 2147483648) :
    ∃ dir1, add_entry_to_directory s dir name byte_off type = some dir1 ∧
      dir1.record.file_size ≤ dir.record.file_size + s.blocksize := by
  obtain ⟨buf, closed, lens, hbuf, hsize, hsz, hlt31, hblocks, htiles, hrec, hrem, hlast⟩ := hinv
  unfold add_entry_to_directory
  dsimp only
  cases hfs : find_slack dir (OCFS2_DIR_REC_LEN name.length) with
  | some res =>
    obtain ⟨b, de⟩ := res
    exact ⟨_, rfl, by simp⟩
  | none =>
    have hgrow : ∃ b p, grow_directory s dir = some (b, p) ∧
        b.size = dir.record.file_size + s.blocksize := by
      unfold grow_directory
      rw [hbuf]
      simp only
      have hu : u64 (dir.record.file_size + s.blocksize)
          = dir.record.file_size + s.blocksize := by
        simp only [u64]; omega
      rw [hu, to_int32_of_lt _ hroom, if_neg (by omega)]
      exact ⟨_, _, rfl, by simp only [store_bytes, Int.toNat_ofNat]⟩
    obtain ⟨b, p, hg, hb⟩ := hgrow
    simp only [hg]
    exact ⟨_, rfl, by simp only [hb]; omega⟩

theorem add_entries_preserves (s : State) (h12 : 12 ≤ s.blocksize) (h16 : s.blocksize < 65536) :
    ∀ (calls : List (List Nat × Nat × Nat)) (dir dir1 : DirData), DirInv s.blocksize dir →
      add_entries s dir calls = some dir1 → DirInv s.blocksize dir1 := by
  intro calls
  induction calls with
  | nil =>
    intro dir dir1 hinv h
    simp only [add_entries, Option.some.injEq] at h
    rw [← h]; exact hinv
  | cons c calls ih =>
    intro dir dir1 hinv h
    obtain ⟨name, byte_off, type⟩ := c
    simp only [add_entries] at h
    cases hcall : add_entry_to_directory s dir name byte_off type with
    | none => rw [hcall] at h; cases h
    | some dir2 =>
      rw [hcall] at h
      exact ih dir2 dir1
        (add_entry_to_directory_preserves s dir dir2 name byte_off type h12 h16 hinv hcall) h

theorem add_entries_returns (s : State) (h12 : 12 ≤ s.blocksize) (h16 : s.blocksize < 65536) :
    ∀ (calls : List (List Nat × Nat × Nat)) (dir : DirData), DirInv s.blocksize dir →
      dir.record.file_size + calls.length * s.blocksize < 2147483648 →
      ∃ dir1, add_entries s dir calls = some dir1 := by
  intro calls
  induction calls with
  | nil => intro dir _ _; exact ⟨dir, rfl⟩
  | cons c calls ih =>
    intro dir hinv hroom
    obtain ⟨name, byte_off, type⟩ := c
    simp only [List.length_cons, Nat.succ_mul] at hroom
    obtain ⟨dir2, hcall, hsize⟩ :=
      add_entry_to_directory_returns s dir name byte_off type h16 hinv (by omega)
    simp only [add_entries, hcall]
    exact ih dir2
      (add_entry_to_directory_preserves s dir dir2 name byte_off type h12 h16 hinv hcall)
      (by omega)

theorem sum_of_block_sums (bs : Nat) : ∀ (blocks : List (List Nat)),
    (∀ l ∈ blocks, l.sum = bs) → (blocks.map List.sum).sum = blocks.length * bs := by
  intro blocks
  induction blocks with
  | nil => intro _; simp
  | cons l blocks ih =>
    intro h
    simp only [List.map_cons, List.sum_cons, List.length_cons, Nat.succ_mul]
    rw [ih (fun l1 h1 => h l1 (List.mem_cons_of_mem _ h1)), h l (List.mem_cons_self _ _)]
    omega

/-- A directory that satisfies the invariant is tiled by its entries. -/
theorem dir_inv_tiled {bs : Nat} {dir : DirData} (hbs : 0 < bs) (hinv : DirInv bs dir) :
    ∃ buf blocks, dir.buf = some buf ∧ buf.size = dir.record.file_size ∧ 0 < buf.size ∧
      bs ∣ buf.size ∧ dir_rec_lens buf bs = some blocks ∧ (∀ lens ∈ blocks, lens.sum = bs) ∧
      (blocks.map List.sum).sum = buf.size := by
  obtain ⟨buf, closed, lens, hbuf, hsize, hsz, hlt31, hblocks, htiles, hrec, hrem, hlast⟩ := hinv
  have hall : BlocksTile buf bs 0 (closed ++ [lens ++ [buf.size - dir.last_off]]) := by
    refine blocks_tile_snoc hblocks (by simp) ?_
    simp only [Nat.zero_add]
    refine tiles_append htiles ?_
    simp only [Tiles]
    exact ⟨hrec, hrem, by omega⟩
  have hlen : (closed ++ [lens ++ [buf.size - dir.last_off]]).length = closed.length + 1 := by
    simp
  have hsz2 : buf.size = (closed.length + 1) * bs := by rw [hsz, Nat.succ_mul]
  have hdiv : buf.size / bs = closed.length + 1 := by
    rw [hsz2]; exact Nat.mul_div_cancel _ hbs
  have hsums := blocks_tile_sums hall
  refine ⟨buf, _, hbuf, hsize, by omega, ⟨closed.length + 1, by rw [hsz2, Nat.mul_comm]⟩, ?_,
    hsums, ?_⟩
  · unfold dir_rec_lens
    rw [hdiv, ← hlen]
    exact walk_blocks_of_BlocksTile hall
  · rw [sum_of_block_sums bs _ hsums, hlen, hsz2]

/-- C8 (as amended): for a block size from 512 to 32768 bytes, and every finite
non-empty sequence of `add_entry_to_directory` calls on an empty directory
(names of any length, so also of length 1..255): after the last call, if it
returned, the buffer has the size recorded in `file_size`, a positive multiple
of the block size; the walk by `rec_len` tiles every block exactly, so the
`rec_len` values of every block sum to the block size and those of all entries
to the size of the buffer.  The calls all return as long as the number of calls
times the block size stays below `2^31`. -/
theorem add_entry_to_directory_rec_lens_tile (s : State) (record : SystemFileDiskRecord)
    (calls : List (List Nat × Nat × Nat)) (h512 : 512 ≤ s.blocksize)
    (hmax : s.blocksize ≤ 32768) (hcalls : calls ≠ []) :
    (calls.length * s.blocksize < 2147483648 →
      ∃ dir, add_entries s (alloc_directory record) calls = some dir) ∧
    ∀ dir, add_entries s (alloc_directory record) calls = some dir →
      ∃ buf blocks, dir.buf = some buf ∧ buf.size = dir.record.file_size ∧ 0 < buf.size ∧
        s.blocksize ∣ buf.size ∧ dir_rec_lens buf s.blocksize = some blocks ∧
        (∀ lens ∈ blocks, lens.sum = s.blocksize) ∧
        (blocks.map List.sum).sum = buf.size := by
  cases calls with
  | nil => exact absurd rfl hcalls
  | cons c calls =>
    obtain ⟨name, byte_off, type⟩ := c
    obtain ⟨dir1, hfirst, hinv1, hsize1⟩ :=
      add_entry_to_directory_first s (alloc_directory record) name byte_off type rfl
        (by omega) (by omega)
    constructor
    · intro hroom
      simp only [List.length_cons, Nat.succ_mul] at hroom
      simp only [add_entries, hfirst]
      exact add_entries_returns s (by omega) (by omega) calls dir1 hinv1 (by omega)
    · intro dir hret
      simp only [add_entries, hfirst] at hret
      exact dir_inv_tiled (by omega)
        (add_entries_preserves s (by omega) (by omega) calls dir1 dir hinv1 hret)

/-- The entries `.` and `..` of a root directory with blocks of 4096 bytes:
both calls return, and the walk finds one block with the two `rec_len` values
16 and 4080, which sum to the buffer's 4096 bytes. -/
theorem add_entry_to_directory_rec_lens_tile_witness :
    ∃ dir buf, add_entries scenario_state (alloc_directory zero_record)
        [([46], 8192, 2), ([46, 46], 8192, 2)] = some dir ∧
      dir.buf = some buf ∧ buf.size = 4096 ∧
      dir_rec_lens buf scenario_state.blocksize = some [[16, 4080]] ∧
      ∃ blocks, dir_rec_lens buf scenario_state.blocksize = some blocks ∧
        (blocks.map List.sum).sum = buf.size := by
  refine ⟨_, _, rfl, rfl, rfl, rfl, ?_⟩
  obtain ⟨buf, blocks, hbuf, _, _, _, hwalk, _, hsum⟩ :=
    (add_entry_to_directory_rec_lens_tile scenario_state zero_record
      [([46], 8192, 2), ([46, 46], 8192, 2)] (by decide) (by decide) (by simp)).2 _ rfl
  simp only [Option.some.injEq] at hbuf
  subst hbuf
  exact ⟨blocks, hwalk, hsum⟩

/-- C8 (counterexample): with a block size of 65536 bytes, a power of two not
below 512, the first entry of a directory gets `rec_len = 0` (the block size
truncated to 16 bits), so the walk by `rec_len` does not tile the block. -/
theorem add_entry_to_directory_rec_lens_tile_counterexample :
    ∃ dir buf, add_entries big_block_state (alloc_directory zero_record) [([97], 65536, 1)]
        = some dir ∧
      dir.buf = some buf ∧ buf.size = 65536 ∧ load_le16 buf (0 + DE_REC_LEN) = 0 ∧
      dir_rec_lens buf big_block_state.blocksize = none :=
  ⟨_, _, rfl, rfl, rfl, rfl, rfl⟩

/-! ## `format_file` -/

theorem le16_to_cpu_cpu_to_le16 (v : Nat) : le16_to_cpu (cpu_to_le16 v) = v % 65536 := by
  simp only [le16_to_cpu, cpu_to_le16, List.getD_cons_zero, List.getD_cons_succ]
  omega

theorem le32_to_cpu_cpu_to_le32 (v : Nat) : le32_to_cpu (cpu_to_le32 v) = v % 4294967296 := by
  simp only [le32_to_cpu, cpu_to_le32, List.getD_cons_zero, List.getD_cons_succ]
  omega

theorem le64_to_cpu_cpu_to_le64 (v : Nat) :
    le64_to_cpu (cpu_to_le64 v) = v % 18446744073709551616 := by
  simp only [le64_to_cpu, cpu_to_le64, List.getD_cons_zero, List.getD_cons_succ]
  omega

/-- C9: for a chain-owner record (`OCFS2_CHAIN_FL` set, `OCFS2_LOCAL_ALLOC_FL`
clear) with a non-zero `chain_off` and a group, the block that `format_file`
writes decodes, member by member of the little-endian inode schema, to
`cl_next_free_rec = 1` and `cl_recs[0] = (c_free = bg_free_bits_count,
c_total = bg_bits, c_blkno = chain_off >> blocksize_bits)`; the block is
written whenever `s->blocksize` and the 16-bit `cl_bpc = cluster_size /
blocksize` are not zero.  The three range hypotheses state the C types of the
fields read. -/
theorem format_file_chain_triplet (c : Ocfs2Fs) (s : State) (rec : SystemFileDiskRecord)
    (gd : GroupDesc) (hchain : rec.flags &&& c.OCFS2_CHAIN_FL ≠ 0)
    (hlocal : rec.flags &&& c.OCFS2_LOCAL_ALLOC_FL = 0) (hoff : rec.chain_off ≠ 0)
    (hgroup : rec.group = some gd) (hfree : gd.bg_free_bits_count < 65536)
    (hbits : gd.bg_bits < 65536) (hoff64 : rec.chain_off < 18446744073709551616) :
    ((s.blocksize ≠ 0 ∧ (s.cluster_size / s.blocksize) % 65536 ≠ 0) →
      ∃ di, format_file c s rec = some di) ∧
    ∀ di, format_file c s rec = some di →
      le16_to_cpu di.id2_i_chain_cl_next_free_rec = 1 ∧
      le16_to_cpu di.id2_i_chain_cl_recs_0_c_free = gd.bg_free_bits_count ∧
      le16_to_cpu di.id2_i_chain_cl_recs_0_c_total = gd.bg_bits ∧
      le64_to_cpu di.id2_i_chain_cl_recs_0_c_blkno = rec.chain_off / 2 ^ s.blocksize_bits := by
  have hshift : rec.chain_off / 2 ^ s.blocksize_bits < 18446744073709551616 :=
    lt_of_le_of_lt (Nat.div_le_self _ _) hoff64
  have hform : format_file c s rec = format_file_chain c s rec
      (if rec.flags &&& c.OCFS2_BITMAP_FL ≠ 0 then
        { format_file_common c s rec with
          id1_bitmap1_i_used := cpu_to_le32 rec.bi.used_bits
          id1_bitmap1_i_total := cpu_to_le32 rec.bi.total_bits }
      else format_file_common c s rec) := by
    unfold format_file
    simp only [hlocal, ne_eq, not_true_eq_false, if_false]
    rw [if_pos hchain]
  rw [hform]
  generalize (if rec.flags &&& c.OCFS2_BITMAP_FL ≠ 0 then
        { format_file_common c s rec with
          id1_bitmap1_i_used := cpu_to_le32 rec.bi.used_bits
          id1_bitmap1_i_total := cpu_to_le32 rec.bi.total_bits }
      else format_file_common c s rec) = di0
  unfold format_file_chain
  simp only [hgroup, le16_to_cpu_cpu_to_le16]
  rw [if_pos hoff]
  constructor
  · rintro ⟨hbs, hbpc⟩
    rw [if_neg hbs, if_neg hbpc]
    exact ⟨_, rfl⟩
  · intro di hdi
    by_cases hbs : s.blocksize = 0
    · rw [if_pos hbs] at hdi; cases hdi
    · rw [if_neg hbs] at hdi
      by_cases hbpc : s.cluster_size / s.blocksize % 65536 = 0
      · rw [if_pos hbpc] at hdi; cases hdi
      · rw [if_neg hbpc] at hdi
        simp only [Option.some.injEq] at hdi
        subst hdi
        exact ⟨le16_to_cpu_cpu_to_le16 1,
          (le16_to_cpu_cpu_to_le16 _).trans (Nat.mod_eq_of_lt hfree),
          (le16_to_cpu_cpu_to_le16 _).trans (Nat.mod_eq_of_lt hbits),
          (le64_to_cpu_cpu_to_le64 _).trans (Nat.mod_eq_of_lt hshift)⟩

/-- The chain-owner record of the example (group of 1024 bits, 1000 free, at
byte 8192, blocks of 4096 bytes): the block is written and decodes to
`cl_next_free_rec = 1` and the triplet `(1000, 1024, 2)`. -/
theorem format_file_chain_triplet_witness :
    ∃ di, format_file scenario_fs scenario_state scenario_chain_record = some di ∧
      le16_to_cpu di.id2_i_chain_cl_next_free_rec = 1 ∧
      le16_to_cpu di.id2_i_chain_cl_recs_0_c_free = 1000 ∧
      le16_to_cpu di.id2_i_chain_cl_recs_0_c_total = 1024 ∧
      le64_to_cpu di.id2_i_chain_cl_recs_0_c_blkno = 2 := by
  refine ⟨_, rfl, ?_⟩
  exact (format_file_chain_triplet scenario_fs scenario_state scenario_chain_record _
    (by decide) (by decide) (by decide) rfl (by decide) (by decide) (by decide)).2 _ rfl

/-! ## `get_number` -/

/-- A run of digits of the base, followed by the end of the text or by a
character that is no digit of the base, is read in full by `scan_digits`. -/
theorem scan_digits_append (base : Nat) : ∀ (ds rest : List Nat) (acc n : Nat),
    (∀ c ∈ ds, ∃ d, digit_value c = some d ∧ d < base) →
    (∀ c r, rest = c :: r → ∀ d, digit_value c = some d → ¬ d < base) →
    scan_digits base (ds ++ rest) acc n =
      (ds.foldl (fun a c => a * base + (digit_value c).getD 0) acc, n + ds.length, rest) := by
  intro ds
  induction ds with
  | nil =>
    intro rest acc n _ hrest
    cases rest with
    | nil => simp [scan_digits]
    | cons c r =>
      simp only [List.nil_append, scan_digits, List.foldl_nil, List.length_nil, Nat.add_zero]
      cases hd : digit_value c with
      | none => rfl
      | some d => simp only [if_neg (hrest c r rfl d hd)]
  | cons c ds ih =>
    intro rest acc n hds hrest
    obtain ⟨d, hd, hlt⟩ := hds c (List.mem_cons_self _ _)
    simp only [List.cons_append, scan_digits, hd, if_pos hlt, List.foldl_cons, List.length_cons,
      Option.getD_some]
    have e := ih rest (acc * base + d) (n + 1)
      (fun c1 h1 => hds c1 (List.mem_cons_of_mem _ h1)) hrest
    rw [show ds.append rest = ds ++ rest from rfl, e]
    simp only [Prod.mk.injEq, true_and, and_true]
    omega

theorem dec_digits_fold (ds : List Nat) (h : ∀ c ∈ ds, 48 ≤ c ∧ c ≤ 57) : ∀ acc,
    ds.foldl (fun a c => a * 10 + (digit_value c).getD 0) acc =
      ds.foldl (fun a c => a * 10 + (c - 48)) acc := by
  induction ds with
  | nil => intro acc; rfl
  | cons c ds ih =>
    intro acc
    have hc := h c (List.mem_cons_self _ _)
    have hd : digit_value c = some (c - 48) := by
      simp only [digit_value, if_pos hc]
    simp only [List.foldl_cons, hd, Option.getD_some]
    exact ih (fun c1 h1 => h c1 (List.mem_cons_of_mem _ h1)) _

/-- The suffixes that `suffix_factor` knows. -/
theorem suffix_factor_cases (sfx : List Nat) (f : Nat) (h : suffix_factor sfx = some f) :
    (sfx = [] ∧ f = 1) ∨ ∃ c, sfx = [c] ∧
      (((c = 98 ∨ c = 66) ∧ f = 1) ∨ ((c = 107 ∨ c = 75) ∧ f = 1024) ∨
        ((c = 109 ∨ c = 77) ∧ f = 1048576) ∨ ((c = 103 ∨ c = 71) ∧ f = 1073741824)) := by
  unfold suffix_factor at h
  split at h
  · left
    simp only [Option.some.injEq] at h
    exact ⟨rfl, h.symm⟩
  · rename_i c
    right
    refine ⟨c, rfl, ?_⟩
    split_ifs at h with h1 h2 h3 h4 <;> simp only [Option.some.injEq] at h
    · exact Or.inl ⟨h1, h.symm⟩
    · exact Or.inr (Or.inl ⟨h2, h.symm⟩)
    · exact Or.inr (Or.inr (Or.inl ⟨h3, h.symm⟩))
    · exact Or.inr (Or.inr (Or.inr ⟨h4, h.symm⟩))
  · cases h

/-- What `get_number` makes of the number and the rest that `strtoull` hands
back, when the rest is a known suffix and nothing overflows. -/
theorem get_number_of_strtoull (arg sfx : List Nat) (v f : Nat)
    (hconv : strtoull arg = some (v, sfx)) (hv : v < UINT64_MAX)
    (hf : suffix_factor sfx = some f) (hprod : v * f < 18446744073709551616) :
    get_number arg = some (v * f) := by
  unfold get_number
  rw [hconv]
  simp only
  rw [if_neg (by omega)]
  rcases suffix_factor_cases sfx f hf with ⟨h1, h2⟩ | ⟨c, h1, h2⟩
  · subst h1 h2
    simp
  · subst h1
    simp only
    rcases h2 with ⟨hc, hf1⟩ | ⟨hc, hf1⟩ | ⟨hc, hf1⟩ | ⟨hc, hf1⟩ <;> subst hf1
    · rw [if_neg (by omega), if_neg (by omega), if_neg (by omega), if_pos hc]
      simp
    · rw [if_neg (by omega), if_neg (by omega), if_pos hc]
      simp only [u64, Option.some.injEq]
      omega
    · rw [if_neg (by omega), if_pos hc]
      simp only [u64, Option.some.injEq]
      omega
    · rw [if_pos hc]
      simp only [u64, Option.some.injEq]
      omega

/-- The digit values of the suffix letters: none is a digit of base 8 or 10,
and only `b`/`B` is one of base 16; none is the `x` of a hex prefix. -/
theorem suffix_head (sfx : List Nat) (f : Nat) (h : suffix_factor sfx = some f) :
    ∀ c r, sfx = c :: r → c ≠ 120 ∧ c ≠ 88 ∧
      ∀ d, digit_value c = some d → 11 ≤ d ∧ (c ≠ 98 → c ≠ 66 → 16 ≤ d) := by
  intro c r hs
  rcases suffix_factor_cases sfx f h with ⟨h1, _⟩ | ⟨c1, h1, h2⟩
  · rw [h1] at hs; cases hs
  · rw [h1] at hs
    simp only [List.cons.injEq] at hs
    obtain ⟨hc, _⟩ := hs
    subst hc
    have hmem : c1 = 98 ∨ c1 = 66 ∨ c1 = 107 ∨ c1 = 75 ∨ c1 = 109 ∨ c1 = 77 ∨ c1 = 103 ∨
        c1 = 71 := by omega
    refine ⟨by omega, by omega, ?_⟩
    intro d hd
    rcases hmem with e | e | e | e | e | e | e | e <;> subst e <;>
      simp only [digit_value] at hd <;> simp at hd <;> subst hd <;> omega

theorem strtoull_of_digit (d : Nat) (t : List Nat) (hd : 48 ≤ d ∧ d ≤ 57) :
    strtoull (d :: t) = strtoull_digits false (d :: t) := by
  have hspace : is_space d = false := by
    simp only [is_space, decide_eq_false_iff_not]; omega
  simp only [strtoull, skip_space, hspace, Bool.false_eq_true, if_false]
  rw [if_neg (by omega), if_neg (by omega)]

/-- What `strtoull_digits` returns once the scan of the digits is known. -/
theorem strtoull_digits_of_scan (s s2 rest : List Nat) (base acc n : Nat)
    (hbase : strtoull_base s = base)
    (hs2 : (if starts_hex s then s.drop 2 else s) = s2)
    (hscan : scan_digits base s2 0 0 = (acc, n, rest)) (hn : n ≠ 0) (hacc : acc ≤ UINT64_MAX) :
    strtoull_digits false s = some (acc, rest) := by
  simp only [strtoull_digits, hbase, hs2, hscan]
  rw [if_neg hn, if_neg (by omega)]
  simp

/-- `strtoull` on a decimal numeral followed by a size suffix: the numeral is
converted and `ptr` is left at the suffix. -/
theorem strtoull_decimal (ds sfx : List Nat) (f : Nat) (hnum : IsDecNumeral ds)
    (hf : suffix_factor sfx = some f) (hmax : dec_digits_value ds ≤ UINT64_MAX) :
    strtoull (ds ++ sfx) = some (dec_digits_value ds, sfx) := by
  obtain ⟨hne, hdig, hcanon⟩ := hnum
  have hsfx := suffix_head sfx f hf
  cases ds with
  | nil => exact absurd rfl hne
  | cons d ds1 =>
    have hd := hdig d (List.mem_cons_self _ _)
    rw [List.cons_append, strtoull_of_digit d _ hd]
    have hdigits : ∀ base, base ≤ 10 →
        (∀ c ∈ d :: ds1, ∃ v, digit_value c = some v ∧ v < base) →
        scan_digits base ((d :: ds1) ++ sfx) 0 0 =
          ((d :: ds1).foldl (fun a c => a * base + (digit_value c).getD 0) 0,
            0 + (d :: ds1).length, sfx) := by
      intro base hb hall
      refine scan_digits_append base (d :: ds1) sfx 0 0 hall ?_
      intro c r hs v hv
      have := ((hsfx c r hs).2.2 v hv).1
      omega
    by_cases h48 : d = 48
    · -- the numeral `0`, read in base 8
      have hds : d :: ds1 = [48] := by
        rcases hcanon with h | h
        · simp [h48] at h
        · exact h
      simp only [List.cons.injEq] at hds
      obtain ⟨_, hds1⟩ := hds
      subst hds1 h48
      have hscan := hdigits 8 (by omega) (by
        intro c hc
        simp only [List.mem_singleton] at hc
        subst hc
        exact ⟨0, by simp [digit_value], by omega⟩)
      have hhex : starts_hex (48 :: ([] ++ sfx)) = false := by
        cases sfx with
        | nil => rfl
        | cons c r =>
          have := hsfx c r rfl
          simp only [starts_hex, List.nil_append, decide_eq_false_iff_not]
          omega
      have hbase : strtoull_base (48 :: ([] ++ sfx)) = 8 := by
        simp only [strtoull_base, hhex, Bool.false_eq_true, if_false, if_true]
      have hval : dec_digits_value [48] = 0 := rfl
      have hfold : ([48] : List Nat).foldl (fun a c => a * 8 + (digit_value c).getD 0) 0 = 0 :=
        rfl
      rw [hfold, List.cons_append] at hscan
      rw [hval]
      exact strtoull_digits_of_scan (48 :: ([] ++ sfx)) (48 :: ([] ++ sfx)) sfx 8 0 _ hbase
        (by simp only [hhex, Bool.false_eq_true, if_false]) hscan (by simp) (by omega)
    · have hall : ∀ c ∈ d :: ds1, ∃ v, digit_value c = some v ∧ v < 10 := by
        intro c hc
        have := hdig c hc
        exact ⟨c - 48, by simp only [digit_value, if_pos this], by omega⟩
      have hscan := hdigits 10 (by omega) hall
      rw [dec_digits_fold (d :: ds1) hdig 0] at hscan
      have hhex : starts_hex (d :: (ds1 ++ sfx)) = false := by
        cases ds1 ++ sfx with
        | nil => rfl
        | cons c r =>
          simp only [starts_hex, decide_eq_false_iff_not]
          omega
      have hbase : strtoull_base (d :: (ds1 ++ sfx)) = 10 := by
        simp only [strtoull_base, hhex, Bool.false_eq_true, if_false, h48]
      rw [List.cons_append] at hscan
      exact strtoull_digits_of_scan (d :: (ds1 ++ sfx)) (d :: (ds1 ++ sfx)) sfx 10 _ _ hbase
        (by simp only [hhex, Bool.false_eq_true, if_false]) hscan (by simp) hmax

/-- `strtoull` on a hexadecimal numeral followed by a size suffix other than
`b`/`B`: the numeral is converted and `ptr` is left at the suffix. -/
theorem strtoull_hex (x : Nat) (hs sfx : List Nat) (f : Nat) (hx : x = 120 ∨ x = 88)
    (hnum : IsHexDigits hs) (hf : suffix_factor sfx = some f) (hb : sfx ≠ [98] ∧ sfx ≠ [66])
    (hmax : hex_digits_value hs ≤ UINT64_MAX) :
    strtoull (48 :: x :: (hs ++ sfx)) = some (hex_digits_value hs, sfx) := by
  obtain ⟨hne, hdig⟩ := hnum
  have hsfx := suffix_head sfx f hf
  rw [strtoull_of_digit 48 _ ⟨le_refl _, by decide⟩]
  have hhex : starts_hex (48 :: x :: (hs ++ sfx)) = true := by
    simp only [starts_hex, decide_eq_true_eq]
    exact ⟨trivial, hx⟩
  have hbase : strtoull_base (48 :: x :: (hs ++ sfx)) = 16 := by
    simp only [strtoull_base, hhex, if_true]
  have hall : ∀ c ∈ hs, ∃ v, digit_value c = some v ∧ v < 16 := by
    intro c hc
    rcases hdig c hc with h | h | h
    · exact ⟨c - 48, by simp only [digit_value, if_pos h], by omega⟩
    · exact ⟨c - 87, by
        simp only [digit_value]
        rw [if_neg (by omega), if_pos (by omega)], by omega⟩
    · exact ⟨c - 55, by
        simp only [digit_value]
        rw [if_neg (by omega), if_neg (by omega), if_pos (by omega)], by omega⟩
  have hscan : scan_digits 16 (hs ++ sfx) 0 0 = (hex_digits_value hs, 0 + hs.length, sfx) := by
    refine scan_digits_append 16 hs sfx 0 0 hall ?_
    intro c r hsr v hv
    have h1 := (hsfx c r hsr).2.2 v hv
    have hc98 : c ≠ 98 := by
      intro e
      have hsing : sfx = [c] := by
        rcases suffix_factor_cases sfx f hf with ⟨h0, _⟩ | ⟨c1, h0, _⟩
        · rw [h0] at hsr; cases hsr
        · rw [h0] at hsr ⊢
          simp only [List.cons.injEq] at hsr
          rw [hsr.1]
      exact hb.1 (by rw [hsing, e])
    have hc66 : c ≠ 66 := by
      intro e
      have hsing : sfx = [c] := by
        rcases suffix_factor_cases sfx f hf with ⟨h0, _⟩ | ⟨c1, h0, _⟩
        · rw [h0] at hsr; cases hsr
        · rw [h0] at hsr ⊢
          simp only [List.cons.injEq] at hsr
          rw [hsr.1]
      exact hb.2 (by rw [hsing, e])
    have := h1.2 hc98 hc66
    omega
  have hlen : hs.length ≠ 0 := by
    cases hs with
    | nil => exact absurd rfl hne
    | cons c r => simp
  exact strtoull_digits_of_scan (48 :: x :: (hs ++ sfx)) (hs ++ sfx) sfx 16 _ _ hbase
    (by simp only [hhex, if_true, List.drop_succ_cons, List.drop_zero]) hscan (by omega) hmax

/-- C10 (as amended): for a decimal numeral without a leading zero (or the
numeral `0`), and for a `0x`/`0X` hexadecimal numeral, of value `n < 2^64 - 1`,
followed by an optional suffix, `get_number` succeeds and stores `n` times the
factor of the suffix (1 for none and `b`/`B`, 1024 for `k`/`K`, `1024^2` for
`m`/`M`, `1024^3` for `g`/`G`) whenever that product is below `2^64`; behind a
hexadecimal numeral the suffix is not `b`/`B`, which are hex digits.
`"100M"` gives 104857600 and `"2g"` gives 2147483648. -/
theorem get_number_numeral_with_suffix :
    (∀ (ds sfx : List Nat) (f : Nat), IsDecNumeral ds → suffix_factor sfx = some f →
      dec_digits_value ds < UINT64_MAX → dec_digits_value ds * f < 18446744073709551616 →
      get_number (ds ++ sfx) = some (dec_digits_value ds * f)) ∧
    (∀ (x : Nat) (hs sfx : List Nat) (f : Nat), x = 120 ∨ x = 88 → IsHexDigits hs →
      suffix_factor sfx = some f → sfx ≠ [98] ∧ sfx ≠ [66] →
      hex_digits_value hs < UINT64_MAX → hex_digits_value hs * f < 18446744073709551616 →
      get_number (48 :: x :: (hs ++ sfx)) = some (hex_digits_value hs * f)) ∧
    get_number (cstr "100M") = some 104857600 ∧ get_number (cstr "2g") = some 2147483648 := by
  refine ⟨?_, ?_, by decide, by decide⟩
  · intro ds sfx f hnum hf hlt hprod
    exact get_number_of_strtoull _ sfx _ f (strtoull_decimal ds sfx f hnum hf (by omega)) hlt hf
      hprod
  · intro x hs sfx f hx hnum hf hb hlt hprod
    exact get_number_of_strtoull _ sfx _ f (strtoull_hex x hs sfx f hx hnum hf hb (by omega))
      hlt hf hprod

/-- The numerals `4095` with the suffix `k` and `0x1F` with the suffix `M`,
through the general statement. -/
theorem get_number_numeral_with_suffix_witness :
    get_number (cstr "4095k") = some 4193280 ∧ get_number (cstr "0x1FM") = some 32505856 :=
  ⟨get_number_numeral_with_suffix.1 [52, 48, 57, 53] [107] 1024
      (by unfold IsDecNumeral; decide) (by decide) (by decide) (by decide),
    get_number_numeral_with_suffix.2.1 120 [49, 70] [77] 1048576 (by decide)
      (by unfold IsHexDigits; decide) (by decide) (by decide) (by decide) (by decide)⟩

/-- C10 (counterexample): `0x1b`, the hexadecimal numeral `0x1` followed by the
suffix `b`, is read as the number `0x1b = 27` and not as 1; `010`, the digits of
ten with a leading zero, is read in base 8 as 8. -/
theorem get_number_numeral_with_suffix_counterexample :
    get_number (cstr "0x1" ++ cstr "b") = some 27 ∧ hex_digits_value (cstr "1") = 1 ∧
      suffix_factor (cstr "b") = some 1 ∧
      get_number (cstr "010") = some 8 ∧ dec_digits_value (cstr "010") = 10 := by
  decide

theorem get_number_examples :
    get_number (cstr "100M") = some 104857600 ∧ get_number (cstr "2g") = some 2147483648 ∧
      get_number (cstr "abc") = none ∧ get_number (cstr "0x1b") = some 27 ∧
      get_number (cstr "010") = some 8 ∧ get_number (cstr "0x10k") = some 16384 := by
  decide

/-! ## `get_number`: the rejected inputs -/

/-- What makes `get_number` return `-EINVAL`, in terms of the number and the
rest that `strtoull` hands back. -/
theorem get_number_none_iff (arg : List Nat) :
    get_number arg = none ↔
      strtoull arg = none ∨
        ∃ num ptr, strtoull arg = some (num, ptr) ∧
          (num = UINT64_MAX ∨ ∃ c rest, ptr = c :: rest ∧ ¬ IsSuffixChar c) := by
  unfold get_number
  cases h : strtoull arg with
  | none => simp
  | some p =>
    obtain ⟨num, ptr⟩ := p
    simp only [false_or, Option.some.injEq, Prod.mk.injEq, exists_and_left, reduceCtorEq]
    by_cases hmax : num = UINT64_MAX
    · rw [if_pos hmax]
      simp only [true_iff]
      exact ⟨num, ptr, ⟨rfl, rfl⟩, Or.inl hmax⟩
    · rw [if_neg hmax]
      cases ptr with
      | nil =>
        simp only [reduceCtorEq, false_iff, not_exists, not_and, not_or]
        rintro n p ⟨h1, h2⟩
        subst h1 h2
        exact ⟨hmax, by simp⟩
      | cons c rest =>
        simp only [IsSuffixChar]
        constructor
        · intro hnone
          refine ⟨num, c :: rest, ⟨rfl, rfl⟩, Or.inr ⟨c, rest, rfl, ?_⟩⟩
          intro hc
          split_ifs at hnone
          omega
        · rintro ⟨n, p, ⟨h1, h2⟩, h3⟩
          subst h1 h2
          rcases h3 with h3 | ⟨c1, r1, h4, h5⟩
          · exact absurd h3 hmax
          · simp only [List.cons.injEq] at h4
            obtain ⟨h4, _⟩ := h4
            subst h4
            rw [if_neg (by omega), if_neg (by omega), if_neg (by omega), if_neg (by omega)]

/-- Text that does not start with a digit `0`..`9` holds no number for
`strtoull`. -/
theorem strtoull_digits_no_digit (negative : Bool) (s : List Nat)
    (h : ∀ c r, s = c :: r → ¬ (48 ≤ c ∧ c ≤ 57)) : strtoull_digits negative s = none := by
  cases s with
  | nil => rfl
  | cons c r =>
    have hc := h c r rfl
    have hhex : starts_hex (c :: r) = false := by
      cases r with
      | nil => rfl
      | cons x t =>
        simp only [starts_hex, decide_eq_false_iff_not]
        omega
    have hbase : strtoull_base (c :: r) = 10 := by
      simp only [strtoull_base, hhex, Bool.false_eq_true, if_false]
      rw [if_neg (by omega)]
    have hscan : scan_digits 10 (c :: r) 0 0 = (0, 0, c :: r) := by
      simp only [scan_digits]
      cases hd : digit_value c with
      | none => rfl
      | some d =>
        have : ¬ d < 10 := by
          simp only [digit_value] at hd
          split_ifs at hd <;> simp only [Option.some.injEq] at hd <;> omega
        simp only [if_neg this]
    simp only [strtoull_digits, hbase, hhex, Bool.false_eq_true, if_false, hscan, if_true]

/-- The count of digits that `scan_digits` reports is never below the count it
started from. -/
theorem scan_digits_count_ge (base : Nat) : ∀ (s : List Nat) (acc n : Nat),
    n ≤ (scan_digits base s acc n).2.1 := by
  intro s
  induction s with
  | nil => intro acc n; simp [scan_digits]
  | cons c r ih =>
    intro acc n
    simp only [scan_digits]
    cases hd : digit_value c with
    | none => simp
    | some d =>
      simp only
      split_ifs
      · exact le_trans (Nat.le_succ n) (ih _ _)
      · simp

/-- Text that starts with a digit `0`..`9` holds a number for `strtoull`. -/
theorem strtoull_digits_of_digit (negative : Bool) (c : Nat) (r : List Nat)
    (hc : 48 ≤ c ∧ c ≤ 57) : strtoull_digits negative (c :: r) ≠ none := by
  unfold strtoull_digits
  generalize hsc : scan_digits (strtoull_base (c :: r))
    (if starts_hex (c :: r) then (c :: r).drop 2 else c :: r) 0 0 = res
  obtain ⟨acc, n, rest⟩ := res
  simp only
  by_cases hhex : starts_hex (c :: r) = true
  · simp only [hhex, if_true]
    split_ifs <;> simp
  · have hhex0 : starts_hex (c :: r) = false := by simpa using hhex
    simp only [hhex0, Bool.false_eq_true, if_false] at hsc ⊢
    have hn : 1 ≤ n := by
      have hbase : 8 ≤ strtoull_base (c :: r) := by
        simp only [strtoull_base, hhex0, Bool.false_eq_true, if_false]
        split_ifs <;> omega
      have hb0 : c = 48 → strtoull_base (c :: r) = 8 := by
        intro h
        simp only [strtoull_base, hhex0, Bool.false_eq_true, if_false]
        rw [if_pos h]
      have hb1 : c ≠ 48 → strtoull_base (c :: r) = 10 := by
        intro h
        simp only [strtoull_base, hhex0, Bool.false_eq_true, if_false, h]
      have hd : digit_value c = some (c - 48) := by simp only [digit_value, if_pos hc]
      have hlt : c - 48 < strtoull_base (c :: r) := by
        by_cases h48 : c = 48
        · rw [hb0 h48]; omega
        · rw [hb1 h48]; omega
      simp only [scan_digits, hd, if_pos hlt] at hsc
      have := scan_digits_count_ge (strtoull_base (c :: r)) r (0 * strtoull_base (c :: r) + (c - 48))
        (0 + 1)
      rw [hsc] at this
      simpa using this
    rw [if_neg (by omega)]
    split_ifs <;> simp

/-- No numeral is parsed exactly from the texts that hold none at their start. -/
theorem strtoull_none_iff (arg : List Nat) : strtoull arg = none ↔ NoNumeral arg := by
  unfold strtoull NoNumeral
  cases hs : skip_space arg with
  | nil =>
    simp only [skip_sign]
    constructor
    · intro _ c r h; cases h
    · intro _; rfl
  | cons c r =>
    simp only [skip_sign]
    by_cases h45 : c = 45
    · subst h45
      simp only [if_true, true_or]
      constructor
      · intro h c1 r1 hr hc1
        subst hr
        exact strtoull_digits_of_digit true c1 r1 hc1 h
      · intro h
        exact strtoull_digits_no_digit true r h
    · rw [if_neg h45]
      by_cases h43 : c = 43
      · subst h43
        simp only [if_true, or_true]
        constructor
        · intro h c1 r1 hr hc1
          subst hr
          exact strtoull_digits_of_digit false c1 r1 hc1 h
        · intro h
          exact strtoull_digits_no_digit false r h
      · rw [if_neg h43, if_neg (by omega)]
        constructor
        · intro h c1 r1 hr hc1
          simp only [List.cons.injEq] at hr
          obtain ⟨e1, e2⟩ := hr
          subst e1 e2
          exact strtoull_digits_of_digit false c r hc1 h
        · intro h
          exact strtoull_digits_no_digit false (c :: r) h

/-- What `strtoull_digits` returns once the scan of the digits is known, for a
number of any size: a value above `ULLONG_MAX` is returned as `ULLONG_MAX`. -/
theorem strtoull_digits_of_scan_any (s s2 rest : List Nat) (base acc n : Nat)
    (hbase : strtoull_base s = base)
    (hs2 : (if starts_hex s then s.drop 2 else s) = s2)
    (hscan : scan_digits base s2 0 0 = (acc, n, rest)) (hn : n ≠ 0) :
    strtoull_digits false s = some (if acc > UINT64_MAX then UINT64_MAX else acc, rest) := by
  simp only [strtoull_digits, hbase, hs2, hscan]
  rw [if_neg hn]
  by_cases h : acc > UINT64_MAX
  · rw [if_pos h, if_pos h]
  · rw [if_neg h, if_neg h]
    simp

/-- A letter or other character that is no digit `0`..`9` is no digit of a base
up to 10. -/
theorem digit_value_ge_ten (c d : Nat) (hc : ¬ (48 ≤ c ∧ c ≤ 57)) (hd : digit_value c = some d) :
    10 ≤ d := by
  simp only [digit_value] at hd
  split_ifs at hd <;> simp only [Option.some.injEq] at hd <;> omega

/-- `strtoull` on a decimal numeral followed by text that does not go on with a
digit (nor, behind the numeral `0`, with the `x` of a hex prefix): the numeral
is converted, to `ULLONG_MAX` when it is out of range, and `ptr` is left at the
text that follows. -/
theorem strtoull_decimal_rest (ds rest : List Nat) (hnum : IsDecNumeral ds)
    (hrest : ∀ c r, rest = c :: r → ¬ (48 ≤ c ∧ c ≤ 57) ∧ c ≠ 120 ∧ c ≠ 88) :
    strtoull (ds ++ rest) =
      some (if dec_digits_value ds > UINT64_MAX then UINT64_MAX else dec_digits_value ds,
        rest) := by
  obtain ⟨hne, hdig, hcanon⟩ := hnum
  cases ds with
  | nil => exact absurd rfl hne
  | cons d ds1 =>
    have hd := hdig d (List.mem_cons_self _ _)
    rw [List.cons_append, strtoull_of_digit d _ hd]
    have hdigits : ∀ base, base ≤ 10 →
        (∀ c ∈ d :: ds1, ∃ v, digit_value c = some v ∧ v < base) →
        scan_digits base ((d :: ds1) ++ rest) 0 0 =
          ((d :: ds1).foldl (fun a c => a * base + (digit_value c).getD 0) 0,
            0 + (d :: ds1).length, rest) := by
      intro base hb hall
      refine scan_digits_append base (d :: ds1) rest 0 0 hall ?_
      intro c r hs v hv
      have := digit_value_ge_ten c v (hrest c r hs).1 hv
      omega
    by_cases h48 : d = 48
    · have hds : d :: ds1 = [48] := by
        rcases hcanon with h | h
        · simp [h48] at h
        · exact h
      simp only [List.cons.injEq] at hds
      obtain ⟨_, hds1⟩ := hds
      subst hds1 h48
      have hscan := hdigits 8 (by omega) (by
        intro c hc
        simp only [List.mem_singleton] at hc
        subst hc
        exact ⟨0, by simp [digit_value], by omega⟩)
      have hhex : starts_hex (48 :: ([] ++ rest)) = false := by
        cases rest with
        | nil => rfl
        | cons c r =>
          have := hrest c r rfl
          simp only [starts_hex, List.nil_append, decide_eq_false_iff_not]
          omega
      have hbase : strtoull_base (48 :: ([] ++ rest)) = 8 := by
        simp only [strtoull_base, hhex, Bool.false_eq_true, if_false, if_true]
      have hval : dec_digits_value [48] = 0 := rfl
      have hfold : ([48] : List Nat).foldl (fun a c => a * 8 + (digit_value c).getD 0) 0 = 0 :=
        rfl
      rw [hfold, List.cons_append] at hscan
      have := strtoull_digits_of_scan_any (48 :: ([] ++ rest)) (48 :: ([] ++ rest)) rest 8 0 _
        hbase (by simp only [hhex, Bool.false_eq_true, if_false]) hscan (by simp)
      rw [this, hval]
    · have hall : ∀ c ∈ d :: ds1, ∃ v, digit_value c = some v ∧ v < 10 := by
        intro c hc
        have := hdig c hc
        exact ⟨c - 48, by simp only [digit_value, if_pos this], by omega⟩
      have hscan := hdigits 10 (by omega) hall
      rw [dec_digits_fold (d :: ds1) hdig 0] at hscan
      have hhex : starts_hex (d :: (ds1 ++ rest)) = false := by
        cases ds1 ++ rest with
        | nil => rfl
        | cons c r =>
          simp only [starts_hex, decide_eq_false_iff_not]
          omega
      have hbase : strtoull_base (d :: (ds1 ++ rest)) = 10 := by
        simp only [strtoull_base, hhex, Bool.false_eq_true, if_false, h48]
      rw [List.cons_append] at hscan
      have := strtoull_digits_of_scan_any (d :: (ds1 ++ rest)) (d :: (ds1 ++ rest)) rest 10 _ _
        hbase (by simp only [hhex, Bool.false_eq_true, if_false]) hscan (by simp)
      rw [this]
      rfl

/-- C11 (as amended): `get_number` returns `-EINVAL` and leaves `*res` alone
exactly when no numeral is parsed, or the number comes back from `strtoull` as
`UINT64_MAX` (the value of a numeral out of range), or the first character
behind the numeral is neither the end of the text nor one of `b`, `k`, `m`, `g`
of either case; what follows that character is not looked at.  So a decimal
numeral of `2^64 - 1` or more is rejected whatever follows it, a decimal
numeral followed by any other character is rejected, and `"abc"` is. -/
theorem get_number_rejects :
    (∀ arg, get_number arg = none ↔
      NoNumeral arg ∨
        ∃ num ptr, strtoull arg = some (num, ptr) ∧
          (num = UINT64_MAX ∨ ∃ c rest, ptr = c :: rest ∧ ¬ IsSuffixChar c)) ∧
    (∀ ds rest, IsDecNumeral ds →
      (∀ c r, rest = c :: r → ¬ (48 ≤ c ∧ c ≤ 57) ∧ c ≠ 120 ∧ c ≠ 88) →
      UINT64_MAX ≤ dec_digits_value ds → get_number (ds ++ rest) = none) ∧
    (∀ ds c rest, IsDecNumeral ds → ¬ (48 ≤ c ∧ c ≤ 57) → c ≠ 120 → c ≠ 88 →
      ¬ IsSuffixChar c → get_number (ds ++ c :: rest) = none) ∧
    get_number (cstr "abc") = none ∧ get_number (cstr "10x") = none ∧
    get_number (cstr "18446744073709551616") = none := by
  refine ⟨?_, ?_, ?_, by decide, by decide, by decide⟩
  · intro arg
    rw [get_number_none_iff, strtoull_none_iff]
  · intro ds rest hnum hrest hbig
    rw [get_number_none_iff]
    refine Or.inr ⟨_, _, strtoull_decimal_rest ds rest hnum hrest, Or.inl ?_⟩
    split_ifs with h
    · rfl
    · simp only [UINT64_MAX] at h hbig ⊢
      omega
  · intro ds c rest hnum hc h120 h88 hsfx
    rw [get_number_none_iff]
    refine Or.inr ⟨_, _, strtoull_decimal_rest ds (c :: rest) hnum ?_,
      Or.inr ⟨c, rest, rfl, hsfx⟩⟩
    intro c1 r1 h
    simp only [List.cons.injEq] at h
    obtain ⟨e, _⟩ := h
    subst e
    exact ⟨hc, h120, h88⟩

/-- The numeral `12` followed by `q`, and the numeral `2^64 - 1` followed by
`k`, through the general statement. -/
theorem get_number_rejects_witness :
    get_number (cstr "12q") = none ∧ get_number (cstr "18446744073709551615k") = none :=
  ⟨get_number_rejects.2.2.1 [49, 50] 113 [] (by unfold IsDecNumeral; decide) (by decide)
      (by decide) (by decide) (by unfold IsSuffixChar; decide),
    get_number_rejects.2.1 (cstr "18446744073709551615") [107]
      (by unfold IsDecNumeral; decide)
      (by
        intro c r h
        simp only [List.cons.injEq] at h
        obtain ⟨e, _⟩ := h
        subst e
        decide)
      (by decide)⟩

/-- C11 (counterexample): in `"10kx"` the text behind the numeral `10` is
`kx`, which is none of the suffixes, yet `get_number` succeeds and stores
`10 * 1024`: only the `k` is looked at. -/
theorem get_number_rejects_counterexample :
    strtoull (cstr "10kx") = some (10, cstr "kx") ∧ suffix_factor (cstr "kx") = none ∧
      get_number (cstr "10kx") = some 10240 := by
  decide

/-! ## `get_bits` -/

/-- The loop of `get_bits` leaves `bits` alone when none of the values
`1U << j` that are still to come equals the number. -/
theorem get_bits_loop_no_match (m : Machine) (unum : Nat) : ∀ (i bits : Nat),
    (∀ j, j < i → unum ≠ one_shl m j) → get_bits_loop m unum i bits = bits := by
  intro i
  induction i with
  | zero => intro bits _; rfl
  | succ i ih =>
    intro bits h
    simp only [get_bits_loop]
    rw [if_neg (h i (Nat.lt_succ_self i))]
    exact ih bits (fun j hj => h j (Nat.lt_succ_of_lt hj))

/-- The loop of `get_bits` ends with the least `k` whose `1U << k` equals the
number, if there is one among those still to come. -/
theorem get_bits_loop_match (m : Machine) (unum k : Nat) (hk : unum = one_shl m k)
    (hleast : ∀ j, j < k → unum ≠ one_shl m j) : ∀ (i bits : Nat), k < i →
    get_bits_loop m unum i bits = k := by
  intro i
  induction i with
  | zero => intro bits h; omega
  | succ i ih =>
    intro bits h
    simp only [get_bits_loop]
    by_cases hki : k = i
    · subst hki
      rw [if_pos hk]
      exact get_bits_loop_no_match m unum k k hleast
    · exact ih _ (by omega)

theorem one_shl_of_lt (m : Machine) (i : Nat) (h : i < 32) : one_shl m i = 2 ^ i := by
  simp only [one_shl, if_pos h]

/-- The function `get_bits` on a power of two `2^k`, `1 <= k <= 31`, given as
its 32-bit pattern. -/
theorem get_bits_of_pattern (m : Machine) (num : Int) (k : Nat) (hk1 : 1 ≤ k) (hk : k ≤ 31)
    (hnum : Int.toNat (num % 4294967296) = 2 ^ k) : get_bits m num = Except.ok k := by
  have hloop : get_bits_loop m (Int.toNat (num % 4294967296)) 33 0 = k := by
    refine get_bits_loop_match m _ k ?_ ?_ 33 0 (by omega)
    · rw [one_shl_of_lt m k (by omega)]
      exact hnum
    · intro j hj
      rw [one_shl_of_lt m j (by omega), hnum]
      intro h
      have := Nat.pow_right_injective (le_refl 2) h
      omega
  simp only [get_bits, hloop]
  rw [if_neg (by omega)]

/-- C12 (as amended): for every power of two `n = 2^k` with `1 <= k <= 30`,
`get_bits (s, n)` returns `k`; for `n = 1 = 2^0` it ends the process, as it
does for 0 and for every other `int` above `INT_MIN` that is no power of two,
unless `n` is the value that the machine gives the undefined `1U << 32` of the
first iteration, in which case 32 is returned. -/
theorem get_bits_power_of_two :
    (∀ (m : Machine) (k : Nat), 1 ≤ k → k ≤ 30 → get_bits m ((2 : Int) ^ k) = Except.ok k) ∧
    (∀ m : Machine, get_bits m 1 = Except.error Fault.exit) ∧
    (∀ (m : Machine) (n : Int), -2147483648 < n → n < 2147483648 →
      (¬ ∃ k : Nat, n = (2 : Int) ^ k) →
      get_bits m n =
        if Int.toNat (n % 4294967296) = u32 m.shl_1u_32 then Except.ok 32
        else Except.error Fault.exit) := by
  refine ⟨?_, ?_, ?_⟩
  · intro m k hk1 hk
    refine get_bits_of_pattern m _ k hk1 (by omega) ?_
    have hlt : (2 : Int) ^ k < 4294967296 := by
      have : (2 : Int) ^ k ≤ 2 ^ 30 := pow_le_pow_right₀ (by norm_num) hk
      omega
    have hpos : (0 : Int) ≤ 2 ^ k := by positivity
    rw [Int.emod_eq_of_lt hpos hlt]
    have : ((2 : Int) ^ k) = ((2 ^ k : Nat) : Int) := by push_cast; rfl
    rw [this, Int.toNat_ofNat]
  · intro m
    have hloop : get_bits_loop m (Int.toNat ((1 : Int) % 4294967296)) 33 0 = 0 := by
      refine get_bits_loop_match m _ 0 ?_ ?_ 33 0 (by omega)
      · rw [one_shl_of_lt m 0 (by omega)]
        rfl
      · intro j hj
        omega
    simp only [get_bits, hloop, if_true]
  · intro m n hlo hhi hpow
    have hne : ∀ j, j < 32 → Int.toNat (n % 4294967296) ≠ one_shl m j := by
      intro j hj h
      rw [one_shl_of_lt m j hj] at h
      have hj31 : (2 : Nat) ^ j ≤ 2 ^ 31 := Nat.pow_le_pow_right (by omega) (by omega)
      by_cases hn : 0 ≤ n
      · apply hpow
        refine ⟨j, ?_⟩
        have h2 : ((Int.toNat (n % 4294967296) : Nat) : Int) = ((2 ^ j : Nat) : Int) := by
          rw [h]
        push_cast at h2
        omega
      · omega
    by_cases h32 : Int.toNat (n % 4294967296) = u32 m.shl_1u_32
    · rw [if_pos h32]
      have hloop : get_bits_loop m (Int.toNat (n % 4294967296)) 33 0 = 32 := by
        refine get_bits_loop_match m _ 32 ?_ hne 33 0 (by omega)
        simp only [one_shl]
        rw [if_neg (by omega)]
        exact h32
      simp only [get_bits, hloop]
      rw [if_neg (by omega)]
    · rw [if_neg h32]
      have hloop : get_bits_loop m (Int.toNat (n % 4294967296)) 33 0 = 0 := by
        refine get_bits_loop_no_match m _ 33 0 ?_
        intro j hj
        by_cases hj32 : j < 32
        · exact hne j hj32
        · have : j = 32 := by omega
          subst this
          simp only [one_shl]
          rw [if_neg (by omega)]
          exact h32
      simp only [get_bits, hloop, if_true]

/-- The block size 4096 has 12 bits, and 3 has none, through the general
statement. -/
theorem get_bits_power_of_two_witness :
    get_bits scenario_machine 4096 = Except.ok 12 ∧
      get_bits scenario_machine 3 = Except.error Fault.exit :=
  ⟨get_bits_power_of_two.1 scenario_machine 12 (by decide) (by decide),
    (get_bits_power_of_two.2.2 scenario_machine 3 (by decide) (by decide)
      (by
        rintro ⟨k, hk⟩
        rcases k with _ | _ | k
        · simp at hk
        · simp at hk
        · have : (2 : Int) ^ (k + 1 + 1) = 4 * 2 ^ k := by ring
          have hp : (0 : Int) < 2 ^ k := by positivity
          omega)).trans (by decide)⟩

/-- C12 (counterexample): 1 is the power of two `2^0`, yet `get_bits (s, 1)`
does not return 0: it ends the process, whatever the machine makes of
`1U << 32`; and `INT_MIN`, which is no power of two, gets the answer 31. -/
theorem get_bits_power_of_two_counterexample :
    (1 : Int) = 2 ^ 0 ∧ get_bits scenario_machine 1 = Except.error Fault.exit ∧
      get_bits { scenario_machine with shl_1u_32 := 0 } 1 = Except.error Fault.exit ∧
      get_bits scenario_machine (-2147483648) = Except.ok 31 := by
  decide

/-! ## `initial_nodes_for_volume` -/

/-- What `initial_nodes_for_volume` returns for a 64-bit size: the second
iteration shifts the size, already shifted by 30, by 33 more bits, so every
size from `2^30` up to `2^63` is answered with 4, and a larger one with 8. -/
theorem initial_nodes_for_volume_value (size : Nat) (h64 : size < 18446744073709551616) :
    initial_nodes_for_volume size =
      if size < 1073741824 then 2 else if size < 9223372036854775808 then 4 else 8 := by
  simp only [initial_nodes_for_volume, initial_nodes_loop, ONE_GB_SHIFT]
  have e1 : size / 2 ^ 30 / 2 ^ (30 + 3) = size / 9223372036854775808 := by
    rw [Nat.div_div_eq_div_mul]
    norm_num
  have e2 : size / 2 ^ 30 / 2 ^ (30 + 3) / 2 ^ (30 + 3 + 3) = 0 := by
    rw [e1]
    apply Nat.div_eq_of_lt
    have : size / 9223372036854775808 < 2 := by omega
    have : (2 : Nat) ≤ 2 ^ (30 + 3 + 3) := by norm_num
    omega
  have h30 : (2 : Nat) ^ 30 = 1073741824 := by norm_num
  by_cases h1 : size < 1073741824
  · have : size / 2 ^ 30 = 0 := by rw [h30]; omega
    simp only [this, if_true, h1]
    rfl
  · have hz : size / 2 ^ 30 ≠ 0 := by rw [h30]; omega
    rw [if_neg hz, if_neg h1]
    by_cases h2 : size < 9223372036854775808
    · have : size / 2 ^ 30 / 2 ^ (30 + 3) = 0 := by rw [e1]; omega
      simp only [this, if_true, h2]
      rfl
    · have hz2 : size / 2 ^ 30 / 2 ^ (30 + 3) ≠ 0 := by rw [e1]; omega
      rw [if_neg hz2, if_neg h2]
      simp only [e2, if_true]
      rfl

/-- C13 (failing input): a volume of 8 GiB (`2^33` bytes) is given 4 nodes and
not 8, one of 64 GiB (`2^36`) 4 and not 16, one of 512 GiB (`2^39`) 4 and not
32; the values 16 and 32 are returned for no size at all. -/
theorem initial_nodes_for_volume_buckets :
    initial_nodes_for_volume 8589934592 = 4 ∧ initial_nodes_for_volume 68719476736 = 4 ∧
      initial_nodes_for_volume 549755813888 = 4 ∧
      (∀ size, size < 18446744073709551616 →
        initial_nodes_for_volume size ≠ 16 ∧ initial_nodes_for_volume size ≠ 32) := by
  refine ⟨by decide, by decide, by decide, ?_⟩
  intro size h
  rw [initial_nodes_for_volume_value size h]
  split_ifs <;> exact ⟨by decide, by decide⟩

/-! ## `figure_journal_size` -/

/-- A volume of fewer than 2048 blocks is too small for a journal, whatever
size is asked for. -/
theorem figure_journal_size_too_small (size : Nat) (s : State)
    (h : s.volume_size_in_blocks < 2048) :
    figure_journal_size size s = Except.error Fault.exit := by
  simp only [figure_journal_size, if_pos h]

/-- The check of a requested journal size, where the 32-bit arithmetic of the
check does not wrap: the call ends the process when the journals of all nodes
and 1024 blocks more do not fit the volume, and returns the size otherwise. -/
theorem figure_journal_size_requested (size : Nat) (s : State)
    (hvol : 2048 ≤ s.volume_size_in_blocks) (hsize : 0 < size) (hbits : s.blocksize_bits < 64)
    (hfit : size / 2 ^ s.blocksize_bits * s.initial_nodes + 1024 < 4294967296) :
    figure_journal_size size s =
      if size / 2 ^ s.blocksize_bits * s.initial_nodes + 1024 > s.volume_size_in_blocks then
        Except.error Fault.exit
      else Except.ok size := by
  simp only [figure_journal_size]
  rw [if_neg (by omega), if_pos hsize, if_pos hbits]
  have e : u32 (u32 (size / 2 ^ s.blocksize_bits) * s.initial_nodes) =
      size / 2 ^ s.blocksize_bits * s.initial_nodes := by
    simp only [u32]
    rw [Nat.mul_mod, Nat.mod_mod, ← Nat.mul_mod]
    exact Nat.mod_eq_of_lt (by omega)
  simp only [e]
  have e2 : u32 (size / 2 ^ s.blocksize_bits * s.initial_nodes + 1024) =
      size / 2 ^ s.blocksize_bits * s.initial_nodes + 1024 := Nat.mod_eq_of_lt hfit
  rw [e2]

/-- C14 (failing input): on the volume of 25600 blocks of 4096 bytes with two
nodes, a journal of `2^44` bytes has `2^32` blocks, and two such journals and
1024 blocks more are far beyond the volume; yet `figure_journal_size` returns
the size: the block count is kept in an `unsigned int`, where it is 0, so the
check sees 1024 blocks.  The same happens for `2^43` bytes, where the product
with the node count wraps. -/
theorem figure_journal_size_wraps :
    17592186044416 / 2 ^ scenario_state.blocksize_bits * scenario_state.initial_nodes + 1024 >
        scenario_state.volume_size_in_blocks ∧
      figure_journal_size 17592186044416 scenario_state = Except.ok 17592186044416 ∧
      8796093022208 / 2 ^ scenario_state.blocksize_bits * scenario_state.initial_nodes + 1024 >
        scenario_state.volume_size_in_blocks ∧
      figure_journal_size 8796093022208 scenario_state = Except.ok 8796093022208 := by
  decide

/-- C15 (as amended): with no size requested, on a volume of at least 2048
blocks of 512, 1024, 2048 or 4096 bytes, `figure_journal_size` returns the
size of 1024 blocks when the volume has fewer than 32768 blocks, of 4096
blocks when it has fewer than 262144, and of 8192 blocks otherwise; for blocks
of 4096 bytes these are 4 MiB, 16 MiB and 32 MiB. -/
theorem figure_journal_size_default (s : State) (hvol : 2048 ≤ s.volume_size_in_blocks)
    (hlo : 9 ≤ s.blocksize_bits) (hhi : s.blocksize_bits ≤ 12) :
    figure_journal_size 0 s =
        Except.ok
          ((if s.volume_size_in_blocks < 32768 then 1024
            else if s.volume_size_in_blocks < 262144 then 4096 else 8192) *
            2 ^ s.blocksize_bits) ∧
      (s.blocksize_bits = 12 →
        figure_journal_size 0 s =
          Except.ok
            (if s.volume_size_in_blocks < 32768 then 4194304
             else if s.volume_size_in_blocks < 262144 then 16777216 else 33554432)) := by
  have hval : figure_journal_size 0 s =
      Except.ok
        ((if s.volume_size_in_blocks < 32768 then 1024
          else if s.volume_size_in_blocks < 262144 then 4096 else 8192) *
          2 ^ s.blocksize_bits) := by
    simp only [figure_journal_size]
    rw [if_neg (by omega), if_neg (by omega), if_pos (by omega)]
    have hp : (2 : Nat) ^ s.blocksize_bits ≤ 2 ^ 12 := Nat.pow_le_pow_right (by omega) hhi
    have hp2 : (2 : Nat) ^ 12 = 4096 := by norm_num
    generalize (2 : Nat) ^ s.blocksize_bits = p at hp
    simp only [u32]
    congr 1
    apply Nat.mod_eq_of_lt
    split_ifs <;> omega
  refine ⟨hval, ?_⟩
  intro h12
  rw [hval, h12]
  split_ifs <;> rfl

/-- A volume of 2048 blocks of 512 bytes gets a journal of 1024 blocks, and
one of 40000 blocks of 4096 bytes a journal of 16 MiB. -/
theorem figure_journal_size_default_witness :
    figure_journal_size 0
        { scenario_state with blocksize := 512, blocksize_bits := 9,
                              volume_size_in_blocks := 2048 } = Except.ok (1024 * 512) ∧
      figure_journal_size 0 { scenario_state with volume_size_in_blocks := 40000 } =
        Except.ok 16777216 :=
  ⟨(figure_journal_size_default
      { scenario_state with blocksize := 512, blocksize_bits := 9,
                            volume_size_in_blocks := 2048 }
      (by decide) (by decide) (by decide)).1,
    (figure_journal_size_default { scenario_state with volume_size_in_blocks := 40000 }
      (by decide) (by decide) (by decide)).2 rfl⟩

/-- C15 (counterexample): on a volume of 2048 blocks of 512 bytes the journal
is 512 KiB and not 4 MiB, and on one of 300000 blocks of 1024 bytes it is
8 MiB and not 32 MiB. -/
theorem figure_journal_size_default_counterexample :
    figure_journal_size 0
        { scenario_state with blocksize := 512, blocksize_bits := 9,
                              volume_size_in_blocks := 2048 } = Except.ok 524288 ∧
      figure_journal_size 0
        { scenario_state with blocksize := 1024, blocksize_bits := 10,
                              volume_size_in_blocks := 300000 } = Except.ok 8388608 := by
  decide

/-- The volume of 1536 blocks is too small for a journal. -/
theorem figure_journal_size_examples :
    figure_journal_size 0 { scenario_state with volume_size_in_blocks := 1536 } =
        Except.error Fault.exit ∧
      figure_journal_size 4194304 scenario_state = Except.ok 4194304 ∧
      figure_journal_size 104857600 scenario_state = Except.error Fault.exit := by
  decide

/-! ## `fill_defaults`: the cluster size -/

/-- The function `get_bits` on a power of two `2^k`, `1 <= k <= 31`, held in
an unsigned variable. -/
theorem get_bits_pow (m : Machine) (k : Nat) (hk1 : 1 ≤ k) (hk : k ≤ 31) :
    get_bits m ((2 ^ k : Nat) : Int) = Except.ok k := by
  refine get_bits_of_pattern m _ k hk1 hk ?_
  have : (2 : Nat) ^ k ≤ 2 ^ 31 := Nat.pow_le_pow_right (by omega) hk
  generalize (2 : Nat) ^ k = x at this
  omega

/-- The bitmap size that the loop of `fill_defaults` computes in 32 bits for
clusters of `2^k` bytes is the size in the words of the specification, as long
as the number of clusters of the volume stays 7 below `2^32`. -/
theorem auto_need_eq (V k : Nat) (hk : k ≤ 31) (hV : V / 2 ^ k + 7 < 4294967296) :
    u32 (u32 (u32 (u32 (V / 2 ^ k) + 7) / 2 ^ 3 + 2 ^ k + 4294967295) / 2 ^ k * 2 ^ k) =
      bitmap_need V (2 ^ k) := by
  have hc : (2 : Nat) ^ k ≤ 2 ^ 31 := Nat.pow_le_pow_right (by omega) hk
  have hc1 : 1 ≤ (2 : Nat) ^ k := Nat.one_le_two_pow
  simp only [bitmap_need]
  generalize (2 : Nat) ^ k = c at hc hc1 hV
  generalize V / c = q at hV
  have e1 : u32 q = q := Nat.mod_eq_of_lt (by omega)
  have e2 : u32 (q + 7) = q + 7 := Nat.mod_eq_of_lt (by omega)
  have e3 : (2 : Nat) ^ 3 = 8 := by norm_num
  rw [e1, e2, e3]
  have hn : (q + 7) / 8 < 536870912 := by omega
  generalize (q + 7) / 8 = n at hn
  have e4 : u32 (n + c + 4294967295) = n + c - 1 := by
    simp only [u32]
    omega
  rw [e4]
  have hle : (n + c - 1) / c * c ≤ n + c - 1 := Nat.div_mul_le_self _ _
  exact Nat.mod_eq_of_lt (by omega)

/-- The loop of `fill_defaults` that looks for a cluster size, started at the
candidate `2^(a+i)`, ends at the first candidate `2^(a+j)` whose bitmap fits. -/
theorem auto_cluster_size_finds (m : Machine) (c : MkfsH) (V a j : Nat) (ha : 1 ≤ a)
    (hauto : c.AUTO_CLUSTER_SIZE ≤ 2147483648) (hj : 2 ^ (a + j) < c.AUTO_CLUSTER_SIZE)
    (htrunc : V / 2 ^ a + 7 < 4294967296)
    (hneed : bitmap_need V (2 ^ (a + j)) ≤ c.BITMAP_AUTO_MAX)
    (hleast : ∀ i, i < j → c.BITMAP_AUTO_MAX < bitmap_need V (2 ^ (a + i))) :
    ∀ n i, i ≤ j → j - i < n →
      auto_cluster_size m c V n (2 ^ (a + i)) = Except.ok (2 ^ (a + j)) := by
  have hj31 : a + j < 31 := by
    have : (2 : Nat) ^ (a + j) < 2 ^ 31 := by omega
    exact (Nat.pow_lt_pow_iff_right (by omega)).1 this
  intro n
  induction n with
  | zero => intro i _ h; omega
  | succ n ih =>
    intro i hi hn
    have hci : (2 : Nat) ^ (a + i) ≤ 2 ^ (a + j) := Nat.pow_le_pow_right (by omega) (by omega)
    have hVi : V / 2 ^ (a + i) + 7 < 4294967296 := by
      have : V / 2 ^ (a + i) ≤ V / 2 ^ a :=
        Nat.div_le_div_left (Nat.pow_le_pow_right (by omega) (by omega)) (by positivity)
      omega
    simp only [auto_cluster_size]
    rw [if_pos (by omega), get_bits_pow m (a + i) (by omega) (by omega)]
    simp only
    rw [if_pos (by omega), auto_need_eq V (a + i) (by omega) hVi]
    by_cases hij : i = j
    · subst hij
      rw [if_pos hneed]
    · have hlt : i < j := by omega
      rw [if_neg (by have := hleast i hlt; omega)]
      have hnext : u32 (2 ^ (a + i) * 2) = 2 ^ (a + (i + 1)) := by
        have e : (2 : Nat) ^ (a + (i + 1)) = 2 ^ (a + i) * 2 := by
          rw [← Nat.add_assoc, Nat.pow_succ]
        have : (2 : Nat) ^ (a + (i + 1)) ≤ 2 ^ (a + j) :=
          Nat.pow_le_pow_right (by omega) (by omega)
        rw [← e]
        exact Nat.mod_eq_of_lt (by omega)
      rw [hnext]
      exact ih (i + 1) (by omega) (by omega)

/-- When the bitmap for some candidate below `AUTO_CLUSTER_SIZE` fits, the
number of clusters of the smallest candidate stays 7 below `2^32`, for
constants with `(8 * BITMAP_AUTO_MAX + 1) * AUTO_CLUSTER_SIZE <=
(2^32 - 7) * MIN_CLUSTER_SIZE`: the loop then computes without truncation. -/
theorem auto_no_truncation (c : MkfsH) (V a j : Nat) (hmin : c.MIN_CLUSTER_SIZE = 2 ^ a)
    (hconst : (8 * c.BITMAP_AUTO_MAX + 1) * c.AUTO_CLUSTER_SIZE ≤
      4294967289 * c.MIN_CLUSTER_SIZE)
    (hj : 2 ^ (a + j) < c.AUTO_CLUSTER_SIZE)
    (hneed : bitmap_need V (2 ^ (a + j)) ≤ c.BITMAP_AUTO_MAX) :
    V / 2 ^ a + 7 < 4294967296 := by
  rw [hmin] at hconst
  have hmn : 0 < (2 : Nat) ^ a := by positivity
  have hcj : 0 < (2 : Nat) ^ (a + j) := by positivity
  simp only [bitmap_need] at hneed
  generalize (2 : Nat) ^ (a + j) = cj at hj hneed hcj
  generalize (2 : Nat) ^ a = mn at hconst hmn
  have hy : (V / cj + 7) / 8 ≤ c.BITMAP_AUTO_MAX := by
    have := Nat.lt_div_mul_add (a := (V / cj + 7) / 8 + cj - 1) hcj
    omega
  have hq : V / cj ≤ 8 * c.BITMAP_AUTO_MAX := by omega
  have hV : V < (8 * c.BITMAP_AUTO_MAX + 1) * cj := by
    have := Nat.lt_div_mul_add (a := V) hcj
    have h2 : V / cj * cj ≤ 8 * c.BITMAP_AUTO_MAX * cj := Nat.mul_le_mul_right _ hq
    have h3 : (8 * c.BITMAP_AUTO_MAX + 1) * cj = 8 * c.BITMAP_AUTO_MAX * cj + cj := by ring
    omega
  have h4 : (8 * c.BITMAP_AUTO_MAX + 1) * cj ≤
      (8 * c.BITMAP_AUTO_MAX + 1) * c.AUTO_CLUSTER_SIZE := Nat.mul_le_mul_left _ (by omega)
  have h5 : V / mn < 4294967289 := (Nat.div_lt_iff_lt_mul hmn).2 (by omega)
  omega

/-- The first part of `fill_defaults` for a page size and a block size that are
powers of two, and a volume size that is set: the bit counts are stored, and the
volume size in bytes is the product of the block count and the block size. -/
theorem fill_defaults_blocksize_set (m : Machine) (s : State) (p b : Nat)
    (hpage : m.pagesize = 2 ^ p) (hp1 : 1 ≤ p) (hp : p ≤ 31)
    (hbs : s.blocksize = 2 ^ b) (hb1 : 1 ≤ b) (hb : b ≤ 31)
    (hvol : s.volume_size_in_blocks ≠ 0) :
    fill_defaults_blocksize m s =
      Except.ok
        { s with
          pagesize_bits := p
          volume_size_in_bytes := u64 (s.volume_size_in_blocks * s.blocksize)
          blocksize_bits := b } := by
  have hbs0 : s.blocksize ≠ 0 := by
    rw [hbs]
    exact Nat.pos_iff_ne_zero.1 (by positivity)
  simp only [fill_defaults_blocksize]
  rw [hpage, get_bits_pow m p hp1 hp]
  simp only [if_neg hbs0, if_neg hvol]
  rw [hbs, get_bits_pow m b hb1 hb]

/-- C16: for a machine whose page size is a power of two, a state whose block
size is a power of two, whose volume size is set (to at least 2048 blocks) and
whose cluster size is unset, and constants of `mkfs.h` with `MIN_CLUSTER_SIZE`
a power of two, `AUTO_CLUSTER_SIZE <= 2^31` and `(8 * BITMAP_AUTO_MAX + 1) *
AUTO_CLUSTER_SIZE <= (2^32 - 7) * MIN_CLUSTER_SIZE`: if `MIN_CLUSTER_SIZE * 2^j`
is the smallest candidate below `AUTO_CLUSTER_SIZE` whose bitmap size is at most
`BITMAP_AUTO_MAX`, then `fill_defaults` reaches the assignment to
`s->cluster_size`, stores this candidate there, and every state that
`fill_defaults` returns has it as cluster size. -/
theorem fill_defaults_auto_cluster_size (m : Machine) (c : MkfsH) (s : State) (p b a j : Nat)
    (hpage : m.pagesize = 2 ^ p) (hp1 : 1 ≤ p) (hp : p ≤ 31)
    (hbs : s.blocksize = 2 ^ b) (hb1 : 1 ≤ b) (hb : b ≤ 31)
    (hvol : 2048 ≤ s.volume_size_in_blocks) (hcs : s.cluster_size = 0)
    (hmin : c.MIN_CLUSTER_SIZE = 2 ^ a) (ha : 1 ≤ a)
    (hauto : c.AUTO_CLUSTER_SIZE ≤ 2147483648)
    (hconst : (8 * c.BITMAP_AUTO_MAX + 1) * c.AUTO_CLUSTER_SIZE ≤
      4294967289 * c.MIN_CLUSTER_SIZE)
    (hj : c.MIN_CLUSTER_SIZE * 2 ^ j < c.AUTO_CLUSTER_SIZE)
    (hneed : bitmap_need (u64 (s.volume_size_in_blocks * s.blocksize))
      (c.MIN_CLUSTER_SIZE * 2 ^ j) ≤ c.BITMAP_AUTO_MAX)
    (hleast : ∀ i, i < j → c.BITMAP_AUTO_MAX <
      bitmap_need (u64 (s.volume_size_in_blocks * s.blocksize)) (c.MIN_CLUSTER_SIZE * 2 ^ i)) :
    (∃ s2, fill_defaults_geometry m c s = Except.ok s2 ∧
      s2.cluster_size = c.MIN_CLUSTER_SIZE * 2 ^ j) ∧
    ∀ s3, fill_defaults m c s = Except.ok s3 → s3.cluster_size = c.MIN_CLUSTER_SIZE * 2 ^ j := by
  have hpow : ∀ i, c.MIN_CLUSTER_SIZE * 2 ^ i = 2 ^ (a + i) := by
    intro i
    rw [hmin, Nat.pow_add]
  rw [hpow] at hj hneed
  simp only [hpow] at hleast
  rw [hpow]
  have htrunc := auto_no_truncation c _ a j hmin hconst hj hneed
  have hloop := auto_cluster_size_finds m c _ a j ha hauto hj htrunc hneed hleast 34 0
    (Nat.zero_le _) (by
      have : (2 : Nat) ^ (a + j) < 2 ^ 31 := by omega
      have := (Nat.pow_lt_pow_iff_right (by omega)).1 this
      omega)
  have hmin32 : u32 c.MIN_CLUSTER_SIZE = 2 ^ (a + 0) := by
    rw [hmin, Nat.add_zero]
    have : (2 : Nat) ^ a ≤ 2 ^ (a + j) := Nat.pow_le_pow_right (by omega) (by omega)
    exact Nat.mod_eq_of_lt (by omega)
  have hgeo : fill_defaults_geometry m c s =
      Except.ok
        { s with
          pagesize_bits := p
          volume_size_in_bytes := u64 (s.volume_size_in_blocks * s.blocksize)
          blocksize_bits := b
          cluster_size := 2 ^ (a + j) } := by
    simp only [fill_defaults_geometry]
    rw [fill_defaults_blocksize_set m s p b hpage hp1 hp hbs hb1 hb (by omega)]
    simp only [fill_defaults_cluster_size, hcs, if_true]
    rw [hmin32, hloop]
  refine ⟨⟨_, hgeo, rfl⟩, ?_⟩
  intro s3 h3
  simp only [fill_defaults, hgeo, fill_defaults_sizes] at h3
  split at h3
  · cases h3
  · split at h3
    · split at h3
      · cases h3
      · simp only [Except.ok.injEq] at h3
        rw [← h3]
    · cases h3

/-- A volume of 100 GiB in blocks of 4096 bytes gets clusters of 32768 bytes,
the first of the candidates 4096, 8192, 16384, 32768 whose bitmap is no larger
than 786432 bytes; the volume of 100 MiB gets clusters of 4096 bytes. -/
theorem fill_defaults_auto_cluster_size_witness :
    (∃ s2, fill_defaults_geometry scenario_machine scenario_mkfs_h
        { unset_state with blocksize := 4096, volume_size_in_blocks := 26214400 } =
          Except.ok s2 ∧ s2.cluster_size = 32768) ∧
      ∃ s3, fill_defaults scenario_machine scenario_mkfs_h
        { unset_state with blocksize := 4096, volume_size_in_blocks := 25600 } =
          Except.ok s3 ∧ s3.cluster_size = 4096 := by
  constructor
  · obtain ⟨s2, h1, h2⟩ :=
      (fill_defaults_auto_cluster_size scenario_machine scenario_mkfs_h
        { unset_state with blocksize := 4096, volume_size_in_blocks := 26214400 } 12 12 12 3
        rfl (by decide) (by decide) rfl (by decide) (by decide) (by decide) rfl rfl
        (by decide) (by decide) (by decide) (by decide) (by decide)
        (by intro i hi; interval_cases i <;> decide)).1
    exact ⟨s2, h1, h2⟩
  · refine ⟨_, rfl, ?_⟩
    exact (fill_defaults_auto_cluster_size scenario_machine scenario_mkfs_h
      { unset_state with blocksize := 4096, volume_size_in_blocks := 25600 } 12 12 12 0
      rfl (by decide) (by decide) rfl (by decide) (by decide) (by decide) rfl rfl
      (by decide) (by decide) (by decide) (by decide) (by decide)
      (by intro i hi; omega)).2 _ rfl

/-- The scenario of the 100 MiB volume with blocks of 4096 bytes and every
other size unset: the bitmap for clusters of 4096 bytes takes 4096 bytes, and
`fill_defaults` settles on 25600 clusters of 4096 bytes, two nodes and a
journal of 4 MiB. -/
theorem fill_defaults_examples :
    bitmap_need 104857600 4096 = 4096 ∧
      fill_defaults scenario_machine scenario_mkfs_h
          { unset_state with blocksize := 4096, volume_size_in_blocks := 25600 } =
        Except.ok
          { unset_state with
            blocksize := 4096, blocksize_bits := 12, cluster_size := 4096,
            cluster_size_bits := 12, pagesize_bits := 12, volume_size_in_bytes := 104857600,
            volume_size_in_clusters := 25600, volume_size_in_blocks := 25600,
            initial_nodes := 2, journal_size_in_bytes := 4194304 } := by
  decide

/-- The only way `get_bits` ends without a value is `exit(1)`. -/
theorem get_bits_error (m : Machine) (num : Int) (e : Fault)
    (h : get_bits m num = Except.error e) : e = Fault.exit := by
  simp only [get_bits] at h
  split_ifs at h
  · simp only [Except.error.injEq] at h
    exact h.symm

/-- For the number 0 `get_bits` has no answer below 32. -/
theorem get_bits_zero (m : Machine) (bits : Nat) (h : get_bits m ((0 : Nat) : Int) = Except.ok bits) :
    ¬ bits < 32 := by
  intro hlt
  simp only [get_bits] at h
  split_ifs at h with h0
  simp only [Except.ok.injEq] at h
  have hzero : Int.toNat (((0 : Nat) : Int) % 4294967296) = 0 := by decide
  rw [hzero] at h h0
  by_cases h32 : 0 = one_shl m 32
  · have := get_bits_loop_match m 0 32 h32 (by
      intro j hj
      rw [one_shl_of_lt m j hj]
      exact (Nat.pos_iff_ne_zero.1 (by positivity)).symm) 33 0 (by omega)
    omega
  · have := get_bits_loop_no_match m 0 33 0 (by
      intro j hj
      by_cases hj32 : j < 32
      · rw [one_shl_of_lt m j hj32]
        exact (Nat.pos_iff_ne_zero.1 (by positivity)).symm
      · have : j = 32 := by omega
        subst this
        exact h32)
    omega

/-- The loop that looks for a cluster size ends within its budget: a 32-bit
number that is a multiple of `2^(32-k)` is 0 after `k` doublings, and for 0 the
loop ends. -/
theorem auto_cluster_size_budget (m : Machine) (c : MkfsH) (V : Nat) :
    ∀ k cs n, k ≤ 32 → cs < 4294967296 → 2 ^ (32 - k) ∣ cs → k < n →
      auto_cluster_size m c V n cs ≠ Except.error Fault.budget := by
  intro k
  induction k with
  | zero =>
    intro cs n _ hcs hdvd hn
    have hcs0 : cs = 0 := by
      have h32 : (2 : Nat) ^ (32 - 0) = 4294967296 := by norm_num
      rw [h32] at hdvd
      exact Nat.eq_zero_of_dvd_of_lt hdvd hcs
    subst hcs0
    obtain ⟨n, rfl⟩ : ∃ n1, n = n1 + 1 := ⟨n - 1, by omega⟩
    simp only [auto_cluster_size]
    split_ifs
    · cases hg : get_bits m ((0 : Nat) : Int) with
      | error e =>
        simp only
        rw [get_bits_error m _ e hg]
        simp
      | ok bits =>
        simp only
        rw [if_neg (get_bits_zero m bits hg)]
        simp
    · simp
  | succ k ih =>
    intro cs n hk hcs hdvd hn
    obtain ⟨n, rfl⟩ : ∃ n1, n = n1 + 1 := ⟨n - 1, by omega⟩
    simp only [auto_cluster_size]
    split_ifs
    · cases hg : get_bits m (cs : Int) with
      | error e =>
        simp only
        rw [get_bits_error m _ e hg]
        simp
      | ok bits =>
        simp only
        split_ifs
        · simp
        · refine ih (u32 (cs * 2)) n (by omega) (Nat.mod_lt _ (by omega)) ?_ (by omega)
          have h1 : (2 : Nat) ^ (32 - k) = 2 ^ (32 - (k + 1)) * 2 := by
            rw [← Nat.pow_succ]
            congr 1
            omega
          have h2 : (2 : Nat) ^ (32 - k) ∣ 4294967296 := by
            have : (4294967296 : Nat) = 2 ^ 32 := by norm_num
            rw [this]
            exact Nat.pow_dvd_pow 2 (by omega)
          rw [u32, Nat.dvd_mod_iff h2, h1]
          exact Nat.mul_dvd_mul_right hdvd 2
        · simp
    · simp

/-- The search for a cluster size in `fill_defaults` never uses up the 34
iterations that the embedding gives it. -/
theorem fill_defaults_cluster_size_budget (m : Machine) (c : MkfsH) (s : State) :
    fill_defaults_cluster_size m c s ≠ Except.error Fault.budget := by
  simp only [fill_defaults_cluster_size]
  split_ifs
  · have := auto_cluster_size_budget m c s.volume_size_in_bytes 32 (u32 c.MIN_CLUSTER_SIZE) 34
      (le_refl _) (Nat.mod_lt _ (by omega)) (by simp) (by omega)
    cases h : auto_cluster_size m c s.volume_size_in_bytes 34 (u32 c.MIN_CLUSTER_SIZE) with
    | error e =>
      simp only
      intro he
      simp only [Except.error.injEq] at he
      rw [he] at h
      exact this h
    | ok v => simp
  · simp

/-! ## `fill_defaults`: the block size -/

/-- An unset block size leaves the first part of `fill_defaults` as 4096: the
value is stored before the second test of `s->blocksize` is made, so the
branch that shrinks the block size is not entered. -/
theorem fill_defaults_blocksize_unset (m : Machine) (s s1 : State) (h0 : s.blocksize = 0)
    (h : fill_defaults_blocksize m s = Except.ok s1) : s1.blocksize = 4096 := by
  simp only [fill_defaults_blocksize] at h
  split at h
  · cases h
  · simp only [h0, if_true] at h
    rw [if_neg (by split_ifs <;> decide)] at h
    split at h
    · cases h
    · simp only [Except.ok.injEq] at h
      rw [← h]
      split_ifs <;> rfl

/-- The search for a cluster size leaves the block size alone. -/
theorem fill_defaults_cluster_size_blocksize (m : Machine) (c : MkfsH) (s s2 : State)
    (h : fill_defaults_cluster_size m c s = Except.ok s2) : s2.blocksize = s.blocksize := by
  simp only [fill_defaults_cluster_size] at h
  split_ifs at h
  · split at h
    · cases h
    · simp only [Except.ok.injEq] at h
      rw [← h]
  · simp only [Except.ok.injEq] at h
    rw [← h]

/-- The last part of `fill_defaults` leaves the block size alone, and returns
only states of at least 2048 blocks. -/
theorem fill_defaults_sizes_blocksize (m : Machine) (s s3 : State)
    (h : fill_defaults_sizes m s = Except.ok s3) :
    s3.blocksize = s.blocksize ∧ 2048 ≤ s3.volume_size_in_blocks := by
  simp only [fill_defaults_sizes] at h
  split at h
  · cases h
  · rename_i bits _
    by_cases hb : bits < 32 ∧ s.blocksize_bits < 32
    · rw [if_pos hb] at h
      split at h
      · cases h
      · rename_i journal_size hj
        simp only [Except.ok.injEq] at h
        rw [← h]
        refine ⟨rfl, ?_⟩
        by_contra hsmall
        rw [figure_journal_size_too_small _ _ (by simpa using hsmall)] at hj
        cases hj
    · rw [if_neg hb] at h
      cases h

/-- C17 (failing input): with every size unset and a device of 3 MiB,
`fill_defaults` takes the block size 4096 and finds 768 blocks, and then ends
the process because 768 blocks are too few for a journal: the block size 512
is not selected.  For no state with an unset block size does `fill_defaults`
return another block size than 4096. -/
theorem fill_defaults_small_device :
    small_device_machine.device_blocks 512 * 512 ≤ 3145728 ∧
      (∃ s1, fill_defaults_blocksize small_device_machine unset_state = Except.ok s1 ∧
        s1.blocksize = 4096 ∧ s1.volume_size_in_blocks = 768) ∧
      fill_defaults small_device_machine scenario_mkfs_h unset_state =
        Except.error Fault.exit ∧
      ∀ (m : Machine) (c : MkfsH) (s s3 : State), s.blocksize = 0 →
        fill_defaults m c s = Except.ok s3 → s3.blocksize = 4096 := by
  refine ⟨by decide, ⟨_, rfl, rfl, rfl⟩, by decide, ?_⟩
  intro m c s s3 h0 h
  simp only [fill_defaults, fill_defaults_geometry] at h
  cases h1 : fill_defaults_blocksize m s with
  | error e => rw [h1] at h; cases h
  | ok s1 =>
    rw [h1] at h
    simp only at h
    cases h2 : fill_defaults_cluster_size m c s1 with
    | error e => rw [h2] at h; cases h
    | ok s2 =>
      rw [h2] at h
      simp only at h
      rw [(fill_defaults_sizes_blocksize m s2 s3 h).1,
        fill_defaults_cluster_size_blocksize m c s1 s2 h2,
        fill_defaults_blocksize_unset m s s1 h0 h1]

/-! ## `alloc_from_bitmap`: the values handed back -/

/-- C18 (as amended): when `alloc_from_bitmap (s, k, bitmap, &start, &num)`
succeeds for a unit count `1 <= k < 2^32`, the units `r .. r + k - 1` are the
ones claimed (clear before the call, set after it, and no other bit changed),
and the call hands back the byte offset of the first of them,
`start = r << unit_bits`, and the byte length of the run,
`num = k << unit_bits`, both as 64-bit values; they are exact for unit sizes
below `2^32`, and `start` is the unit index `r` itself only for
`unit_bits = 0`. -/
theorem alloc_from_bitmap_returns_byte_range (io_ok : Nat → Nat → Bool)
    (bitmap bitmap1 : AllocBitmap) (k start num : Nat)
    (hV : bitmap.valid_bits < 4294967296) (hk1 : 1 ≤ k) (hk : k < 4294967296)
    (hret : alloc_from_bitmap io_ok k bitmap = some (bitmap1, start, num)) :
    ∃ r, r + k ≤ bitmap.valid_bits ∧
      (∀ i, ocfs2_test_bit i bitmap1.buf ≠ ocfs2_test_bit i bitmap.buf ↔ r ≤ i ∧ i < r + k) ∧
      start = r * 2 ^ bitmap.unit_bits % 18446744073709551616 ∧
      num = k * 2 ^ bitmap.unit_bits % 18446744073709551616 ∧
      (bitmap.unit_bits < 32 → start = r * 2 ^ bitmap.unit_bits ∧ num = k * 2 ^ bitmap.unit_bits) ∧
      (bitmap.unit_bits = 0 → start = r ∧ num = k) := by
  obtain ⟨r, hrun, _, hstart, hnum, hbuf, _, _, _⟩ :=
    alloc_from_bitmap_spec io_ok bitmap bitmap1 k start num hV hk1 hk hret
  have hfit := hrun.2.1
  have hexact : bitmap.unit_bits < 32 →
      start = r * 2 ^ bitmap.unit_bits ∧ num = k * 2 ^ bitmap.unit_bits := by
    intro hub
    have hp : (2 : Nat) ^ bitmap.unit_bits ≤ 2 ^ 31 := Nat.pow_le_pow_right (by omega) (by omega)
    have h31 : (2 : Nat) ^ 31 = 2147483648 := by norm_num
    have h1 : r * 2 ^ bitmap.unit_bits ≤ 4294967296 * 2147483648 :=
      Nat.mul_le_mul (by omega) (by omega)
    have h2 : k * 2 ^ bitmap.unit_bits ≤ 4294967296 * 2147483648 :=
      Nat.mul_le_mul (by omega) (by omega)
    rw [hstart, hnum]
    exact ⟨Nat.mod_eq_of_lt (by omega), Nat.mod_eq_of_lt (by omega)⟩
  refine ⟨r, hfit, ?_, hstart, hnum, hexact, ?_⟩
  · intro i
    have hset := set_bits_loop_spec k bitmap.buf r i (by omega)
    rw [← hbuf] at hset
    simp only [ocfs2_test_bit]
    constructor
    · intro hne
      have h1 : bitmap1.buf i = true := by
        cases hb1 : bitmap1.buf i
        · cases hb : bitmap.buf i
          · rw [hb1, hb] at hne
            exact absurd rfl hne
          · have := hset.2 (Or.inl hb)
            rw [hb1] at this
            exact this
        · rfl
      have h0 : bitmap.buf i = false := by
        cases hb : bitmap.buf i
        · rfl
        · rw [h1, hb] at hne
          exact absurd rfl hne
      rcases hset.1 h1 with h | ⟨j, hj, hi⟩
      · rw [h0] at h
        cases h
      · omega
    · rintro ⟨h1, h2⟩
      have hb1 : bitmap1.buf i = true := hset.2 (Or.inr ⟨i - r, by omega, by omega⟩)
      have hb0 : bitmap.buf i = false := by
        have := hrun.2.2 (i - r) (by omega)
        have e : r + (i - r) = i := by omega
        rw [e] at this
        exact this
      rw [hb1, hb0]
      decide
  · intro h0
    have := hexact (by omega)
    rw [h0] at this
    simpa using this

/-- The bitmap `01100110` with units of 4096 bytes: two units are claimed at
bit 3, and the call hands back the byte offset 12288 and the length 8192. -/
theorem alloc_from_bitmap_returns_byte_range_witness :
    ∃ bitmap1, alloc_from_bitmap (fun _ _ => true) 2
        { scenario_bitmap with unit_bits := 12, unit := 4096 } = some (bitmap1, 12288, 8192) ∧
      ∃ r, (∀ i, ocfs2_test_bit i bitmap1.buf ≠ ocfs2_test_bit i scenario_bitmap.buf ↔
          r ≤ i ∧ i < r + 2) ∧ 12288 = r * 2 ^ 12 := by
  refine ⟨_, rfl, ?_⟩
  obtain ⟨r, _, hbits, _, _, hexact, _⟩ :=
    alloc_from_bitmap_returns_byte_range (fun _ _ => true)
      { scenario_bitmap with unit_bits := 12, unit := 4096 } _ 2 12288 8192
      (by decide) (by decide) (by decide) rfl
  exact ⟨r, hbits, (hexact (by decide)).1⟩

/-- C18 (counterexample): on the bitmap `01100110` with units of 4096 bytes a
call for two units claims the units 3 and 4, so the unit index of the first
claimed unit is 3; the `start` handed back is 12288, its byte offset. -/
theorem alloc_from_bitmap_returns_byte_range_counterexample :
    ∃ bitmap1, alloc_from_bitmap (fun _ _ => true) 2
        { scenario_bitmap with unit_bits := 12, unit := 4096 } = some (bitmap1, 12288, 8192) ∧
      ocfs2_test_bit 3 scenario_bitmap.buf = false ∧ ocfs2_test_bit 3 bitmap1.buf = true ∧
      ocfs2_test_bit 4 scenario_bitmap.buf = false ∧ ocfs2_test_bit 4 bitmap1.buf = true ∧
      (∀ i, i < 3 → ocfs2_test_bit i bitmap1.buf = ocfs2_test_bit i scenario_bitmap.buf) ∧
      12288 ≠ 3 :=
  ⟨_, rfl, rfl, rfl, rfl, rfl,
    fun i hi => by
      have : i = 0 ∨ i = 1 ∨ i = 2 := by omega
      rcases this with h | h | h <;> subst h <;> rfl,
    by decide⟩

/-! ## Allocation groups: the invariant -/

/-- The bits that the claiming loop of `alloc_from_group` sets. -/
theorem set_group_bits_spec (buf : BitBuf) (start_bit : Nat) : ∀ (n i : Nat),
    set_group_bits buf start_bit n i = true ↔
      buf i = true ∨ (start_bit ≤ i ∧ i < start_bit + n) := by
  intro n
  induction n with
  | zero => intro i; simp [set_group_bits]
  | succ n ih =>
    intro i
    simp only [set_group_bits, ocfs2_set_bit]
    by_cases hi : i = start_bit + n
    · simp only [hi, if_true, true_iff]
      exact Or.inr ⟨by omega, by omega⟩
    · simp only [hi, if_false]
      rw [ih i]
      constructor
      · rintro (h | h)
        · exact Or.inl h
        · exact Or.inr ⟨h.1, by omega⟩
      · rintro (h | h)
        · exact Or.inl h
        · exact Or.inr ⟨h.1, by omega⟩

theorem popcount_clear : ∀ n, popcount (fun _ => false) n = 0 := by
  intro n
  induction n with
  | zero => rfl
  | succ n ih => simp [popcount, ocfs2_test_bit, ih]

/-- What a call of `alloc_from_group` that returns has done: it found a clear
run of `count` bits at some `sb` inside the group and claimed it. -/
theorem alloc_from_group_loop_returned (group : AllocGroup) (count : Nat)
    (h16 : group.gd.bg_bits < 65536) :
    ∀ (fuel start_bit : Nat) (group1 : AllocGroup) (start_blkno num_bits : Nat),
      start_bit ≤ group.gd.bg_bits →
      alloc_from_group_loop group count fuel start_bit =
        Outcome.returned (group1, start_blkno, num_bits) →
      ∃ sb, sb + count ≤ group.gd.bg_bits ∧
        (∀ i, sb ≤ i → i < sb + count → group.gd.bg_bitmap i = false) ∧
        group1 =
          { gd := { group.gd with
                    bg_bitmap := set_group_bits group.gd.bg_bitmap sb count
                    bg_free_bits_count := u16_sub group.gd.bg_free_bits_count count }
            alloc_inode := { group.alloc_inode with
                             bi := { group.alloc_inode.bi with
                                     used_bits := u32 (group.alloc_inode.bi.used_bits + count) } } } := by
  intro fuel
  induction fuel with
  | zero => intro start_bit group1 start_blkno num_bits _ h; cases h
  | succ fuel ih =>
    intro start_bit group1 start_blkno num_bits hle h
    obtain ⟨a, b, c, _⟩ :=
      ocfs2_find_next_bit_set_spec group.gd.bg_bitmap group.gd.bg_bits start_bit hle
    have hu : u16 (ocfs2_find_next_bit_set group.gd.bg_bitmap group.gd.bg_bits start_bit) =
        ocfs2_find_next_bit_set group.gd.bg_bitmap group.gd.bg_bits start_bit :=
      Nat.mod_eq_of_lt (by omega)
    simp only [alloc_from_group_loop, hu] at h
    split_ifs at h with h1 h2
    · simp only [Outcome.returned.injEq, Prod.mk.injEq] at h
      refine ⟨start_bit, by omega, ?_, h.1.symm⟩
      intro i hi1 hi2
      exact c i hi1 (by omega)
    · exact ih _ group1 start_blkno num_bits b h

/-- The invariant in the strengthened form that the calls preserve. -/
theorem group_inv_step (group group1 : AllocGroup) (fuel count start_blkno num_bits : Nat)
    (hcount : count < 65536) (h16 : group.gd.bg_bits < 65536)
    (htotal : group.alloc_inode.bi.total_bits = group.gd.bg_bits) (hinv : GroupInv group)
    (hret : alloc_from_group fuel count group =
      Outcome.returned (group1, start_blkno, num_bits)) :
    group1.gd.bg_bits < 65536 ∧ group1.alloc_inode.bi.total_bits = group1.gd.bg_bits ∧
      GroupInv group1 := by
  obtain ⟨hbit0, hfree, hsum⟩ := hinv
  have hfirst := ocfs2_find_next_bit_clear_spec group.gd.bg_bitmap group.gd.bg_bits 0
    (Nat.zero_le _)
  have hstart : u16 (ocfs2_find_first_bit_clear group.gd.bg_bitmap group.gd.bg_bits) ≤
      group.gd.bg_bits := by
    simp only [ocfs2_find_first_bit_clear, u16]
    have := hfirst.2.1
    omega
  obtain ⟨sb, hfit, hclear, hg1⟩ :=
    alloc_from_group_loop_returned group count h16 fuel _ group1 start_blkno num_bits hstart hret
  have hnew := fun i => set_group_bits_spec group.gd.bg_bitmap sb count i
  have hpop := popcount_add_run group.gd.bg_bitmap (set_group_bits group.gd.bg_bitmap sb count)
    sb count hclear hnew group.gd.bg_bits
  have hple := popcount_le (set_group_bits group.gd.bg_bitmap sb count) group.gd.bg_bits
  have hple0 := popcount_le group.gd.bg_bitmap group.gd.bg_bits
  have hpop1 : popcount (set_group_bits group.gd.bg_bitmap sb count) group.gd.bg_bits =
      popcount group.gd.bg_bitmap group.gd.bg_bits + count := by
    split_ifs at hpop <;> omega
  subst hg1
  refine ⟨h16, htotal, ?_, ?_, ?_⟩
  · simp only [ocfs2_test_bit] at hbit0 ⊢
    exact (hnew 0).2 (Or.inl hbit0)
  · simp only [u16_sub]
    rw [hpop1]
    omega
  · simp only [u16_sub, u32]
    omega

/-- The group that `initialize_alloc_group` returns for `1 <= cpg * bpc < 2^16`
satisfies the invariant, has fewer than `2^16` bits, and as many as the owning
record counts in total. -/
theorem group_inv_initial (s : State) (ocfs2_group_bitmap_size : Nat → Nat)
    (alloc_inode : SystemFileDiskRecord) (blkno chain cpg bpc : Nat)
    (hpos : 1 ≤ cpg * bpc) (hfit : cpg * bpc < 65536) :
    (initialize_alloc_group s ocfs2_group_bitmap_size alloc_inode blkno chain cpg
        bpc).gd.bg_bits < 65536 ∧
      (initialize_alloc_group s ocfs2_group_bitmap_size alloc_inode blkno chain cpg
        bpc).alloc_inode.bi.total_bits =
        (initialize_alloc_group s ocfs2_group_bitmap_size alloc_inode blkno chain cpg
          bpc).gd.bg_bits ∧
      GroupInv (initialize_alloc_group s ocfs2_group_bitmap_size alloc_inode blkno chain cpg
        bpc) := by
  have hpop : ∀ n, popcount (ocfs2_set_bit 0 (fun _ => false)) n = if n = 0 then 0 else 1 := by
    intro n
    have := popcount_add_run (fun _ => false) (ocfs2_set_bit 0 (fun _ => false)) 0 1
      (fun _ _ _ => rfl)
      (by
        intro i
        simp only [ocfs2_set_bit]
        by_cases hi : i = 0
        · simp [hi]
        · simp only [hi, if_false, Bool.false_eq_true, false_or, false_iff]
          omega) n
    rw [this, popcount_clear]
    split_ifs <;> omega
  simp only [GroupInv, initialize_alloc_group, ocfs2_test_bit, hpop, u16, u16_sub, u32_sub]
  generalize cpg * bpc = n at hpos hfit
  refine ⟨by omega, trivial, by simp [ocfs2_set_bit], ?_, ?_⟩
  · split_ifs <;> omega
  · omega

/-- C19 (as amended): for `1 <= cpg * bpc < 2^16`, in every group reached from
the one that `initialize_alloc_group` returns by calls of `alloc_from_group`
that return, bit 0 of the bitmap is set, `bg_free_bits_count` is `bg_bits` less
the number of set bits among the first `bg_bits`, and the owning record has
`bi.used_bits + bg_free_bits_count = bi.total_bits`. -/
theorem alloc_group_invariant (s : State) (ocfs2_group_bitmap_size : Nat → Nat)
    (alloc_inode : SystemFileDiskRecord) (blkno chain cpg bpc : Nat)
    (hpos : 1 ≤ cpg * bpc) (hfit : cpg * bpc < 65536) (group : AllocGroup)
    (hreach : GroupReachable
      (initialize_alloc_group s ocfs2_group_bitmap_size alloc_inode blkno chain cpg bpc)
      group) :
    GroupInv group := by
  have hall : group.gd.bg_bits < 65536 ∧
      group.alloc_inode.bi.total_bits = group.gd.bg_bits ∧ GroupInv group := by
    induction hreach with
    | start =>
      exact group_inv_initial s ocfs2_group_bitmap_size alloc_inode blkno chain cpg bpc hpos hfit
    | call g g1 fuel count start_blkno num_bits _ hcount hret ih =>
      exact group_inv_step g g1 fuel count start_blkno num_bits hcount ih.1 ih.2.1 ih.2.2 hret
  exact hall.2.2

/-- A group of 8 bits after a call for 3 bits and a call for 2 bits: the calls
return the blocks 4 and 7 behind the descriptor block 3, and the group keeps
its invariant. -/
theorem alloc_group_invariant_witness :
    ∃ g1 g2,
      alloc_from_group 2 3
          (initialize_alloc_group scenario_state scenario_group_bitmap_size zero_record 3 0 8 1) =
        Outcome.returned (g1, 4, 3) ∧
      alloc_from_group 2 2 g1 = Outcome.returned (g2, 7, 2) ∧ GroupInv g2 ∧
      g2.gd.bg_free_bits_count = 2 := by
  refine ⟨_, _, rfl, rfl, ?_, rfl⟩
  exact alloc_group_invariant scenario_state scenario_group_bitmap_size zero_record 3 0 8 1
    (by decide) (by decide) _
    (GroupReachable.call _ _ 2 2 7 2
      (GroupReachable.call _ _ 2 3 4 3 GroupReachable.start (by decide) rfl) (by decide) rfl)

/-- C19 (counterexample): with `cpg = bpc = 256` the group that
`initialize_alloc_group` returns, reached by no call at all, has `bg_bits = 0`
and `bg_free_bits_count = 65535`, not `bg_bits` less the number of set bits,
which is 0; and `bi.used_bits + bg_free_bits_count` is `2^32`, not
`bi.total_bits = 0`. -/
theorem alloc_group_invariant_counterexample :
    (initialize_alloc_group scenario_state scenario_group_bitmap_size zero_record 3 0 256
        256).gd.bg_free_bits_count = 65535 ∧
      (initialize_alloc_group scenario_state scenario_group_bitmap_size zero_record 3 0 256
          256).gd.bg_bits -
        popcount
          (initialize_alloc_group scenario_state scenario_group_bitmap_size zero_record 3 0 256
            256).gd.bg_bitmap
          (initialize_alloc_group scenario_state scenario_group_bitmap_size zero_record 3 0 256
            256).gd.bg_bits = 0 ∧
      (initialize_alloc_group scenario_state scenario_group_bitmap_size zero_record 3 0 256
          256).alloc_inode.bi.used_bits +
        (initialize_alloc_group scenario_state scenario_group_bitmap_size zero_record 3 0 256
          256).gd.bg_free_bits_count = 4294967296 ∧
      (initialize_alloc_group scenario_state scenario_group_bitmap_size zero_record 3 0 256
        256).alloc_inode.bi.total_bits = 0 ∧
      ¬ GroupInv
        (initialize_alloc_group scenario_state scenario_group_bitmap_size zero_record 3 0 256
          256) := by
  refine ⟨by decide, by decide, by decide, by decide, ?_⟩
  rintro ⟨_, h, _⟩
  revert h
  decide

/-! ## `system_dir_blocks_needed` -/

/-- What `system_dir_blocks_needed` returns when clusters are blocks, a block
holds at least two of the longest entries, and nothing wraps: the number of
blocks needed plus the number of entries in a block. -/
theorem system_dir_blocks_needed_same_size (c : MkfsH) (s : State)
    (hb : s.blocksize_bits < 32) (hbs : s.blocksize = 2 ^ s.blocksize_bits)
    (hcs : s.cluster_size = s.blocksize) (hcb : s.cluster_size_bits = s.blocksize_bits)
    (he : 2 ≤ s.blocksize / OCFS2_DIR_REC_LEN c.SYSTEM_FILE_NAME_MAX)
    (hfit : (blocks_needed c s + s.blocksize / OCFS2_DIR_REC_LEN c.SYSTEM_FILE_NAME_MAX + 1) *
      s.blocksize ≤ 4294967296) :
    system_dir_blocks_needed c s =
      Except.ok (blocks_needed c s + s.blocksize / OCFS2_DIR_REC_LEN c.SYSTEM_FILE_NAME_MAX) := by
  simp only [system_dir_blocks_needed]
  rw [if_neg (by omega), hcs, hcb]
  have hp : 0 < (2 : Nat) ^ s.blocksize_bits := by positivity
  rw [hbs] at he hfit ⊢
  generalize (2 : Nat) ^ s.blocksize_bits = p at he hfit hp
  generalize hN : blocks_needed c s = N at hfit
  generalize p / OCFS2_DIR_REC_LEN c.SYSTEM_FILE_NAME_MAX = e at he hfit
  have h1e : 1 / e = 0 := Nat.div_eq_of_lt (by omega)
  have hmul : (N + e + 1) * p = (N + e) * p + p := by ring
  have hNe : N + e ≤ (N + e) * p := Nat.le_mul_of_pos_right _ hp
  have e1 : u32 (N + e + 4294967296 - 1 / e) = N + e := by
    rw [h1e]
    simp only [u32]
    omega
  have e2 : u32 ((N + e) * p) = (N + e) * p := Nat.mod_eq_of_lt (by omega)
  have e3 : u32 ((N + e) * p + p + 4294967295) = (N + e) * p + (p - 1) := by
    simp only [u32]
    omega
  rw [e1, e2, e3, Nat.mul_comm (N + e) p, Nat.mul_add_div hp, Nat.div_eq_of_lt (by omega)]
  rfl

/-- C20 (failing input): with blocks and clusters of 4096 bytes and two nodes,
`blocks_needed` is 125 for the example constants and a block holds 78 entries,
so the rounded-up block count `(125 + 78 - 1) / 78` is 2, which takes 2
clusters; `system_dir_blocks_needed` returns 203, the sum `125 + 78`: the
quotient `1 / 78 = 0` is what the source subtracts. -/
theorem system_dir_blocks_needed_anomaly :
    blocks_needed scenario_mkfs_h scenario_state = 125 ∧
      scenario_state.blocksize / OCFS2_DIR_REC_LEN scenario_mkfs_h.SYSTEM_FILE_NAME_MAX = 78 ∧
      ((125 + 78 - 1) / 78 * scenario_state.blocksize + scenario_state.cluster_size - 1) /
        scenario_state.cluster_size = 2 ∧
      system_dir_blocks_needed scenario_mkfs_h scenario_state = Except.ok 203 := by
  decide

/-! ## `adjust_volume_size` -/

/-- C21 (as amended): for every state whose bit counts are below 32, whose
volume holds at least the `MIN_RESERVED_TAIL_BLOCKS << blocksize_bits` bytes of
the reserved tail and has fewer than `2^32` clusters, `adjust_volume_size`
returns; afterwards `volume_size_in_bytes` is a multiple of `2^max` for the
largest of the three bit counts, `volume_size_in_clusters` and
`volume_size_in_blocks` are that size shifted by `cluster_size_bits` and by
`blocksize_bits`, and `reserved_tail_size` is what was cut off: it adds up with
the new size to the old size and is at least the minimum. -/
theorem adjust_volume_size_aligned (c : MkfsH) (s : State)
    (hp : s.pagesize_bits < 32) (hb : s.blocksize_bits < 32) (hc : s.cluster_size_bits < 32)
    (hres : c.MIN_RESERVED_TAIL_BLOCKS * 2 ^ s.blocksize_bits < 2147483648)
    (hge : c.MIN_RESERVED_TAIL_BLOCKS * 2 ^ s.blocksize_bits ≤ s.volume_size_in_bytes)
    (h64 : s.volume_size_in_bytes < 18446744073709551616)
    (hcl : s.volume_size_in_bytes / 2 ^ s.cluster_size_bits < 4294967296) :
    ∃ s1, adjust_volume_size c s = Except.ok s1 ∧
      2 ^ (max (max s.pagesize_bits s.blocksize_bits) s.cluster_size_bits) ∣
        s1.volume_size_in_bytes ∧
      s1.volume_size_in_clusters = s1.volume_size_in_bytes / 2 ^ s1.cluster_size_bits ∧
      s1.volume_size_in_blocks = s1.volume_size_in_bytes / 2 ^ s1.blocksize_bits ∧
      s1.reserved_tail_size + s1.volume_size_in_bytes = s.volume_size_in_bytes ∧
      c.MIN_RESERVED_TAIL_BLOCKS * 2 ^ s.blocksize_bits ≤ s1.reserved_tail_size := by
  have hmax0 : (if s.pagesize_bits > s.blocksize_bits then s.pagesize_bits
      else s.blocksize_bits) = max s.pagesize_bits s.blocksize_bits := by
    split_ifs <;> omega
  have hmax1 : (if max s.pagesize_bits s.blocksize_bits > s.cluster_size_bits then
      max s.pagesize_bits s.blocksize_bits else s.cluster_size_bits) =
        max (max s.pagesize_bits s.blocksize_bits) s.cluster_size_bits := by
    split_ifs <;> omega
  have hm : max (max s.pagesize_bits s.blocksize_bits) s.cluster_size_bits < 32 := by omega
  simp only [adjust_volume_size, hmax0, hmax1]
  rw [if_neg (by omega), if_neg (by omega)]
  generalize max (max s.pagesize_bits s.blocksize_bits) s.cluster_size_bits = m at hm
  generalize c.MIN_RESERVED_TAIL_BLOCKS * 2 ^ s.blocksize_bits = R at hres hge
  generalize hV : s.volume_size_in_bytes = V at hge h64 hcl
  have e0 : u64 (V + 18446744073709551616 - R) = V - R := by
    simp only [u64]
    omega
  have hle : (V - R) / 2 ^ m * 2 ^ m ≤ V - R := Nat.div_mul_le_self _ _
  have e1 : u64 ((V - R) / 2 ^ m * 2 ^ m) = (V - R) / 2 ^ m * 2 ^ m :=
    Nat.mod_eq_of_lt (by omega)
  rw [e0, e1]
  generalize hvs : (V - R) / 2 ^ m * 2 ^ m = vsize at hle
  have hcl1 : vsize / 2 ^ s.cluster_size_bits < 4294967296 :=
    lt_of_le_of_lt (Nat.div_le_div_right (by omega)) hcl
  refine ⟨_, rfl, ?_, ?_, rfl, ?_, ?_⟩
  · rw [← hvs]
    exact Nat.dvd_mul_left _ _
  · exact Nat.mod_eq_of_lt hcl1
  · simp only [u64]
    omega
  · simp only [u64]
    omega

/-- The volume of 100 MiB with blocks, clusters and pages of 4096 bytes and a
reserved tail of 8 blocks: 25592 blocks and clusters remain. -/
theorem adjust_volume_size_aligned_witness :
    ∃ s1, adjust_volume_size scenario_mkfs_h scenario_state = Except.ok s1 ∧
      s1.volume_size_in_bytes = 104824832 ∧ s1.volume_size_in_clusters = 25592 ∧
      s1.reserved_tail_size = 32768 ∧
      s1.volume_size_in_clusters = s1.volume_size_in_bytes / 2 ^ s1.cluster_size_bits := by
  obtain ⟨s1, h1, _, h3, _, _, _⟩ :=
    adjust_volume_size_aligned scenario_mkfs_h scenario_state (by decide) (by decide)
      (by decide) (by decide) (by decide) (by decide) (by decide)
  have h0 : adjust_volume_size scenario_mkfs_h scenario_state =
      Except.ok
        { scenario_state with
          volume_size_in_bytes := 104824832, volume_size_in_clusters := 25592,
          volume_size_in_blocks := 25592, reserved_tail_size := 32768 } := by
    decide
  rw [h0] at h1
  simp only [Except.ok.injEq] at h1
  subst h1
  exact ⟨_, h0, rfl, rfl, rfl, h3⟩

/-- C21 (counterexample): a volume of `2^45` bytes with blocks and clusters of
4096 bytes is left with `2^45 - 32768` bytes, which are 8589934584 clusters;
the 32-bit field `volume_size_in_clusters` holds 4294967288. -/
theorem adjust_volume_size_aligned_counterexample :
    adjust_volume_size scenario_mkfs_h
        { scenario_state with volume_size_in_bytes := 35184372088832 } =
      Except.ok
        { scenario_state with
          volume_size_in_bytes := 35184372056064, volume_size_in_clusters := 4294967288,
          volume_size_in_blocks := 8589934584, reserved_tail_size := 32768 } ∧
    35184372056064 / 2 ^ scenario_state.cluster_size_bits = 8589934584 ∧
    scenario_mkfs_h.MIN_RESERVED_TAIL_BLOCKS * 2 ^ scenario_state.blocksize_bits ≤
      35184372088832 := by
  decide

/-! ## `initialize_bitmap` -/

/-- What `initialize_bitmap` stores in the two records, for a unit size below
`2^32`: the bitmap record gets the counters and the length of its extent, the
allocation record gets `bits << unit_bits` as a 32-bit value, which is the
number of bytes that the bitmap covers as long as that number is below
`2^32`. -/
theorem initialize_bitmap_records (bits unit_bits : Nat)
    (bm_record alloc_record : SystemFileDiskRecord) (hub : unit_bits < 32) :
    ∃ bitmap, initialize_bitmap bits unit_bits bm_record alloc_record = some bitmap ∧
      bitmap.bm_record.bi.used_bits = 0 ∧ bitmap.bm_record.bi.total_bits = bits ∧
      bitmap.bm_record.file_size = bm_record.extent_len ∧
      bitmap.alloc_record.file_size = bits * 2 ^ unit_bits % 4294967296 ∧
      (bits * 2 ^ unit_bits < 4294967296 →
        bitmap.alloc_record.file_size = bits * 2 ^ unit_bits) := by
  simp only [initialize_bitmap, if_pos hub]
  exact ⟨_, rfl, rfl, rfl, rfl, rfl, fun h => Nat.mod_eq_of_lt h⟩

/-- C23 (failing input): the bitmap of `2^20` clusters of `2^12` bytes covers
`2^32` bytes, but `initialize_bitmap` leaves 0 in the `file_size` of the
allocation record: `bits << unit_bits` is a shift of a `uint32_t`.  The bitmap
record is set as stated. -/
theorem initialize_bitmap_file_size_wraps :
    ∃ bitmap, initialize_bitmap 1048576 12 { zero_record with extent_len := 131072 }
        zero_record = some bitmap ∧
      bitmap.alloc_record.file_size = 0 ∧ 1048576 * 2 ^ 12 = 4294967296 ∧
      bitmap.bm_record.bi.used_bits = 0 ∧ bitmap.bm_record.bi.total_bits = 1048576 ∧
      bitmap.bm_record.file_size = 131072 :=
  ⟨_, rfl, by decide, by decide, rfl, rfl, rfl⟩

/-! ## Directories: the entries -/

theorem store_bytes_data_of_ge (buf : ByteBuf) (off : Nat) (bytes : List Nat) (i : Nat)
    (h : off + bytes.length ≤ i) : (store_bytes buf off bytes).data i = buf.data i := by
  simp only [store_bytes]
  rw [if_neg (by omega)]

theorem store_bytes_data_in (buf : ByteBuf) (off : Nat) (bytes : List Nat) (i : Nat)
    (h1 : off ≤ i) (h2 : i < off + bytes.length) :
    (store_bytes buf off bytes).data i = bytes.getD (i - off) 0 := by
  simp only [store_bytes]
  rw [if_pos ⟨h1, h2⟩]

/-- The bytes read from a buffer are the given ones when every address holds
the byte of the list. -/
theorem load_bytes_eq (buf : ByteBuf) (off : Nat) (l : List Nat)
    (h : ∀ j, j < l.length → buf.data (off + j) = l.getD j 0) :
    load_bytes buf off l.length = l := by
  apply List.ext_getElem
  · simp [load_bytes]
  · intro j h1 h2
    simp only [load_bytes, List.getElem_map, List.getElem_range]
    rw [h j h2]
    simp [List.getD_eq_getElem?_getD, h2]

/-- Reading bytes depends on the bytes read only. -/
theorem load_bytes_congr (buf buf1 : ByteBuf) (off n : Nat)
    (h : ∀ j, j < n → buf1.data (off + j) = buf.data (off + j)) :
    load_bytes buf1 off n = load_bytes buf off n := by
  simp only [load_bytes]
  apply List.map_congr_left
  intro j hj
  exact h j (List.mem_range.1 hj)

/-- An entry read at `off` depends on its header without the `rec_len` field
and on the bytes of its name only. -/
theorem read_entry_congr (buf buf1 : ByteBuf) (off : Nat)
    (h : ∀ i, off ≤ i → i < off + 12 + buf.data (off + DE_NAME_LEN) → i ≠ off + 8 →
      i ≠ off + 9 → buf1.data i = buf.data i) :
    read_entry buf1 off = read_entry buf off := by
  have hlen : buf1.data (off + DE_NAME_LEN) = buf.data (off + DE_NAME_LEN) := by
    simp only [DE_NAME_LEN] at h ⊢
    exact h _ (by omega) (by omega) (by omega) (by omega)
  have htype : buf1.data (off + DE_FILE_TYPE) = buf.data (off + DE_FILE_TYPE) := by
    simp only [DE_NAME_LEN, DE_FILE_TYPE] at h ⊢
    exact h _ (by omega) (by omega) (by omega) (by omega)
  have hino : load_le64 buf1 (off + DE_INODE) = load_le64 buf (off + DE_INODE) := by
    simp only [load_le64]
    rw [load_bytes_congr buf buf1 (off + DE_INODE) 8 (by
      intro j hj
      simp only [DE_INODE, DE_NAME_LEN] at h ⊢
      exact h _ (by omega) (by omega) (by omega) (by omega))]
  have hname : load_bytes buf1 (off + DE_NAME) (buf.data (off + DE_NAME_LEN)) =
      load_bytes buf (off + DE_NAME) (buf.data (off + DE_NAME_LEN)) := by
    refine load_bytes_congr buf buf1 _ _ ?_
    intro j hj
    simp only [DE_NAME, DE_NAME_LEN] at h hj ⊢
    exact h _ (by omega) (by omega) (by omega) (by omega)
  simp only [read_entry, hlen, htype, hino, hname]

/-- The entry that `fill_entry` leaves at `de`, read back. -/
theorem read_entry_fill_entry (s : State) (buf : ByteBuf) (de : Nat) (name : List Nat)
    (byte_off type : Nat) (hlen : name.length < 256) (hoff : byte_off < 18446744073709551616)
    (htype : type < 256) :
    read_entry (fill_entry s buf de name byte_off type) de =
      entry_of_call s (name, byte_off, type) := by
  have hu : u64 byte_off = byte_off := Nat.mod_eq_of_lt hoff
  have hv : byte_off / 2 ^ s.blocksize_bits < 18446744073709551616 :=
    lt_of_le_of_lt (Nat.div_le_self _ _) hoff
  have h10 : (fill_entry s buf de name byte_off type).data (de + DE_NAME_LEN) = name.length := by
    simp only [fill_entry, DE_NAME_LEN, DE_NAME, DE_FILE_TYPE, DE_INODE]
    rw [store_bytes_data_of_lt _ _ _ _ (by omega), store_bytes_data_of_lt _ _ _ _ (by omega),
      store_bytes_data_of_ge _ _ _ _ (by simp [cpu_to_le64]),
      store_bytes_data_in _ _ _ _ (le_refl _) (by simp)]
    simp only [Nat.sub_self, List.getD_cons_zero]
    exact Nat.mod_eq_of_lt hlen
  have h11 : (fill_entry s buf de name byte_off type).data (de + DE_FILE_TYPE) = type := by
    simp only [fill_entry, DE_NAME_LEN, DE_NAME, DE_FILE_TYPE, DE_INODE]
    rw [store_bytes_data_of_lt _ _ _ _ (by omega),
      store_bytes_data_in _ _ _ _ (le_refl _) (by simp)]
    simp only [Nat.sub_self, List.getD_cons_zero]
    exact Nat.mod_eq_of_lt htype
  have hino : load_le64 (fill_entry s buf de name byte_off type) (de + DE_INODE) =
      byte_off / 2 ^ s.blocksize_bits := by
    simp only [load_le64]
    have h8 : (cpu_to_le64 (u64 byte_off / 2 ^ s.blocksize_bits)).length = 8 := rfl
    have hb : load_bytes (fill_entry s buf de name byte_off type) (de + DE_INODE) 8 =
        cpu_to_le64 (u64 byte_off / 2 ^ s.blocksize_bits) := by
      rw [← h8]
      refine load_bytes_eq _ _ _ ?_
      intro j hj
      rw [h8] at hj
      simp only [fill_entry, DE_NAME_LEN, DE_NAME, DE_FILE_TYPE, DE_INODE]
      rw [store_bytes_data_of_lt _ _ _ _ (by omega), store_bytes_data_of_lt _ _ _ _ (by omega),
        store_bytes_data_in _ _ _ _ (by omega) (by rw [h8]; omega)]
      congr 1
      omega
    rw [hb, le64_to_cpu_cpu_to_le64, hu]
    exact Nat.mod_eq_of_lt hv
  have hname : load_bytes (fill_entry s buf de name byte_off type) (de + DE_NAME) name.length =
      name := by
    refine load_bytes_eq _ _ _ ?_
    intro j hj
    simp only [fill_entry, DE_NAME_LEN, DE_NAME, DE_FILE_TYPE, DE_INODE]
    rw [store_bytes_data_in _ _ _ _ (by omega) (by simp; omega)]
    have e : de + 12 + j - (de + 12) = j := by omega
    rw [e]
    simp [List.getD_eq_getElem?_getD, List.getElem?_append_left hj]
  simp only [read_entry, entry_of_call, h10, h11, hino, hname]

theorem tiles_e_le {buf : ByteBuf} : ∀ {l : List (Nat × DirEntry)} {a b : Nat},
    TilesE buf a l b → a + 12 * l.length ≤ b := by
  intro l
  induction l with
  | nil => intro a b h; simp only [TilesE] at h; simp [h]
  | cons re l ih =>
    intro a b h
    simp only [TilesE] at h
    have := ih h.2.2.2
    simp only [List.length_cons]
    omega

/-- A buffer that agrees below `b` with a buffer tiled up to `b` holds the
same entries. -/
theorem tiles_e_frame {buf buf1 : ByteBuf} : ∀ {l : List (Nat × DirEntry)} {a b : Nat},
    (∀ i, i < b → buf1.data i = buf.data i) → TilesE buf a l b → TilesE buf1 a l b := by
  intro l
  induction l with
  | nil => intro a b _ h; exact h
  | cons re l ih =>
    intro a b hsame h
    simp only [TilesE] at h ⊢
    obtain ⟨hr, hroom, hread, hrest⟩ := h
    have hle := tiles_e_le hrest
    refine ⟨?_, hroom, ?_, ih hsame hrest⟩
    · rw [← hr]
      apply load_le16_congr
      intro i hi
      simp only [DE_REC_LEN] at hi
      exact hsame i (by omega)
    · rw [← hread]
      apply read_entry_congr
      intro i h1 h2 _ _
      have hnl : buf.data (a + DE_NAME_LEN) = re.2.name_len := by
        rw [← hread]
        rfl
      rw [hnl] at h2
      exact hsame i (by omega)

theorem tiles_e_append {buf : ByteBuf} : ∀ {l1 l2 : List (Nat × DirEntry)} {a b c : Nat},
    TilesE buf a l1 b → TilesE buf b l2 c → TilesE buf a (l1 ++ l2) c := by
  intro l1
  induction l1 with
  | nil => intro l2 a b c h1 h2; simp only [TilesE] at h1; subst h1; exact h2
  | cons re l1 ih =>
    intro l2 a b c h1 h2
    simp only [TilesE, List.cons_append] at h1 ⊢
    exact ⟨h1.1, h1.2.1, h1.2.2.1, ih h1.2.2.2 h2⟩

theorem blocks_tile_e_frame {buf buf1 : ByteBuf} {bs : Nat} :
    ∀ {blocks : List (List (Nat × DirEntry))} {a : Nat},
    (∀ i, i < a + blocks.length * bs → buf1.data i = buf.data i) →
    BlocksTileE buf bs a blocks → BlocksTileE buf1 bs a blocks := by
  intro blocks
  induction blocks with
  | nil => intro a _ _; trivial
  | cons l blocks ih =>
    intro a hsame h
    simp only [BlocksTileE] at h ⊢
    simp only [List.length_cons, Nat.succ_mul] at hsame
    refine ⟨h.1, tiles_e_frame (fun i hi => hsame i (by omega)) h.2.1, ih ?_ h.2.2⟩
    intro i hi
    exact hsame i (by omega)

theorem blocks_tile_e_snoc {buf : ByteBuf} {bs : Nat} :
    ∀ {blocks : List (List (Nat × DirEntry))} {a : Nat} {l : List (Nat × DirEntry)},
    BlocksTileE buf bs a blocks → l ≠ [] →
    TilesE buf (a + blocks.length * bs) l (a + blocks.length * bs + bs) →
    BlocksTileE buf bs a (blocks ++ [l]) := by
  intro blocks
  induction blocks with
  | nil =>
    intro a l _ hl h
    simp only [List.length_nil, Nat.zero_mul, Nat.add_zero] at h
    simp only [List.nil_append, BlocksTileE]
    exact ⟨hl, h, trivial⟩
  | cons l0 blocks ih =>
    intro a l h hl ht
    simp only [BlocksTileE, List.cons_append] at h ⊢
    refine ⟨h.1, h.2.1, ih h.2.2 hl ?_⟩
    simp only [List.length_cons, Nat.succ_mul] at ht
    have e : a + bs + blocks.length * bs = a + (blocks.length * bs + bs) := by omega
    rw [e]
    exact ht

/-- A tiled stretch is what the walk by `rec_len` finds, entry by entry. -/
theorem walk_entries_of_tiles {buf : ByteBuf} :
    ∀ {l : List (Nat × DirEntry)} {a b : Nat} (fuel : Nat),
    TilesE buf a l b → l ≠ [] → l.length ≤ fuel →
    walk_entries buf b fuel a = some (l.map Prod.snd) := by
  intro l
  induction l with
  | nil => intro a b fuel _ h; exact absurd rfl h
  | cons re l ih =>
    intro a b fuel h _ hfuel
    simp only [TilesE] at h
    obtain ⟨hr, hroom, hread, hrest⟩ := h
    cases fuel with
    | zero => simp at hfuel
    | succ fuel =>
      simp only [walk_entries, hr, hread]
      rw [if_neg (by omega)]
      cases l with
      | nil =>
        simp only [TilesE] at hrest
        rw [if_pos hrest]
        rfl
      | cons re2 l2 =>
        have hle := tiles_e_le hrest
        simp only [List.length_cons] at hle hfuel
        rw [if_neg (by omega), if_pos (by omega)]
        rw [ih fuel hrest (by simp) (by simp only [List.length_cons]; omega)]
        rfl

theorem walk_dir_entries_of_blocks {buf : ByteBuf} {bs : Nat} :
    ∀ {blocks : List (List (Nat × DirEntry))} {a : Nat}, BlocksTileE buf bs a blocks →
    walk_dir_entries buf bs blocks.length a = some (blocks.flatten.map Prod.snd) := by
  intro blocks
  induction blocks with
  | nil => intro a _; rfl
  | cons l blocks ih =>
    intro a h
    simp only [BlocksTileE] at h
    have hlen := tiles_e_le h.2.1
    simp only [List.length_cons, walk_dir_entries]
    rw [walk_entries_of_tiles bs h.2.1 h.1 (by omega), ih h.2.2]
    simp

theorem OCFS2_DIR_REC_LEN_room (n : Nat) : 12 + n ≤ OCFS2_DIR_REC_LEN n := by
  simp only [OCFS2_DIR_REC_LEN]
  omega

theorem OCFS2_DIR_REC_LEN_le (n : Nat) (h : n ≤ 255) : OCFS2_DIR_REC_LEN n ≤ 268 := by
  simp only [OCFS2_DIR_REC_LEN]
  omega

/-- The first call of `add_entry_to_directory` on an empty directory leaves
one block with the entry of the call at its start. -/
theorem add_entry_to_directory_holds_first (s : State) (dir : DirData) (name : List Nat)
    (byte_off type : Nat) (hbuf : dir.buf = none) (h512 : 512 ≤ s.blocksize)
    (h16 : s.blocksize < 65536) (hlen : name.length ≤ 255)
    (hoff : byte_off < 18446744073709551616) (hino : byte_off / 2 ^ s.blocksize_bits ≠ 0)
    (htype : type < 256) :
    ∃ dir1, add_entry_to_directory s dir name byte_off type = some dir1 ∧
      DirHolds s.blocksize dir1 [] [] (entry_of_call s (name, byte_off, type)) := by
  obtain ⟨b, hgrow, hbsize, hbrec⟩ := grow_directory_first s dir hbuf h16
  have hfs : find_slack dir (OCFS2_DIR_REC_LEN name.length) = none := by
    unfold find_slack; rw [hbuf]
  have hnrl := OCFS2_DIR_REC_LEN_le name.length hlen
  unfold add_entry_to_directory
  simp only [hfs, hgrow]
  refine ⟨_, rfl, fill_entry s b 0 name byte_off type, rfl, ?_, ?_, ?_, trivial, ?_, ?_, ?_,
    ?_, ?_, ?_⟩
  all_goals try dsimp only
  · rfl
  · simp only [fill_entry_size, hbsize, List.length_nil, Nat.zero_mul, Nat.zero_add]
  · simp only [fill_entry_size, hbsize]; omega
  · simp only [List.length_nil, Nat.zero_mul, TilesE]
  · rw [fill_entry_rec_len, hbrec, fill_entry_size, hbsize]; rfl
  · exact read_entry_fill_entry s b 0 name byte_off type (by omega) hoff htype
  · exact hino
  · simp only [fill_entry_size, hbsize, entry_of_call]; omega
  · simp only [fill_entry_size, hbsize]; omega

/-- A call of `add_entry_to_directory` that returns, on a directory whose last
entry has an inode other than 0: the entries that were there stay as they are,
the last one is closed with the `rec_len` of its own length (or, when the
directory grows, with the rest of its block), and the entry of the call is the
new last entry. -/
theorem add_entry_to_directory_holds (s : State) (dir dir1 : DirData) (name : List Nat)
    (byte_off type : Nat) (closed : List (List (Nat × DirEntry)))
    (open_entries : List (Nat × DirEntry)) (last : DirEntry)
    (h512 : 512 ≤ s.blocksize) (h16 : s.blocksize < 65536) (hlen : name.length ≤ 255)
    (hoff : byte_off < 18446744073709551616) (hino : byte_off / 2 ^ s.blocksize_bits ≠ 0)
    (htype : type < 256) (hinv : DirHolds s.blocksize dir closed open_entries last)
    (hret : add_entry_to_directory s dir name byte_off type = some dir1) :
    ∃ closed1 open1, DirHolds s.blocksize dir1 closed1 open1
        (entry_of_call s (name, byte_off, type)) ∧
      (closed1.flatten ++ open1).map Prod.snd =
        (closed.flatten ++ open_entries).map Prod.snd ++ [last] := by
  obtain ⟨buf, hbuf, hsize, hsz, hlt31, hblocks, htiles, hrec, hread, hlastino, hroom, hlast⟩ :=
    hinv
  have hle := tiles_e_le htiles
  have hnl : buf.data (dir.last_off + DE_NAME_LEN) = last.name_len := by
    rw [← hread]; rfl
  have hinode : load_le64 buf (dir.last_off + DE_INODE) ≠ 0 := by
    have : load_le64 buf (dir.last_off + DE_INODE) = last.inode := by rw [← hread]; rfl
    rw [this]; exact hlastino
  have hnrl268 := OCFS2_DIR_REC_LEN_le name.length hlen
  have hnrlroom := OCFS2_DIR_REC_LEN_room name.length
  have hrealroom := OCFS2_DIR_REC_LEN_room last.name_len
  unfold add_entry_to_directory at hret
  dsimp only at hret
  rw [find_slack_eq dir buf _ hbuf, hnl] at hret
  generalize hreal : OCFS2_DIR_REC_LEN last.name_len = real at hret hroom hrealroom
  generalize hnrl : OCFS2_DIR_REC_LEN name.length = nrl at hret hnrl268 hnrlroom
  by_cases hcond : (load_le64 buf (dir.last_off + DE_INODE) = 0 ∧
      load_le16 buf (dir.last_off + DE_REC_LEN) ≥ nrl) ∨
      load_le16 buf (dir.last_off + DE_REC_LEN) ≥ real + nrl
  · -- the entry at `last_off` is cut down to its own length; the rest is the new entry
    rw [if_pos hcond] at hret
    have hfit : load_le16 buf (dir.last_off + DE_REC_LEN) ≥ real + nrl := by
      rcases hcond with h | h
      · exact absurd h.1 hinode
      · exact h
    rw [if_pos hinode] at hret
    simp only [Option.some.injEq] at hret
    subst hret
    rw [hrec] at hfit
    have hu1 : u16 (load_le16 buf (dir.last_off + DE_REC_LEN) + 65536 - real)
        = buf.size - dir.last_off - real := by
      rw [hrec]; simp only [u16]; omega
    have hu2 : u16 real = real := by simp only [u16]; omega
    rw [hu1, hu2]
    generalize hb2 : store_bytes
      (store_bytes buf (dir.last_off + real + DE_REC_LEN)
        (cpu_to_le16 (buf.size - dir.last_off - real)))
      (dir.last_off + DE_REC_LEN) (cpu_to_le16 real) = buf2
    have hb2size : buf2.size = buf.size := by rw [← hb2]; rfl
    have h2len : ∀ v, (cpu_to_le16 v).length = 2 := fun _ => rfl
    have hb2lt : ∀ i, i < dir.last_off → buf2.data i = buf.data i := by
      intro i hi
      rw [← hb2]
      simp only [DE_REC_LEN]
      rw [store_bytes_data_of_lt _ _ _ _ (by omega), store_bytes_data_of_lt _ _ _ _ (by omega)]
    have hb2mid : ∀ i, dir.last_off + 10 ≤ i → i < dir.last_off + real →
        buf2.data i = buf.data i := by
      intro i h1 h2
      rw [← hb2]
      simp only [DE_REC_LEN]
      rw [store_bytes_data_of_ge _ _ _ _ (by rw [h2len]; omega),
        store_bytes_data_of_lt _ _ _ _ (by omega)]
    have hb2rec : load_le16 buf2 (dir.last_off + DE_REC_LEN) = real := by
      rw [← hb2]
      exact load_le16_store_le16 _ _ _ (by omega)
    have hb2rec1 : load_le16 buf2 (dir.last_off + real + DE_REC_LEN)
        = buf.size - dir.last_off - real := by
      rw [← hb2]
      rw [load_le16_store_bytes _ _ _ _ (by
        simp only [DE_REC_LEN, cpu_to_le16, List.length_cons, List.length_nil]; omega)]
      exact load_le16_store_le16 _ _ _ (by omega)
    refine ⟨closed, open_entries ++ [(real, last)],
      ⟨fill_entry s buf2 (dir.last_off + real) name byte_off type, rfl, ?_, ?_, ?_, ?_, ?_, ?_,
        ?_, ?_, ?_, ?_⟩, by simp⟩
    all_goals try dsimp only
    · simpa only [fill_entry_size, hb2size] using hsize
    · simpa only [fill_entry_size, hb2size] using hsz
    · simpa only [fill_entry_size, hb2size] using hlt31
    · refine blocks_tile_e_frame (fun i hi => ?_) hblocks
      rw [fill_entry_data_of_lt s buf2 _ name byte_off type i (by omega)]
      exact hb2lt i (by omega)
    · refine tiles_e_append (b := dir.last_off) ?_ ?_
      · refine tiles_e_frame (fun i hi => ?_) htiles
        rw [fill_entry_data_of_lt s buf2 _ name byte_off type i (by omega)]
        exact hb2lt i hi
      · simp only [TilesE, and_true]
        refine ⟨?_, by omega, ?_⟩
        · rw [← hb2rec]
          apply load_le16_congr
          intro i hi
          simp only [DE_REC_LEN] at hi
          exact fill_entry_data_of_lt s buf2 _ name byte_off type i (by omega)
        · rw [← hread]
          apply read_entry_congr
          intro i h1 h2 h8 h9
          rw [hnl] at h2
          rw [fill_entry_data_of_lt s buf2 _ name byte_off type i (by omega)]
          by_cases hi : i < dir.last_off + 8
          · rw [← hb2]
            simp only [DE_REC_LEN]
            rw [store_bytes_data_of_lt _ _ _ _ (by omega),
              store_bytes_data_of_lt _ _ _ _ (by omega)]
          · exact hb2mid i (by omega) (by omega)
    · rw [fill_entry_rec_len, fill_entry_size, hb2rec1, hb2size]; omega
    · exact read_entry_fill_entry s buf2 _ name byte_off type (by omega) hoff htype
    · exact hino
    · simp only [fill_entry_size, hb2size, entry_of_call, hnrl]; omega
    · simp only [fill_entry_size, hb2size]; omega
  · -- no room behind the last entry: the directory grows by one block
    rw [if_neg hcond] at hret
    simp only at hret
    cases hgrow : grow_directory s dir with
    | none => rw [hgrow] at hret; cases hret
    | some res =>
      obtain ⟨b, p⟩ := res
      rw [hgrow] at hret
      simp only [Option.some.injEq] at hret
      subst hret
      obtain ⟨hp, hbsize, hfit, hsame, hbrec⟩ :=
        grow_directory_spec s dir buf b p hbuf (by omega) h16 hgrow
      rw [← hsize] at hp hbsize hfit
      subst hp
      have hsameF : ∀ i, i < buf.size →
          (fill_entry s b buf.size name byte_off type).data i = buf.data i := by
        intro i hi
        rw [fill_entry_data_of_lt s b _ name byte_off type i hi]
        exact hsame i hi
      have hlastblock : TilesE buf (closed.length * s.blocksize)
          (open_entries ++ [(buf.size - dir.last_off, last)])
          (closed.length * s.blocksize + s.blocksize) := by
        refine tiles_e_append htiles ?_
        simp only [TilesE]
        exact ⟨hrec, by omega, hread, by omega⟩
      refine ⟨closed ++ [open_entries ++ [(buf.size - dir.last_off, last)]], [],
        ⟨fill_entry s b buf.size name byte_off type, rfl, ?_, ?_, ?_, ?_, ?_, ?_, ?_, ?_, ?_,
          ?_⟩, by simp⟩
      all_goals try dsimp only
      · simp only [fill_entry_size]
      · simp only [fill_entry_size, hbsize, List.length_append, List.length_cons,
          List.length_nil, Nat.add_mul, Nat.one_mul, Nat.zero_add]
        omega
      · simp only [fill_entry_size, hbsize]; omega
      · refine blocks_tile_e_snoc
          (blocks_tile_e_frame (fun i hi => hsameF i (by omega)) hblocks) (by simp) ?_
        refine tiles_e_frame (fun i hi => hsameF i (by omega)) ?_
        simpa only [Nat.zero_add] using hlastblock
      · simp only [List.length_append, List.length_cons, List.length_nil, Nat.add_mul,
          Nat.one_mul, Nat.zero_add, TilesE]
        omega
      · rw [fill_entry_rec_len, hbrec, fill_entry_size, hbsize]; omega
      · exact read_entry_fill_entry s b _ name byte_off type (by omega) hoff htype
      · exact hino
      · simp only [fill_entry_size, hbsize, entry_of_call, hnrl]; omega
      · simp only [fill_entry_size, hbsize]; omega

/-- A call of `add_entry_to_directory` that returns has raised the link count
of the owner by one for the type `OCFS2_FT_DIR`, and left it alone otherwise. -/
theorem add_entry_to_directory_links (s : State) (dir dir1 : DirData) (name : List Nat)
    (byte_off type : Nat) (hret : add_entry_to_directory s dir name byte_off type = some dir1) :
    dir1.record.links = dir.record.links + (if type = OCFS2_FT_DIR then 1 else 0) := by
  unfold add_entry_to_directory at hret
  dsimp only at hret
  split at hret
  · simp only [Option.some.injEq] at hret
    subst hret
    dsimp only
    split_ifs <;> rfl
  · split at hret
    · cases hret
    · simp only [Option.some.injEq] at hret
      subst hret
      dsimp only
      split_ifs <;> rfl

/-- A call of `add_entry_to_directory` on a directory with entries returns as
long as the buffer stays below `2^31` bytes, and adds one block at most. -/
theorem add_entry_to_directory_returns_holds (s : State) (dir : DirData) (name : List Nat)
    (byte_off type : Nat) (closed : List (List (Nat × DirEntry)))
    (open_entries : List (Nat × DirEntry)) (last : DirEntry)
    (hinv : DirHolds s.blocksize dir closed open_entries last)
    (hroom : dir.record.file_size + s.blocksize < 2147483648) :
    ∃ dir1, add_entry_to_directory s dir name byte_off type = some dir1 ∧
      dir1.record.file_size ≤ dir.record.file_size + s.blocksize := by
  obtain ⟨buf, hbuf, hsize, _⟩ := hinv
  unfold add_entry_to_directory
  dsimp only
  cases hfs : find_slack dir (OCFS2_DIR_REC_LEN name.length) with
  | some res =>
    obtain ⟨b, de⟩ := res
    exact ⟨_, rfl, by simp⟩
  | none =>
    have hgrow : ∃ b p, grow_directory s dir = some (b, p) ∧
        b.size = dir.record.file_size + s.blocksize := by
      unfold grow_directory
      rw [hbuf]
      simp only
      have hu : u64 (dir.record.file_size + s.blocksize)
          = dir.record.file_size + s.blocksize := by
        simp only [u64]; omega
      rw [hu, to_int32_of_lt _ hroom, if_neg (by omega)]
      exact ⟨_, _, rfl, by simp only [store_bytes, Int.toNat_ofNat]⟩
    obtain ⟨b, p, hg, hb⟩ := hgrow
    simp only [hg]
    exact ⟨_, rfl, by simp only [hb]; omega⟩

/-- The walk of a directory with entries finds the entries of the full blocks,
those of the last block, and the last entry, in this order. -/
theorem dir_entries_of_holds (bs : Nat) (dir : DirData) (closed : List (List (Nat × DirEntry)))
    (open_entries : List (Nat × DirEntry)) (last : DirEntry) (hbs : 0 < bs)
    (hinv : DirHolds bs dir closed open_entries last) :
    ∃ buf, dir.buf = some buf ∧
      dir_entries buf bs = some ((closed.flatten ++ open_entries).map Prod.snd ++ [last]) := by
  obtain ⟨buf, hbuf, hsize, hsz, hlt31, hblocks, htiles, hrec, hread, hlastino, hroom, hlast⟩ :=
    hinv
  have hle := tiles_e_le htiles
  have hrealroom := OCFS2_DIR_REC_LEN_room last.name_len
  have hall : BlocksTileE buf bs 0 (closed ++ [open_entries ++ [(buf.size - dir.last_off, last)]]) := by
    refine blocks_tile_e_snoc hblocks (by simp) ?_
    refine tiles_e_append (b := dir.last_off) (by simpa only [Nat.zero_add] using htiles) ?_
    simp only [TilesE]
    exact ⟨hrec, by omega, hread, by omega⟩
  have hn : buf.size / bs = (closed ++ [open_entries ++ [(buf.size - dir.last_off, last)]]).length := by
    rw [hsz, List.length_append, List.length_singleton]
    have e : closed.length * bs + bs = (closed.length + 1) * bs := by ring
    rw [e, Nat.mul_div_cancel _ hbs]
  refine ⟨buf, hbuf, ?_⟩
  simp only [dir_entries]
  rw [hn, walk_dir_entries_of_blocks hall]
  simp

/-- A sequence of calls that return, each with an inode other than 0, adds the
entries of the calls behind the entries that are there, and counts the
subdirectories among them. -/
theorem add_entries_holds (s : State) (h512 : 512 ≤ s.blocksize) (h16 : s.blocksize < 65536) :
    ∀ (calls : List (List Nat × Nat × Nat)) (dir dir1 : DirData)
      (closed : List (List (Nat × DirEntry))) (open_entries : List (Nat × DirEntry))
      (last : DirEntry),
      (∀ call ∈ calls, call.1.length ≤ 255 ∧ call.2.1 < 18446744073709551616 ∧
        call.2.1 / 2 ^ s.blocksize_bits ≠ 0 ∧ call.2.2 < 256) →
      DirHolds s.blocksize dir closed open_entries last →
      add_entries s dir calls = some dir1 →
      ∃ closed1 open1 last1, DirHolds s.blocksize dir1 closed1 open1 last1 ∧
        (closed1.flatten ++ open1).map Prod.snd ++ [last1] =
          (closed.flatten ++ open_entries).map Prod.snd ++ [last] ++
            calls.map (entry_of_call s) ∧
        dir1.record.links = dir.record.links +
          (calls.filter (fun call => call.2.2 = OCFS2_FT_DIR)).length := by
  intro calls
  induction calls with
  | nil =>
    intro dir dir1 closed open_entries last _ hinv hret
    simp only [add_entries, Option.some.injEq] at hret
    subst hret
    exact ⟨closed, open_entries, last, hinv, by simp, by simp⟩
  | cons call calls ih =>
    intro dir dir1 closed open_entries last hvalid hinv hret
    obtain ⟨name, byte_off, type⟩ := call
    simp only [add_entries] at hret
    cases hstep : add_entry_to_directory s dir name byte_off type with
    | none => rw [hstep] at hret; cases hret
    | some dir2 =>
      rw [hstep] at hret
      simp only at hret
      obtain ⟨h1, h2, h3, h4⟩ := hvalid (name, byte_off, type) (List.mem_cons_self _ _)
      obtain ⟨closed2, open2, hinv2, hent2⟩ :=
        add_entry_to_directory_holds s dir dir2 name byte_off type closed open_entries last
          h512 h16 h1 h2 h3 h4 hinv hstep
      have hlinks2 := add_entry_to_directory_links s dir dir2 name byte_off type hstep
      obtain ⟨closed1, open1, last1, hinv1, hent1, hlinks1⟩ :=
        ih dir2 dir1 closed2 open2 _ (fun c hc => hvalid c (List.mem_cons_of_mem _ hc)) hinv2 hret
      refine ⟨closed1, open1, last1, hinv1, ?_, ?_⟩
      · rw [hent1, hent2]
        simp
      · rw [hlinks1, hlinks2]
        by_cases ht : type = OCFS2_FT_DIR
        · simp only [List.filter_cons, ht, decide_True, if_true, List.length_cons]
          omega
        · simp only [List.filter_cons, ht, decide_False, if_false, Bool.false_eq_true]
          omega

/-- A sequence of calls returns as long as the buffer stays below `2^31`
bytes. -/
theorem add_entries_returns_holds (s : State) (h512 : 512 ≤ s.blocksize)
    (h16 : s.blocksize < 65536) :
    ∀ (calls : List (List Nat × Nat × Nat)) (dir : DirData)
      (closed : List (List (Nat × DirEntry))) (open_entries : List (Nat × DirEntry))
      (last : DirEntry),
      (∀ call ∈ calls, call.1.length ≤ 255 ∧ call.2.1 < 18446744073709551616 ∧
        call.2.1 / 2 ^ s.blocksize_bits ≠ 0 ∧ call.2.2 < 256) →
      DirHolds s.blocksize dir closed open_entries last →
      dir.record.file_size + calls.length * s.blocksize < 2147483648 →
      ∃ dir1, add_entries s dir calls = some dir1 := by
  intro calls
  induction calls with
  | nil => intro dir _ _ _ _ _ _; exact ⟨dir, rfl⟩
  | cons call calls ih =>
    intro dir closed open_entries last hvalid hinv hroom
    obtain ⟨name, byte_off, type⟩ := call
    simp only [List.length_cons, Nat.succ_mul] at hroom
    obtain ⟨dir2, hstep, hsize2⟩ :=
      add_entry_to_directory_returns_holds s dir name byte_off type closed open_entries last hinv
        (by omega)
    obtain ⟨h1, h2, h3, h4⟩ := hvalid (name, byte_off, type) (List.mem_cons_self _ _)
    obtain ⟨closed2, open2, hinv2, _⟩ :=
      add_entry_to_directory_holds s dir dir2 name byte_off type closed open_entries last
        h512 h16 h1 h2 h3 h4 hinv hstep
    obtain ⟨dir1, hrest⟩ :=
      ih dir2 closed2 open2 _ (fun c hc => hvalid c (List.mem_cons_of_mem _ hc)) hinv2 (by omega)
    exact ⟨dir1, by simp only [add_entries, hstep, hrest]⟩

/-- C22 (as amended): starting from an empty directory, with a block size from
512 to 32768 bytes, for every sequence of `add_entry_to_directory` calls with
names of up to 255 bytes, types below 256 and byte offsets whose inode
`byte_off >> blocksize_bits` is not 0: the calls return as long as the buffer
stays below `2^31` bytes, and when they have returned, the walk of the buffer
by `rec_len` finds exactly one entry for every call, in the order of the calls,
each with the name, the name length, the inode and the type of its call (so no
call has changed these members of an earlier entry), and the link count of the
owner has grown by the number of calls of type `OCFS2_FT_DIR`. -/
theorem add_entry_to_directory_keeps_entries (s : State) (record : SystemFileDiskRecord)
    (calls : List (List Nat × Nat × Nat)) (h512 : 512 ≤ s.blocksize)
    (hmax : s.blocksize ≤ 32768)
    (hvalid : ∀ call ∈ calls, call.1.length ≤ 255 ∧ call.2.1 < 18446744073709551616 ∧
      call.2.1 / 2 ^ s.blocksize_bits ≠ 0 ∧ call.2.2 < 256)
    (hcalls : calls ≠ []) :
    (calls.length * s.blocksize < 2147483648 →
      ∃ dir, add_entries s (alloc_directory record) calls = some dir) ∧
    ∀ dir, add_entries s (alloc_directory record) calls = some dir →
      ∃ buf, dir.buf = some buf ∧
        dir_entries buf s.blocksize = some (calls.map (entry_of_call s)) ∧
        dir.record.links =
          record.links + (calls.filter (fun call => call.2.2 = OCFS2_FT_DIR)).length := by
  have h16 : s.blocksize < 65536 := by omega
  cases calls with
  | nil => exact absurd rfl hcalls
  | cons call rest =>
    obtain ⟨name, byte_off, type⟩ := call
    obtain ⟨h1, h2, h3, h4⟩ := hvalid (name, byte_off, type) (List.mem_cons_self _ _)
    have hrest : ∀ c ∈ rest, c.1.length ≤ 255 ∧ c.2.1 < 18446744073709551616 ∧
        c.2.1 / 2 ^ s.blocksize_bits ≠ 0 ∧ c.2.2 < 256 :=
      fun c hc => hvalid c (List.mem_cons_of_mem _ hc)
    obtain ⟨dir1, hfirst, hinv1⟩ :=
      add_entry_to_directory_holds_first s (alloc_directory record) name byte_off type rfl h512
        h16 h1 h2 h3 h4
    have hlinks1 := add_entry_to_directory_links s _ dir1 name byte_off type hfirst
    have hsize1 : dir1.record.file_size = s.blocksize := by
      obtain ⟨buf, _, hs, hsz, _⟩ := hinv1
      rw [← hs, hsz]
      simp
    constructor
    · intro hroom
      simp only [List.length_cons, Nat.succ_mul] at hroom
      obtain ⟨dir, hdir⟩ :=
        add_entries_returns_holds s h512 h16 rest dir1 [] [] _ hrest hinv1 (by omega)
      exact ⟨dir, by simp only [add_entries, hfirst, hdir]⟩
    · intro dir hdir
      simp only [add_entries, hfirst] at hdir
      obtain ⟨closed, open_entries, last, hinv, hent, hlinks⟩ :=
        add_entries_holds s h512 h16 rest dir1 dir [] [] _ hrest hinv1 hdir
      obtain ⟨buf, hbuf, hwalk⟩ :=
        dir_entries_of_holds s.blocksize dir closed open_entries last (by omega) hinv
      refine ⟨buf, hbuf, ?_, ?_⟩
      · rw [hwalk, hent]
        simp
      · rw [hlinks, hlinks1]
        simp only [alloc_directory]
        by_cases ht : type = OCFS2_FT_DIR
        · simp only [List.filter_cons, ht, decide_True, if_true, List.length_cons]
          omega
        · simp only [List.filter_cons, ht, decide_False, if_false, Bool.false_eq_true]
          omega

/-- A directory that is given the entries `.`, `..` and `journal`: the walk
finds the three entries, and the two of the directory type are counted as
links. -/
theorem add_entry_to_directory_keeps_entries_witness :
    ∃ dir buf,
      add_entries scenario_state (alloc_directory zero_record)
        [(cstr ".", 20480, 2), (cstr "..", 20480, 2), (cstr "journal", 36864, 1)] = some dir ∧
      dir.buf = some buf ∧
      dir_entries buf 4096 =
        some [{ inode := 5, name_len := 1, file_type := 2, name := cstr "." },
          { inode := 5, name_len := 2, file_type := 2, name := cstr ".." },
          { inode := 9, name_len := 7, file_type := 1, name := cstr "journal" }] ∧
      dir.record.links = 2 := by
  have h := add_entry_to_directory_keeps_entries scenario_state zero_record
    [(cstr ".", 20480, 2), (cstr "..", 20480, 2), (cstr "journal", 36864, 1)]
    (by decide) (by decide) (by decide) (by simp)
  obtain ⟨dir, hdir⟩ := h.1 (by decide)
  obtain ⟨buf, hbuf, hent, hlinks⟩ := h.2 dir hdir
  exact ⟨dir, buf, hdir, hbuf, hent.trans (by decide), hlinks.trans (by decide)⟩

/-- C22 (counterexample): the entry `a` is given the byte offset 0, so its
inode is 0, the mark of a free entry; the next call takes the entry over for
`b`, and the walk of the final buffer finds the one entry `b` where the two
calls are to have left two. -/
theorem add_entry_to_directory_keeps_entries_counterexample :
    ∃ dir buf,
      add_entries scenario_state (alloc_directory zero_record)
        [(cstr "a", 0, 1), (cstr "b", 4096, 1)] = some dir ∧
      dir.buf = some buf ∧
      dir_entries buf scenario_state.blocksize =
        some [{ inode := 1, name_len := 1, file_type := 1, name := cstr "b" }] ∧
      [(cstr "a", 0, 1), (cstr "b", 4096, 1)].map (entry_of_call scenario_state) =
        [{ inode := 0, name_len := 1, file_type := 1, name := cstr "a" },
          { inode := 1, name_len := 1, file_type := 1, name := cstr "b" }] :=
  ⟨_, _, rfl, rfl, by decide, by decide⟩

end Mkfs
